import Mathlib

/-!
# VDirectoryTree: the folder tree of a notebook

A shallow embedding of `src/vdirectorytree.cpp`.

* A `VDirectory *` is a natural number (the address of the directory object) and the
  directory objects are read through `Env`, the collaborator interface the tree consumes
  (`getSubDirs`, `isExpanded`, `open`, `getParentDirectory`, `getNotebook`).
* A `QTreeWidgetItem` is a finite tree.  Every item carries its own address `ptr`, the
  `VDirectory *` stored by `fillTreeItem`, the expansion and hidden state the view keeps for
  it, and its children in display order.
* `new QTreeWidgetItem(...)` takes the next free address from a counter that is threaded
  through every function that can allocate.
* The view emits `itemExpanded` when an item goes from collapsed to expanded, and the
  constructor connects that signal to `handleItemExpanded`; `expandItem` below therefore runs
  the slot.  Functions that can re-enter each other this way carry a bound `fuel` on the depth
  of the call stack and return `none` when the bound is too small.
* The system clipboard is given by the JSON value its text decodes to.  The primitives that
  change the directories (`copyDirectory`, `createSubDirectory`, `deleteDirectory`) and the
  editor area are parameters, and every call and message is appended to a log.
* A `QChar` is its code, and the static local `secondKey` of `handleKeyNavigation` is a field
  of the navigation state.
-/

namespace VNote

/-! ## Directories (collaborator) -/

/-- What the tree reads from one `VDirectory`. -/
structure VDirectory where
  /-- The value of `getSubDirs()`, in order. -/
  subDirs : List Nat
  /-- The value of `isExpanded()`. -/
  expanded : Bool
  /-- The result of `open()`. -/
  openOk : Bool
  /-- The value of `getParentDirectory()`; `none` is `NULL`. -/
  parent : Option Nat
  /-- The value of `getNotebook()`. -/
  notebook : Nat

/-- The directory objects, by address. -/
abbrev Env := Nat → VDirectory

/-! ## Tree items -/

/-- A `QTreeWidgetItem` with the subtree below it. -/
inductive QTreeWidgetItem where
  | mk (ptr : Nat) (dir : Nat) (expanded : Bool) (hidden : Bool)
      (children : List QTreeWidgetItem)

namespace QTreeWidgetItem

/-- The address of the item. -/
def ptr : QTreeWidgetItem → Nat
  | mk p _ _ _ _ => p

/-- The directory of the item: `getVDirectory(item)`. -/
def dir : QTreeWidgetItem → Nat
  | mk _ d _ _ _ => d

/-- The view state `item->isExpanded()`. -/
def isExpanded : QTreeWidgetItem → Bool
  | mk _ _ e _ _ => e

/-- The view state `item->isHidden()`. -/
def isHidden : QTreeWidgetItem → Bool
  | mk _ _ _ h _ => h

/-- The children `item->child(0)`, ..., `item->child(childCount() - 1)`. -/
def children : QTreeWidgetItem → List QTreeWidgetItem
  | mk _ _ _ _ cs => cs

/-- The number `item->childCount()`. -/
def childCount (item : QTreeWidgetItem) : Nat :=
  item.children.length

/-- The item with its child list replaced. -/
def setChildren : QTreeWidgetItem → List QTreeWidgetItem → QTreeWidgetItem
  | mk p d e h _, cs => mk p d e h cs

/-- The item with its expansion state replaced (no signal). -/
def setExpandedFlag : QTreeWidgetItem → Bool → QTreeWidgetItem
  | mk p d _ h cs, e => mk p d e h cs

end QTreeWidgetItem

/-- The item made by `new QTreeWidgetItem(parent)` followed by `fillTreeItem(item, dir)`:
collapsed, not hidden, without children. -/
def newItem (ptr dir : Nat) : QTreeWidgetItem :=
  .mk ptr dir false false []

mutual
/-- Expansion state after the item left the view: `removeChild` / `takeTopLevelItem` remove the
rows of the item and of everything below it, and the view keeps no expansion state for rows
that were removed. -/
def collapseAll : QTreeWidgetItem → QTreeWidgetItem
  | .mk p d _ h cs => .mk p d false h (collapseAllList cs)
/-- The function `collapseAll` on every item of a child list. -/
def collapseAllList : List QTreeWidgetItem → List QTreeWidgetItem
  | [] => []
  | c :: cs => collapseAll c :: collapseAllList cs
end

/-! ## Loops over children -/

/-- A loop `for (i = 0; i < cnt; ++i) f(child(i))` over existing children; `f` gets the
allocation counter and returns the updated child and counter. -/
def forItems (f : Nat → QTreeWidgetItem → Option (QTreeWidgetItem × Nat)) :
    Nat → List QTreeWidgetItem → Option (List QTreeWidgetItem × Nat)
  | next, [] => some ([], next)
  | next, c :: cs =>
    match f next c with
    | none => none
    | some (c1, n1) =>
      match forItems f n1 cs with
      | none => none
      | some (cs1, n2) => some (c1 :: cs1, n2)

/-- A loop `for (i = 0; i < subDirs.size(); ++i)` that makes a new item for `subDirs[i]`
(appended to the parent) and runs `f` on it before the next one is made. -/
def forDirs (f : Nat → QTreeWidgetItem → Option (QTreeWidgetItem × Nat)) :
    Nat → List Nat → Option (List QTreeWidgetItem × Nat)
  | next, [] => some ([], next)
  | next, d :: ds =>
    match f (next + 1) (newItem next d) with
    | none => none
    | some (c1, n1) =>
      match forDirs f n1 ds with
      | none => none
      | some (cs1, n2) => some (c1 :: cs1, n2)

/-! ## buildSubTree, expandItem and the slot of itemExpanded -/

mutual
/-- The function `VDirectoryTree::buildSubTree(p_parent, p_depth)` (lines 211-254).  The result
is the item with its new subtree, and the allocation counter. -/
def buildSubTree (env : Env) :
    Nat → Nat → QTreeWidgetItem → Int → Option (QTreeWidgetItem × Nat)
  | 0, _, _, _ => none
  | fuel + 1, next, item, depth =>
    if depth = 0 then some (item, next)
    else if (env item.dir).openOk = false then some (item, next)
    else
      let built :=
        if item.childCount > 0 then
          forItems (fun nx c => buildSubTree env fuel nx c (depth - 1)) next item.children
        else
          forDirs (fun nx c => buildSubTree env fuel nx c (depth - 1)) next
            (env item.dir).subDirs
      match built with
      | none => none
      | some (cs, n1) =>
        if (env item.dir).expanded then expandItem env fuel n1 (item.setChildren cs)
        else some (item.setChildren cs, n1)
termination_by structural fuel => fuel
/-- The call `expandItem(item)` of the view: nothing happens when the item is expanded already;
otherwise the item becomes expanded and `itemExpanded(item)` is emitted, which runs the slot
`handleItemExpanded` (connected in the constructor, lines 34-35). -/
def expandItem (env : Env) : Nat → Nat → QTreeWidgetItem → Option (QTreeWidgetItem × Nat)
  | 0, _, _ => none
  | fuel + 1, next, item =>
    if item.isExpanded then some (item, next)
    else handleItemExpanded env fuel next (item.setExpandedFlag true)
termination_by structural fuel => fuel
/-- The slot `VDirectoryTree::handleItemExpanded(p_item)` (lines 264-272).  Its last statement
`dir->setExpanded(true)` stores the value the flag already has: the slot is only reached from
`expandItem`, which `buildSubTree` and `expandSubTree` call under `dir->isExpanded()`. -/
def handleItemExpanded (env : Env) :
    Nat → Nat → QTreeWidgetItem → Option (QTreeWidgetItem × Nat)
  | 0, _, _ => none
  | fuel + 1, next, item => buildChildren env fuel next item
termination_by structural fuel => fuel
/-- The function `VDirectoryTree::buildChildren(p_item)` (lines 274-290). -/
def buildChildren (env : Env) : Nat → Nat → QTreeWidgetItem → Option (QTreeWidgetItem × Nat)
  | 0, _, _ => none
  | fuel + 1, next, item =>
    match forItems
        (fun nx c => if c.childCount > 0 then some (c, nx) else buildSubTree env fuel nx c 1)
        next item.children with
    | none => none
    | some (cs, n1) => some (item.setChildren cs, n1)
termination_by structural fuel => fuel
end

mutual
/-- The function `VDirectoryTree::expandSubTree(p_item)` (lines 1064-1080) on a non-NULL item;
`Q_ASSERT` is compiled out. -/
def expandSubTree (env : Env) (fuel : Nat) :
    Nat → QTreeWidgetItem → Option (QTreeWidgetItem × Nat)
  | next, .mk p d e h cs =>
    match expandSubTreeList env fuel next cs with
    | none => none
    | some (cs1, n1) =>
      if (env d).expanded then expandItem env fuel n1 (.mk p d e h cs1)
      else some (.mk p d e h cs1, n1)
/-- The loop of `expandSubTree` over the children. -/
def expandSubTreeList (env : Env) (fuel : Nat) :
    Nat → List QTreeWidgetItem → Option (List QTreeWidgetItem × Nat)
  | next, [] => some ([], next)
  | next, c :: cs =>
    match expandSubTree env fuel next c with
    | none => none
    | some (c1, n1) =>
      match expandSubTreeList env fuel n1 cs with
      | none => none
      | some (cs1, n2) => some (c1 :: cs1, n2)
end

/-! ## updateItemDirectChildren -/

/-- The hash `QHash<VDirectory *, QTreeWidgetItem *>`: directory address to item address. -/
abbrev ItemDirMap := List (Nat × Nat)

/-- The call `itemDirMap.remove(dir)`. -/
def ItemDirMap.remove (m : ItemDirMap) (dir : Nat) : ItemDirMap :=
  m.filter (fun e => e.1 != dir)

/-- The call `itemDirMap.insert(dir, item)`: an earlier value of the key is replaced. -/
def ItemDirMap.insert (m : ItemDirMap) (dir item : Nat) : ItemDirMap :=
  (dir, item) :: ItemDirMap.remove m dir

/-- The call `itemDirMap.value(dir, NULL)`; `none` is `NULL`. -/
def ItemDirMap.value (m : ItemDirMap) (dir : Nat) : Option Nat :=
  m.lookup dir

/-- The first loop of `updateItemDirectChildren` (lines 303-308). -/
def buildItemDirMap : List QTreeWidgetItem → ItemDirMap → ItemDirMap
  | [], m => m
  | c :: cs, m => buildItemDirMap cs (ItemDirMap.insert m c.dir c.ptr)

/-- The child with the given address, if it is in the list. -/
def findChild (p : Nat) (cs : List QTreeWidgetItem) : Option QTreeWidgetItem :=
  cs.find? (fun c => c.ptr == p)

/-- The call `parent->removeChild(item)` (or `takeTopLevelItem(indexOfTopLevelItem(item))`):
the first child with that address leaves the list. -/
def removeChild (p : Nat) (cs : List QTreeWidgetItem) : List QTreeWidgetItem :=
  cs.eraseP (fun c => c.ptr == p)

/-- The call `parent->insertChild(i, item)` (or `insertTopLevelItem(i, item)`): Qt inserts
nothing when the index is greater than the number of children. -/
def insertChild (i : Nat) (item : QTreeWidgetItem) (cs : List QTreeWidgetItem) :
    List QTreeWidgetItem :=
  if i ≤ cs.length then cs.take i ++ item :: cs.drop i else cs

/-- The second loop of `updateItemDirectChildren` (lines 310-337), from index `i` on.  The
state is the child list of the parent, the hash and the allocation counter. -/
def updateLoop (env : Env) (fuel : Nat) :
    Nat → List Nat → List QTreeWidgetItem → ItemDirMap → Nat →
      Option (List QTreeWidgetItem × ItemDirMap × Nat)
  | _, [], cs, m, next => some (cs, m, next)
  | i, dir :: dirs, cs, m, next =>
    match ItemDirMap.value m dir with
    | some p =>
      match findChild p cs with
      | some item =>
        let cs1 := removeChild p cs
        if i ≤ cs1.length then
          -- the item is back in the view, collapsed; expandSubTree(item) works on it
          match expandSubTree env fuel next (collapseAll item) with
          | none => none
          | some (item1, n1) =>
            updateLoop env fuel (i + 1) dirs (insertChild i item1 cs1)
              (ItemDirMap.remove m dir) n1
        else
          -- insertChild refused the index: the item is in no view and expandItem is void
          updateLoop env fuel (i + 1) dirs cs1 (ItemDirMap.remove m dir) next
      | none =>
        -- a value of the hash that is no child: removeChild finds nothing
        updateLoop env fuel (i + 1) dirs cs (ItemDirMap.remove m dir) next
    | none =>
      -- new QTreeWidgetItem(parent) appends the item
      match buildSubTree env fuel (next + 1) (newItem next dir) 1 with
      | none => none
      | some (item1, n1) =>
        match expandSubTree env fuel n1 item1 with
        | none => none
        | some (item2, n2) => updateLoop env fuel (i + 1) dirs (cs ++ [item2]) m n2

/-- The last loop of `updateItemDirectChildren` (lines 339-350): the items left in the hash
are removed and deleted. -/
def deleteLeftItems : ItemDirMap → List QTreeWidgetItem → List QTreeWidgetItem
  | [], cs => cs
  | e :: m, cs => deleteLeftItems m (removeChild e.2 cs)

/-- The function `VDirectoryTree::updateItemDirectChildren(p_item)` (lines 292-351).
`parentDir` is the directory of `p_item`, or the root directory of the notebook when `p_item`
is `NULL`; `children` is the child list of `p_item`, or the top-level items of the widget.  The
result is the new child list and the allocation counter. -/
def updateItemDirectChildren (env : Env) (fuel next parentDir : Nat)
    (children : List QTreeWidgetItem) : Option (List QTreeWidgetItem × Nat) :=
  match updateLoop env fuel 0 (env parentDir).subDirs children (buildItemDirMap children [])
      next with
  | none => none
  | some (cs, m, n1) => some (deleteLeftItems m cs, n1)

/-! ## The widget -/

mutual
/-- The item with address `p` in the subtree of an item, searched in display order. -/
def findInItem (p : Nat) : QTreeWidgetItem → Option QTreeWidgetItem
  | .mk q d e h cs => if q = p then some (.mk q d e h cs) else findInItems p cs
/-- The item with address `p` below a list of items: what dereferencing a
`QTreeWidgetItem *` of the widget gives. -/
def findInItems (p : Nat) : List QTreeWidgetItem → Option QTreeWidgetItem
  | [] => none
  | c :: cs =>
    match findInItem p c with
    | some r => some r
    | none => findInItems p cs
end

mutual
/-- The subtree with the item at address `p` replaced by `new`. -/
def replaceInItem (p : Nat) (new : QTreeWidgetItem) : QTreeWidgetItem → QTreeWidgetItem
  | .mk q d e h cs => if q = p then new else .mk q d e h (replaceInItems p new cs)
/-- The items with the item at address `p` replaced by `new`: a write through a
`QTreeWidgetItem *` of the widget. -/
def replaceInItems (p : Nat) (new : QTreeWidgetItem) :
    List QTreeWidgetItem → List QTreeWidgetItem
  | [] => []
  | c :: cs => replaceInItem p new c :: replaceInItems p new cs
end

/-- The state of a `VDirectoryTree` with a notebook set. -/
structure VDirectoryTree where
  /-- The notebook `m_notebook`. -/
  notebook : Nat
  /-- The directory `m_notebook->getRootDir()`. -/
  rootDir : Nat
  /-- The top-level items `topLevelItem(0)`, ... in display order. -/
  topLevel : List QTreeWidgetItem
  /-- The address of `currentItem()`; `none` is `NULL`. -/
  current : Option Nat
  /-- The value of `m_notebookCurrentDirMap` at `m_notebook`; `none` is no entry, or a
  directory that is gone. -/
  remembered : Option Nat
  /-- The next free item address. -/
  next : Nat
  /-- The token `m_magicForClipboard`. -/
  magic : Int

/-- The first directory-matching item of a child list: the loops
`for (i < nrChild) if (getVDirectory(item) == p_dir) return item;`. -/
def findByDir (d : Nat) (cs : List QTreeWidgetItem) : Option Nat :=
  (cs.find? (fun c => c.dir == d)).map QTreeWidgetItem.ptr

/-- The call `setCurrentItem(item)` with a non-NULL item, with the slot
`currentDirectoryItemChanged` (lines 549-559) that `currentItemChanged` runs when the current
item changes. -/
def setCurrentItem (t : VDirectoryTree) (p : Nat) : VDirectoryTree :=
  if t.current = some p then t
  else
    match findInItems p t.topLevel with
    | some item => { t with current := some p, remembered := some item.dir }
    | none => { t with current := some p }

/-- The function `VDirectoryTree::findVDirectory(p_dir, p_widget)` (lines 969-1004): the item
found (`none` is `NULL`) and the flag `p_widget`. -/
def findVDirectory (env : Env) (t : VDirectoryTree) : Nat → Option Nat → Option (Option Nat × Bool)
  | 0, _ => none
  | _ + 1, none => some (none, false)
  | fuel + 1, some d =>
    if (env d).notebook ≠ t.notebook then some (none, false)
    else if d = t.rootDir then some (none, true)
    else
      match findVDirectory env t fuel (env d).parent with
      | none => none
      | some (some pp, _) =>
        match findInItems pp t.topLevel with
        | some pItem => some (findByDir d pItem.children, false)
        | none => some (none, false)
      | some (none, true) => some (findByDir d t.topLevel, false)
      | some (none, false) => some (none, false)

/-- The function `VDirectoryTree::restoreCurrentItem()` (lines 196-209). -/
def restoreCurrentItem (env : Env) (fuel : Nat) (t : VDirectoryTree) :
    Option (VDirectoryTree × Bool) :=
  match t.remembered with
  | some d =>
    match findVDirectory env t fuel (some d) with
    | none => none
    | some (some p, _) => some (setCurrentItem t p, true)
    | some (none, _) => some (t, false)
  | none => some (t, false)

/-- The function `VDirectoryTree::updateDirectoryTree()` (lines 176-194). -/
def updateDirectoryTree (env : Env) (fuel : Nat) (t : VDirectoryTree) : Option VDirectoryTree :=
  -- clear()
  let t0 : VDirectoryTree := { t with topLevel := [], current := none }
  match forDirs (fun nx c => buildSubTree env fuel nx c 1) t0.next (env t0.rootDir).subDirs with
  | none => none
  | some (items, n1) =>
    let t1 : VDirectoryTree := { t0 with topLevel := items, next := n1 }
    match restoreCurrentItem env fuel t1 with
    | none => none
    | some (t2, restored) =>
      if !restored && t2.topLevel.length > 0 then
        match t2.topLevel with
        | first :: _ => some (setCurrentItem t2 first.ptr)
        | [] => some t2
      else some t2

/-- The function `VDirectoryTree::expandToVDirectory(p_directory)` (lines 1024-1062): the new
state and the item found (`none` is `NULL`). -/
def expandToVDirectory (env : Env) :
    Nat → VDirectoryTree → Option Nat → Option (VDirectoryTree × Option Nat)
  | 0, _, _ => none
  | _ + 1, t, none => some (t, none)
  | fuel + 1, t, some d =>
    if (env d).notebook ≠ t.notebook ∨ d = t.rootDir then some (t, none)
    else if (env d).parent = some t.rootDir then some (t, findByDir d t.topLevel)
    else
      match expandToVDirectory env fuel t (env d).parent with
      | none => none
      | some (t1, none) => some (t1, none)
      | some (t1, some pp) =>
        match findInItems pp t1.topLevel with
        | none => some (t1, none)
        | some pItem =>
          let built :=
            if pItem.childCount = 0 then buildSubTree env fuel t1.next pItem 1
            else some (pItem, t1.next)
          match built with
          | none => none
          | some (pItem1, n1) =>
            some ({ t1 with topLevel := replaceInItems pp pItem1 t1.topLevel, next := n1 },
              findByDir d pItem1.children)

/-- The function `VDirectoryTree::locateDirectory(p_directory)` (lines 1006-1022): the new
state and the returned flag. -/
def locateDirectory (env : Env) (fuel : Nat) (t : VDirectoryTree) (p_directory : Option Nat) :
    Option (VDirectoryTree × Bool) :=
  match p_directory with
  | none => some (t, false)
  | some d =>
    if (env d).notebook ≠ t.notebook then some (t, false)
    else
      match expandToVDirectory env fuel t (some d) with
      | none => none
      | some (t1, some p) => some (setCurrentItem t1 p, true)
      | some (t1, none) => some (t1, false)

/-! ## The clipboard -/

/-- A `QJsonValue`.  A number is kept as `some n` when it is the whole number `n` and as
`none` when it has a fractional part. -/
inductive QJsonValue where
  | null
  | bool (b : Bool)
  | double (whole : Option Int)
  | string (s : String)
  | array (xs : List QJsonValue)
  | object (fields : List (String × QJsonValue))

/-- A `QJsonObject`: its fields. -/
abbrev QJsonObject := List (String × QJsonValue)

/-- The call `obj.contains(key)`. -/
def QJsonObject.contains (obj : QJsonObject) (key : String) : Bool :=
  (obj.lookup key).isSome

/-- The call `obj[key]`; `none` is the undefined value. -/
def QJsonObject.get (obj : QJsonObject) (key : String) : Option QJsonValue :=
  obj.lookup key

/-- The call `value.toInt()`: the number when the value is a whole number that fits an `int`,
and the default `0` otherwise. -/
def QJsonValue.toInt : Option QJsonValue → Int
  | some (.double (some n)) => if -2147483648 ≤ n ∧ n ≤ 2147483647 then n else 0
  | _ => 0

/-- The call `value.toArray()`: the elements when the value is an array, and the empty array
otherwise. -/
def QJsonValue.toArray : Option QJsonValue → List QJsonValue
  | some (.array xs) => xs
  | _ => []

/-- The constants of `ClipboardConfig` and the discriminant `ClipboardOpType::CopyDir`, which
are declared outside this file. -/
structure ClipboardConfig where
  c_magic : String
  c_type : String
  c_isCut : String
  c_dirs : String
  copyDir : Int

/-- Modelled from the spec: `VUtils::clipboardToJson()` is declared outside this file.  The
clipboard is given by what its text decodes to, `none` when it holds no text that parses as
JSON; the result is the object decoded, and the empty object for everything else. -/
def clipboardToJson : Option QJsonValue → QJsonObject
  | some (.object fields) => fields
  | _ => []

/-- The function `VDirectoryTree::checkMagic(p_magic)` (lines 1196-1199). -/
def checkMagic (m_magicForClipboard p_magic : Int) : Bool :=
  m_magicForClipboard == p_magic

/-- The function `VDirectoryTree::pasteAvailable()` (lines 865-894). -/
def pasteAvailable (cfg : ClipboardConfig) (m_magicForClipboard : Int)
    (clipboard : Option QJsonValue) : Bool :=
  let obj := clipboardToJson clipboard
  if obj.isEmpty then false
  else if !QJsonObject.contains obj cfg.c_type then false
  else if QJsonValue.toInt (QJsonObject.get obj cfg.c_type) ≠ cfg.copyDir then false
  else if !QJsonObject.contains obj cfg.c_magic || !QJsonObject.contains obj cfg.c_isCut
      || !QJsonObject.contains obj cfg.c_dirs then false
  else if !checkMagic m_magicForClipboard (QJsonValue.toInt (QJsonObject.get obj cfg.c_magic))
    then false
  else !(QJsonValue.toArray (QJsonObject.get obj cfg.c_dirs)).isEmpty

/-! ## Copy, cut and paste -/

/-- The assignment `obj[key] = value`: an earlier value of the key is replaced. -/
def QJsonObject.set (obj : QJsonObject) (key : String) (value : QJsonValue) : QJsonObject :=
  (key, value) :: obj.filter (fun e => e.1 != key)

/-- The call `value.toBool()`: the flag when the value is a boolean, and the default `false`
otherwise. -/
def QJsonValue.toBool : Option QJsonValue → Bool
  | some (.bool b) => b
  | _ => false

/-- The call `value.toString()`: the text when the value is a string, and the null string
otherwise. -/
def QJsonValue.toString : Option QJsonValue → String
  | some (.string s) => s
  | _ => ""

/-- The `int` with the given 32-bit pattern (two's complement). -/
def toInt32 (bits : Nat) : Int :=
  if bits % 2 ^ 32 < 2 ^ 31 then ((bits % 2 ^ 32 : Nat) : Int)
  else ((bits % 2 ^ 32 : Nat) : Int) - 2 ^ 32

/-- The function `VDirectoryTree::getNewMagic()` (lines 1188-1194): the new value of
`m_magicForClipboard`.  `time` is the value of `QDateTime::currentDateTime().toTime_t()` and
`rand` the value of `qrand()` at the call. -/
def getNewMagic (time rand : Nat) : Int :=
  toInt32 ((time % 2 ^ 32) ||| (rand % 2 ^ 32))

/-- What the tree reads from `g_vnote` and from the directory objects. -/
structure Directories where
  /-- The directory objects. -/
  env : Env
  /-- The value of `dir->getName()`. -/
  getName : Nat → String
  /-- The value of `dir->fetchPath()`. -/
  fetchPath : Nat → String
  /-- The call `g_vnote->getInternalDirectory(path)`; `none` is `NULL`. -/
  getInternalDirectory : String → Option Nat

/-- What the widget shows or asks of its collaborators, in the order of the calls. -/
inductive Event where
  /-- The warning "VNote could not find this folder in any notebook". -/
  | warnNotInternal (path : String)
  /-- A call of `VDirectory::copyDirectory`. -/
  | copyDirectory (dest : Nat) (name : String) (src : Nat) (isCut : Bool)
  /-- The warning "Fail to copy folder". -/
  | warnCopyFailed (path : String)
  /-- A call of `updateItemDirectChildren(item)`; `none` is `NULL`. -/
  | updateItemDirectChildren (item : Option Nat)
  /-- The signal `directoryUpdated(dir)`. -/
  | directoryUpdated (dir : Nat)
  /-- The status message "n folder(s) pasted". -/
  | statusPasted (n : Nat)
  /-- The status message "n folder(s) copied" or "cut". -/
  | statusCopied (n : Nat) (isCut : Bool)
  /-- A call of `m_editArea->closeFile(dir, force)` and what it returned. -/
  | closeFile (dir : Nat) (force : Bool) (closed : Bool)
  /-- A call of `VDirectory::deleteDirectory(dir, false, &msg)`. -/
  | deleteDirectory (dir : Nat)
  /-- The warning "Fail to delete folder". -/
  | warnDeleteFailed (dir : Nat)
  /-- The status message "1 folder deleted". -/
  | statusDeleted (n : Nat)
  /-- A call of `dir->createSubDirectory(name, &msg)`. -/
  | createSubDirectory (dir : Nat) (name : String)
  /-- The warning "Fail to create subfolder" or "Fail to create root folder". -/
  | warnCreateFailed (name : String)
  deriving DecidableEq

/-- The widget with what is around it: the directories, the system clipboard and the calls
and messages made so far. -/
structure World where
  /-- The directories. -/
  dirs : Directories
  /-- The widget. -/
  tree : VDirectoryTree
  /-- The text of `QApplication::clipboard()`, by the JSON value it decodes to; `none` when
  it is no JSON text. -/
  clipboard : Option QJsonValue
  /-- The calls and messages so far. -/
  log : List Event

/-- The function `VDirectoryTree::copySelectedDirectories(p_isCut)` (lines 704-733).  `items`
is `selectedItems()`; `time` and `rand` are what the clock and `qrand()` give in
`getNewMagic()`.  Writing the compact JSON text of `clip` to the clipboard makes the clipboard
decode to `clip`. -/
def copySelectedDirectories (cfg : ClipboardConfig) (items : List QTreeWidgetItem)
    (p_isCut : Bool) (time rand : Nat) (s : World) : World :=
  if items.isEmpty then s
  else
    let dirs : List QJsonValue :=
      items.map (fun item => QJsonValue.string (s.dirs.fetchPath item.dir))
    let magic := getNewMagic time rand
    let clip : QJsonObject := []
    let clip := QJsonObject.set clip cfg.c_magic (.double (some magic))
    let clip := QJsonObject.set clip cfg.c_type (.double (some cfg.copyDir))
    let clip := QJsonObject.set clip cfg.c_isCut (.bool p_isCut)
    let clip := QJsonObject.set clip cfg.c_dirs (.array dirs)
    { s with
      tree := { s.tree with magic := magic }
      clipboard := some (.object clip)
      log := s.log ++ [Event.statusCopied dirs.length p_isCut] }

/-- The decoding of the clipboard in `VDirectoryTree::pasteDirectoriesFromClipboard()`
(lines 746-752): the paths `dirsToPaste` and the flag `isCut`. -/
def decodeClipboard (cfg : ClipboardConfig) (clipboard : Option QJsonValue) :
    List String × Bool :=
  let obj := clipboardToJson clipboard
  let dirs := QJsonValue.toArray (QJsonObject.get obj cfg.c_dirs)
  let isCut := QJsonValue.toBool (QJsonObject.get obj cfg.c_isCut)
  (dirs.map (fun v => QJsonValue.toString (some v)), isCut)

/-- The collaborators of the widget that change the directories or answer for the editor
area; they are declared outside this file. -/
structure Collaborators where
  /-- The call `VUtils::generateCopiedDirName(path, name)`. -/
  generateCopiedDirName : Directories → String → String → String
  /-- The call `VDirectory::copyDirectory(dest, name, src, isCut, &destDir, &msg)`: the
  directories after the call, the returned flag and the value left in `destDir` (`none` is
  `NULL`). -/
  copyDirectory :
    Directories → Nat → String → Nat → Bool → Directories × Bool × Option Nat
  /-- The call `dir->createSubDirectory(name, &msg)`: the directories after the call and the
  directory made (`none` is `NULL`). -/
  createSubDirectory : Directories → Nat → String → Directories × Option Nat
  /-- The call `VDirectory::deleteDirectory(dir, false, &msg)`: the directories after the call
  and the returned flag. -/
  deleteDirectory : Directories → Nat → Directories × Bool
  /-- The result of `m_editArea->closeFile(dir, force)`. -/
  closeFile : Nat → Bool → Bool

/-- The call `updateItemDirectChildren(p_item)` on the widget: on the children of the item
with address `p_item`, or on the top-level items when `p_item` is `NULL` (`none`).  Which item
the view makes current when the current one is deleted is not followed. -/
def updateItemDirectChildrenOf (env : Env) (fuel : Nat) (t : VDirectoryTree)
    (p_item : Option Nat) : Option VDirectoryTree :=
  match p_item with
  | none =>
    match updateItemDirectChildren env fuel t.next t.rootDir t.topLevel with
    | none => none
    | some (cs, n1) => some { t with topLevel := cs, next := n1 }
  | some p =>
    match findInItems p t.topLevel with
    | none => some t
    | some item =>
      match updateItemDirectChildren env fuel t.next item.dir item.children with
      | none => none
      | some (cs, n1) =>
        some { t with topLevel := replaceInItems p (item.setChildren cs) t.topLevel, next := n1 }

/-- The lines 837-841 of `pasteDirectories`, and the lines 844-847 for the old parent: the
item of the directory is looked up and, when the directory is shown (by an item or by the
widget itself), its children are reconciled. -/
def updateShownChildren (fuel : Nat) (p_dir : Option Nat) (s : World) : Option World :=
  match findVDirectory s.dirs.env s.tree fuel p_dir with
  | none => none
  | some (item, isWidget) =>
    if item.isSome || isWidget then
      match updateItemDirectChildrenOf s.dirs.env fuel s.tree item with
      | none => none
      | some t1 =>
        some { s with tree := t1, log := s.log ++ [Event.updateItemDirectChildren item] }
    else some s

/-- The lines 833-852 of `pasteDirectories`, run when `copyDirectory` left the directory
`destDir` behind: the widget is brought up to date and `directoryUpdated` is emitted. -/
def pasteUpdate (fuel : Nat) (p_destDir : Nat) (p_isCut : Bool) (paDir : Option Nat)
    (destDir : Nat) (s : World) : Option World :=
  match updateShownChildren fuel (some p_destDir) s with
  | none => none
  | some s1 =>
    match (if p_isCut then updateShownChildren fuel paDir s1 else some s1) with
    | none => none
    | some s2 => some { s2 with log := s2.log ++ [Event.directoryUpdated destDir] }

/-- The lines 798-831 of `pasteDirectories`: the name of the copy is made, `copyDirectory`
is called and a failure is reported.  The result is the state after the call and the value of
the out-parameter `destDir` (`none` is `NULL`). -/
def pasteCopy (co : Collaborators) (p_destDir : Nat) (p_isCut : Bool) (s : World) (dir : Nat)
    (path : String) : World × Option Nat :=
  -- both branches of lines 800-811 make the name from the path of the destination, which is
  -- the parent in the first one
  let dirName :=
    co.generateCopiedDirName s.dirs (s.dirs.fetchPath p_destDir) (s.dirs.getName dir)
  let r := co.copyDirectory s.dirs p_destDir dirName dir p_isCut
  ({ s with
      dirs := r.1
      log := s.log ++ [Event.copyDirectory p_destDir dirName dir p_isCut] ++
        (if r.2.1 then [] else [Event.warnCopyFailed path]) },
    r.2.2)

/-- The body of the loop of `pasteDirectories` (lines 778-852) for one path; the number is
the counter `nrPasted`. -/
def pasteOne (co : Collaborators) (fuel : Nat) (p_destDir : Nat) (p_isCut : Bool)
    (s : World) (nrPasted : Nat) (path : String) : Option (World × Nat) :=
  match s.dirs.getInternalDirectory path with
  | none => some ({ s with log := s.log ++ [Event.warnNotInternal path] }, nrPasted)
  | some dir =>
    if dir = p_destDir then some (s, nrPasted)
    else
      let paDir := (s.dirs.env dir).parent
      if paDir = some p_destDir ∧ p_isCut = true then some (s, nrPasted)
      else
        match pasteCopy co p_destDir p_isCut s dir path with
        | (s1, none) => some (s1, nrPasted)
        | (s1, some destDir) =>
          match pasteUpdate fuel p_destDir p_isCut paDir destDir s1 with
          | none => none
          | some s2 => some (s2, nrPasted + 1)

/-- The loop of `pasteDirectories` (lines 777-853). -/
def pasteLoop (co : Collaborators) (fuel : Nat) (p_destDir : Nat) (p_isCut : Bool) :
    World → Nat → List String → Option (World × Nat)
  | s, nrPasted, [] => some (s, nrPasted)
  | s, nrPasted, path :: rest =>
    match pasteOne co fuel p_destDir p_isCut s nrPasted path with
    | none => none
    | some (s1, n1) => pasteLoop co fuel p_destDir p_isCut s1 n1 rest

/-- The function `VDirectoryTree::pasteDirectories(p_destDir, p_dirs, p_isCut)` (lines
768-863).  `time` and `rand` are what the clock and `qrand()` give in `getNewMagic()`.  The
result is the state after the call and the final value of `nrPasted`. -/
def pasteDirectories (co : Collaborators) (fuel : Nat) (time rand : Nat)
    (p_destDir : Option Nat) (p_dirs : List String) (p_isCut : Bool) (s : World) :
    Option (World × Nat) :=
  match p_destDir with
  | none => some (s, 0)
  | some dest =>
    if p_dirs.isEmpty then some (s, 0)
    else
      match pasteLoop co fuel dest p_isCut s 0 p_dirs with
      | none => none
      | some (s1, nrPasted) =>
        let s2 : World :=
          if nrPasted > 0 then { s1 with log := s1.log ++ [Event.statusPasted nrPasted] }
          else s1
        some ({ s2 with tree := { s2.tree with magic := getNewMagic time rand } }, nrPasted)

/-- The function `VDirectoryTree::pasteDirectoriesFromClipboard()` (lines 740-766). -/
def pasteDirectoriesFromClipboard (cfg : ClipboardConfig) (co : Collaborators) (fuel : Nat)
    (time rand : Nat) (s : World) : Option World :=
  if !pasteAvailable cfg s.tree.magic s.clipboard then some s
  else
    let decoded := decodeClipboard cfg s.clipboard
    let destDir : Nat :=
      match s.tree.current.bind (fun p => findInItems p s.tree.topLevel) with
      | some item => item.dir
      | none => s.tree.rootDir
    match pasteDirectories co fuel time rand (some destDir) decoded.1 decoded.2 s with
    | none => none
    | some (s1, _) => some { s1 with clipboard := none }

/-! ## Create and delete -/

mutual
/-- The subtree of an item without the items of address `p`. -/
def removeInItem (p : Nat) : QTreeWidgetItem → QTreeWidgetItem
  | .mk q d e h cs => .mk q d e h (removeInItems p cs)
/-- The items without the item of address `p` and its subtree: what `delete item` leaves of
the widget. -/
def removeInItems (p : Nat) : List QTreeWidgetItem → List QTreeWidgetItem
  | [] => []
  | c :: cs =>
    if c.ptr = p then removeInItems p cs else removeInItem p c :: removeInItems p cs
end

/-- The item `currentItem()` of the widget; `none` is `NULL`. -/
def currentItem (t : VDirectoryTree) : Option QTreeWidgetItem :=
  t.current.bind (fun p => findInItems p t.topLevel)

/-- The function `VDirectoryTree::newSubDirectory()` (lines 411-451).  `dialog` is the name
typed in `VNewDirDialog`, `none` when the dialog is not accepted. -/
def newSubDirectory (co : Collaborators) (fuel : Nat) (dialog : Option String) (s : World) :
    Option World :=
  match currentItem s.tree with
  | none => some s
  | some curItem =>
    let curDir := curItem.dir
    match dialog with
    | none => some s
    | some name =>
      let r := co.createSubDirectory s.dirs curDir name
      let s1 : World :=
        { s with dirs := r.1, log := s.log ++ [Event.createSubDirectory curDir name] }
      match r.2 with
      | none => some { s1 with log := s1.log ++ [Event.warnCreateFailed name] }
      | some subDir =>
        match updateItemDirectChildrenOf s1.dirs.env fuel s1.tree (some curItem.ptr) with
        | none => none
        | some t1 =>
          match locateDirectory s1.dirs.env fuel t1 (some subDir) with
          | none => none
          | some (t2, _) =>
            some { s1 with
              tree := t2
              log := s1.log ++ [Event.updateItemDirectChildren (some curItem.ptr)] }

/-- The function `VDirectoryTree::newRootDirectory()` (lines 453-488).  `dialog` is the name
typed in `VNewDirDialog`, `none` when the dialog is not accepted. -/
def newRootDirectory (co : Collaborators) (fuel : Nat) (dialog : Option String) (s : World) :
    Option World :=
  let rootDir := s.tree.rootDir
  match dialog with
  | none => some s
  | some name =>
    let r := co.createSubDirectory s.dirs rootDir name
    let s1 : World :=
      { s with dirs := r.1, log := s.log ++ [Event.createSubDirectory rootDir name] }
    match r.2 with
    | none => some { s1 with log := s1.log ++ [Event.warnCreateFailed name] }
    | some dir =>
      match updateItemDirectChildrenOf s1.dirs.env fuel s1.tree none with
      | none => none
      | some t1 =>
        match locateDirectory s1.dirs.env fuel t1 (some dir) with
        | none => none
        | some (t2, _) =>
          some { s1 with tree := t2, log := s1.log ++ [Event.updateItemDirectChildren none] }

/-- The function `VDirectoryTree::deleteSelectedDirectory()` (lines 490-547).  `answerOk` says
whether the warning dialog is answered with Ok; `viewCurrent` is the item the view makes
current when the current item is deleted (`none` when it makes none current), for which the
slot `currentDirectoryItemChanged` runs. -/
def deleteSelectedDirectory (co : Collaborators) (answerOk : Bool) (viewCurrent : Option Nat)
    (s : World) : World :=
  match currentItem s.tree with
  | none => s
  | some curItem =>
    let curDir := curItem.dir
    if answerOk then
      -- m_editArea->closeFile(curDir, true): the result is not read
      let log1 := s.log ++ [Event.closeFile curDir true (co.closeFile curDir true)]
      -- delete curItem
      let t1 : VDirectoryTree :=
        { s.tree with topLevel := removeInItems curItem.ptr s.tree.topLevel, current := none }
      let t2 : VDirectoryTree :=
        match viewCurrent with
        | some q => setCurrentItem t1 q
        | none => t1
      let r := co.deleteDirectory s.dirs curDir
      { s with
        dirs := r.1
        tree := t2
        log := log1 ++ [Event.deleteDirectory curDir] ++
          (if r.2 then [Event.statusDeleted 1] else [Event.warnDeleteFailed curDir]) }
    else s

/-! ## Navigation mode -/

mutual
/-- The function `VDirectoryTree::getVisibleChildItems(p_item)` (lines 1170-1186) on a
non-NULL item: the addresses of the rows shown below the item, in display order. -/
def getVisibleChildItems : QTreeWidgetItem → List Nat
  | .mk _ _ e h cs => if !h && e then getVisibleChildLoop cs else []
/-- The loop of `getVisibleChildItems` over the children. -/
def getVisibleChildLoop : List QTreeWidgetItem → List Nat
  | [] => []
  | c :: cs =>
    (if !c.isHidden then
        c.ptr :: (if c.isExpanded then getVisibleChildItems c else [])
      else []) ++ getVisibleChildLoop cs
end

/-- The function `VDirectoryTree::getVisibleItems()` (lines 1154-1168) on the top-level items
of the widget. -/
def getVisibleItems : List QTreeWidgetItem → List Nat
  | [] => []
  | item :: items =>
    (if !item.isHidden then
        item.ptr :: (if item.isExpanded then getVisibleChildItems item else [])
      else []) ++ getVisibleItems items

/-- The map `QMap<QChar, QTreeWidgetItem *>`: character code to item address. -/
abbrev KeyMap := List (Nat × Nat)

/-- The assignment `m_keyMap[key] = item`: an earlier value of the key is replaced. -/
def KeyMap.set (m : KeyMap) (key item : Nat) : KeyMap :=
  (key, item) :: m.filter (fun e => e.1 != key)

/-- The call `m_keyMap.find(key)`; `none` is `end()`. -/
def KeyMap.find (m : KeyMap) (key : Nat) : Option Nat :=
  m.lookup key

/-- The navigation part of the widget.  A `QChar` is its code, `0` for the null character. -/
structure NavigationMode where
  /-- The character `m_majorKey`. -/
  m_majorKey : Nat
  /-- The map `m_keyMap`. -/
  m_keyMap : KeyMap
  /-- The labels `m_naviLabels`, by their texts. -/
  m_naviLabels : List (List Nat)
  /-- The variable `secondKey`, a static local of `handleKeyNavigation`. -/
  secondKey : Bool

/-- The loop of `showNavigation` (lines 1104-1114) from index `i` on, over the rows that are
left. -/
def showNavigationLoop (m_majorKey : Nat) :
    Nat → List Nat → KeyMap → List (List Nat) → KeyMap × List (List Nat)
  | _, [], keyMap, labels => (keyMap, labels)
  | i, item :: items, keyMap, labels =>
    if i < 26 then
      let key := 97 + i
      showNavigationLoop m_majorKey (i + 1) items (KeyMap.set keyMap key item)
        (labels ++ [[m_majorKey, key]])
    else (keyMap, labels)

/-- The function `VDirectoryTree::showNavigation()` (lines 1089-1115).  `isVisible` is the
value of `isVisible()`. -/
def showNavigation (isVisible : Bool) (topLevel : List QTreeWidgetItem) (nav : NavigationMode) :
    NavigationMode :=
  let cleared : NavigationMode := { nav with m_keyMap := [], m_naviLabels := [] }
  if !isVisible then cleared
  else
    let items := getVisibleItems topLevel
    let r := showNavigationLoop nav.m_majorKey 0 items cleared.m_keyMap cleared.m_naviLabels
    { cleared with m_keyMap := r.1, m_naviLabels := r.2 }

/-- The function `VDirectoryTree::hideNavigation()` (lines 1117-1124). -/
def hideNavigation (nav : NavigationMode) : NavigationMode :=
  { nav with m_keyMap := [], m_naviLabels := [] }

/-- What a call of `handleKeyNavigation` leaves and returns. -/
structure KeyResult where
  /-- The widget after the call. -/
  tree : VDirectoryTree
  /-- The navigation part after the call. -/
  nav : NavigationMode
  /-- The returned flag: the key is consumed. -/
  ret : Bool
  /-- The out-parameter `p_succeed`. -/
  succeed : Bool

/-- The function `VDirectoryTree::handleKeyNavigation(p_key, p_succeed)` (lines 1126-1152).
`keyToChar` is `VUtils::keyToChar`, which is declared outside this file. -/
def handleKeyNavigation (keyToChar : Int → Nat) (t : VDirectoryTree) (nav : NavigationMode)
    (p_key : Int) : KeyResult :=
  let keyChar := keyToChar p_key
  if nav.secondKey ∧ keyChar ≠ 0 then
    let nav1 : NavigationMode := { nav with secondKey := false }
    match KeyMap.find nav.m_keyMap keyChar with
    | some item => { tree := setCurrentItem t item, nav := nav1, ret := true, succeed := true }
    | none => { tree := t, nav := nav1, ret := true, succeed := true }
  else if keyChar = nav.m_majorKey then
    if nav.m_keyMap.isEmpty then { tree := t, nav := nav, ret := true, succeed := true }
    else { tree := t, nav := { nav with secondKey := true }, ret := true, succeed := false }
  else { tree := t, nav := nav, ret := false, succeed := false }

/-! ## Properties the theorems are stated with -/

/-- The body of the loop of `buildChildren`. -/
def buildChildBody (env : Env) (fuel : Nat) :
    Nat → QTreeWidgetItem → Option (QTreeWidgetItem × Nat) :=
  fun nx c => if c.childCount > 0 then some (c, nx) else buildSubTree env fuel nx c 1


/-- The clipboard contents that `pasteAvailable` accepts: an object that has the four fields,
whose `type` read with `toInt()` is `CopyDir`, whose `magic` read with `toInt()` is the token
of the tree, and whose `dirs` is an array with at least one element.  A field that is no whole
number in the range of `int` reads as `0`. -/
def wellFormedPayload (cfg : ClipboardConfig) (token : Int) (clipboard : Option QJsonValue) :
    Prop :=
  ∃ fields : QJsonObject, clipboard = some (.object fields) ∧
    QJsonObject.contains fields cfg.c_magic = true ∧
    QJsonObject.contains fields cfg.c_type = true ∧
    QJsonObject.contains fields cfg.c_isCut = true ∧
    QJsonObject.contains fields cfg.c_dirs = true ∧
    QJsonValue.toInt (QJsonObject.get fields cfg.c_type) = cfg.copyDir ∧
    QJsonValue.toInt (QJsonObject.get fields cfg.c_magic) = token ∧
    ∃ x xs, QJsonObject.get fields cfg.c_dirs = some (.array (x :: xs))

/-- The clipboard contents of the specification of `pasteAvailable`, by its words: an object
that has the four fields, whose `type` is the number `CopyDir`, whose `magic` is the number
that is the token of the tree, and whose `dirs` is an array with at least one element. -/
def matchingPayload (cfg : ClipboardConfig) (token : Int) (clipboard : Option QJsonValue) :
    Prop :=
  ∃ fields : QJsonObject, clipboard = some (.object fields) ∧
    QJsonObject.contains fields cfg.c_isCut = true ∧
    QJsonObject.get fields cfg.c_type = some (.double (some cfg.copyDir)) ∧
    QJsonObject.get fields cfg.c_magic = some (.double (some token)) ∧
    ∃ x xs, QJsonObject.get fields cfg.c_dirs = some (.array (x :: xs))

mutual
/-- The item `new` still is the item `old` with everything that was materialized below it:
same address, directory and hidden state, and either `old` had no child or the children
correspond one to one, in order, in the same way. -/
def kept : QTreeWidgetItem → QTreeWidgetItem → Bool
  | .mk p d _ h cs, new =>
    new.ptr == p && new.dir == d && new.isHidden == h && (cs.isEmpty || keptList cs new.children)
/-- The relation `kept` between two child lists, position by position. -/
def keptList : List QTreeWidgetItem → List QTreeWidgetItem → Bool
  | [], [] => true
  | c :: cs, n :: ns => kept c n && keptList cs ns
  | [], _ :: _ => false
  | _ :: _, [] => false
end

mutual
/-- A bound on the call depth below an item: the greatest `rank` of a directory in the
subtree, counted from the depth of its item. -/
def hb (rank : Nat → Nat) : QTreeWidgetItem → Nat
  | .mk _ d _ _ cs => max (rank d) (hbList rank cs)
/-- The bound `hb` of a child list, one level down. -/
def hbList (rank : Nat → Nat) : List QTreeWidgetItem → Nat
  | [] => 0
  | c :: cs => max (hb rank c + 1) (hbList rank cs)
end

/-- The directories exactly `k` levels below a directory, through `getSubDirs`. -/
def levelDirs (env : Env) : Nat → Nat → List Nat
  | 0, d => [d]
  | k + 1, d => (env d).subDirs.flatMap (levelDirs env k)

/-- The UI subtree of the item is the directory subtree cut `k` levels below the item: down to
level `k - 1` every item has one child per sub-directory, in order, and the items at level `k`
have no child. -/
def truncShape (env : Env) : Nat → QTreeWidgetItem → Bool
  | 0, item => item.children.isEmpty
  | k + 1, item =>
    decide (item.children.map QTreeWidgetItem.dir = (env item.dir).subDirs) &&
      item.children.all (truncShape env k)

mutual
/-- The state `buildSubTree(item, e)` leaves and then finds nothing to do in: at every item it
visits, down to where the depth reaches 0 or a directory does not open, a flagged directory has
an expanded item and an item without children has a directory without sub-directories. -/
def settled (env : Env) : Int → QTreeWidgetItem → Prop
  | e, .mk _ d x _ cs =>
    e = 0 ∨ (env d).openOk = false ∨
      (((env d).expanded = true → x = true) ∧ (cs = [] → (env d).subDirs = []) ∧
        settledList env (e - 1) cs)
/-- The property `settled` of every item of a child list. -/
def settledList (env : Env) : Int → List QTreeWidgetItem → Prop
  | _, [] => True
  | e, c :: cs => settled env e c ∧ settledList env e cs
end

/-- The subtree `buildSubTree(item, k)` leaves below an item that had no children, when no
directory `k - 1` levels down is flagged: the directory subtree cut at level `k`, with the
item of every flagged directory above level `k` expanded. -/
def shaped (env : Env) : Nat → QTreeWidgetItem → Prop
  | 0, item => item.children = []
  | k + 1, item =>
    item.children.map QTreeWidgetItem.dir = (env item.dir).subDirs ∧
      ((env item.dir).expanded = true → item.isExpanded = true) ∧
      ∀ c ∈ item.children, shaped env k c

mutual
/-- Every directory reachable from the directory of the item through `getSubDirs` has its own
item below the item, at the matching position: at every depth the children of an item carry
exactly the sub-directories of its directory, in order. -/
def fullMirror (env : Env) : QTreeWidgetItem → Bool
  | .mk _ d _ _ cs =>
    decide (cs.map QTreeWidgetItem.dir = (env d).subDirs) && fullMirrorList env cs
/-- The property `fullMirror` of every item of a child list. -/
def fullMirrorList (env : Env) : List QTreeWidgetItem → Bool
  | [] => true
  | c :: cs => fullMirror env c && fullMirrorList env cs
end

mutual
/-- The UI subtree of the item mirrors the upper part of the directory subtree: an item either
has no children yet, or its children carry exactly the sub-directories of its directory, in
order, and have the same property. -/
def builtPartMirrors (env : Env) : QTreeWidgetItem → Bool
  | .mk _ d _ _ cs =>
    cs.isEmpty ||
      (decide (cs.map QTreeWidgetItem.dir = (env d).subDirs) && builtPartMirrorsList env cs)
/-- The property `builtPartMirrors` of every item of a child list. -/
def builtPartMirrorsList (env : Env) : List QTreeWidgetItem → Bool
  | [] => true
  | c :: cs => builtPartMirrors env c && builtPartMirrorsList env cs
end

mutual
/-- The item `new` is the item `old` grown: it is kept (see `kept`) and no item of the old
subtree that was expanded is collapsed. -/
def grown : QTreeWidgetItem → QTreeWidgetItem → Bool
  | .mk p d e h cs, new =>
    new.ptr == p && new.dir == d && new.isHidden == h && (!e || new.isExpanded) &&
      (cs.isEmpty || grownList cs new.children)
/-- The relation `grown` between two child lists, position by position. -/
def grownList : List QTreeWidgetItem → List QTreeWidgetItem → Bool
  | [], [] => true
  | c :: cs, n :: ns => grown c n && grownList cs ns
  | [], _ :: _ => false
  | _ :: _, [] => false
end

mutual
/-- Expansion is sticky from `old` to `new`: `new` is the same item, it is expanded in the view
when the directory of `old` is flagged expanded and `old` has children, and the same holds
for every item below `old` and the item at its position below `new`. -/
def sticky (env : Env) : QTreeWidgetItem → QTreeWidgetItem → Bool
  | .mk p d _ _ cs, new =>
    new.ptr == p && (!((env d).expanded && !cs.isEmpty) || new.isExpanded) &&
      (cs.isEmpty || stickyList env cs new.children)
/-- The relation `sticky` between two child lists, position by position. -/
def stickyList (env : Env) : List QTreeWidgetItem → List QTreeWidgetItem → Bool
  | [], [] => true
  | c :: cs, n :: ns => sticky env c n && stickyList env cs ns
  | [], _ :: _ => false
  | _ :: _, [] => false
end

/-- The child `r` is the old child `c` reused by the reconciliation: the same item with
everything that was materialized below it, and with sticky expansion. -/
def Reused (env : Env) (c r : QTreeWidgetItem) : Prop :=
  kept c r = true ∧ sticky env c r = true

/-- The child `r` is a new item for the directory `d`: it carries `d` and its address was free
before the call (`next0` was the allocation counter).  Below it, when `d` opens, there is one
child per sub-directory of `d`, in order, and these children have no children when `d` is not
flagged expanded (for a flagged directory the expand handler looks one level ahead); when `d`
does not open, the item has no child. -/
def IsNewItem (env : Env) (next0 d : Nat) (r : QTreeWidgetItem) : Prop :=
  r.dir = d ∧ next0 ≤ r.ptr ∧
    ((env d).openOk = true → r.children.map QTreeWidgetItem.dir = (env d).subDirs) ∧
    ((env d).openOk = true → (env d).expanded = false → ∀ g ∈ r.children, g.children = []) ∧
    ((env d).openOk = false → r.children = [])

/-- The state of the second loop of `updateItemDirectChildren` after the sub-directories
`done`: `cs0` and `next0` are the child list and the allocation counter at the call, `cs`, `m`
and `nx` the child list, the hash and the counter now. -/
structure LoopInv (env : Env) (rank : Nat → Nat) (fuel bound : Nat)
    (cs0 : List QTreeWidgetItem) (next0 : Nat) (done : List Nat)
    (cs : List QTreeWidgetItem) (m : ItemDirMap) (nx : Nat) : Prop where
  ptrNodup : (cs.map QTreeWidgetItem.ptr).Nodup
  ptrLt : ∀ c ∈ cs, c.ptr < nx
  nextLe : next0 ≤ nx
  dirNodup : (cs.map QTreeWidgetItem.dir).Nodup
  mapKeys : (m.map Prod.fst).Nodup
  mapMem : ∀ d p, (d, p) ∈ m ↔ (d ∉ done ∧ ∃ c ∈ cs0, c.dir = d ∧ c.ptr = p)
  pending : ∀ c ∈ cs0, c.dir ∉ done → c ∈ cs
  reused : ∀ c ∈ cs0, c.dir ∈ done → ∃ r ∈ cs, Reused env c r
  fresh : ∀ d ∈ done, (∀ c ∈ cs0, c.dir ≠ d) → ∃ r ∈ cs, IsNewItem env next0 d r
  origin : ∀ r ∈ cs, r.dir ∈ done ∨ (r ∈ cs0 ∧ r.dir ∉ done)
  covered : ∀ d ∈ done, d ∈ cs.map QTreeWidgetItem.dir
  bounded : ∀ r ∈ cs, hb rank r ≤ bound

mutual
/-- The items of a subtree, in display order. -/
def nodes : QTreeWidgetItem → List QTreeWidgetItem
  | .mk p d e h cs => .mk p d e h cs :: nodesList cs
/-- The items below a list of items, in display order. -/
def nodesList : List QTreeWidgetItem → List QTreeWidgetItem
  | [] => []
  | c :: cs => nodes c ++ nodesList cs
end

/-- The addresses of all the items below a list of items. -/
def allPtrs (cs : List QTreeWidgetItem) : List Nat :=
  (nodesList cs).map QTreeWidgetItem.ptr

/-- The items of the widget are distinct objects and their addresses are below the
allocation counter. -/
def WellFormed (t : VDirectoryTree) : Prop :=
  (allPtrs t.topLevel).Nodup ∧ ∀ q ∈ allPtrs t.topLevel, q < t.next

/-- The directories `path`, from the top one down, lead from the directory `p` to the last
one: each is a sub-directory of the one before (of `p` for the first), has it as parent, is in
the notebook `nb` and is not the root; all but the last open. -/
def chainDown (env : Env) (nb root : Nat) : Nat → List Nat → Prop
  | _, [] => True
  | p, x :: xs =>
    (env x).parent = some p ∧ x ∈ (env p).subDirs ∧ (env x).notebook = nb ∧ x ≠ root ∧
      (xs ≠ [] → (env x).openOk = true) ∧ chainDown env nb root x xs

/-- The children `cs` of the directory `p` mirror its sub-directories, and so do the children
of the items on the way down `path`, as far as they are materialized. -/
def mirrorsAlong (env : Env) : Nat → List QTreeWidgetItem → List Nat → Prop
  | _, _, [] => True
  | p, cs, x :: xs =>
    cs.map QTreeWidgetItem.dir = (env p).subDirs ∧
      ∀ c ∈ cs, c.dir = x → c.children = [] ∨ mirrorsAlong env x c.children xs

/-! ## Sample directory trees -/

/-- A parent directory `0` with the sub-directories `7, 1, 2`, all without sub-directories and
none flagged expanded. -/
def envNewFirst : Env := fun d =>
  match d with
  | 0 => ⟨[7, 1, 2], false, true, none, 0⟩
  | _ => ⟨[], false, true, some 0, 0⟩

/-- The notebook of the scenario: root `0` with the folders Work (`1`) and Personal (`2`); Work
contains Drafts (`3`).  Every directory opens and none is flagged expanded. -/
def envNotebook : Env := fun d =>
  match d with
  | 0 => ⟨[1, 2], false, true, none, 0⟩
  | 1 => ⟨[3], false, true, some 0, 0⟩
  | 2 => ⟨[], false, true, some 0, 0⟩
  | 3 => ⟨[], false, true, some 1, 0⟩
  | _ => ⟨[], false, true, none, 1⟩

/-- The height of a directory of `envNotebook` above the leaves. -/
def rankNotebook : Nat → Nat := fun d =>
  match d with
  | 0 => 2
  | 1 => 1
  | _ => 0

/-- A notebook in which Work (`1`) is flagged expanded and contains Drafts (`3`), which
contains Old (`4`).  Every directory opens. -/
def envWorkExpanded : Env := fun d =>
  match d with
  | 0 => ⟨[1, 2], false, true, none, 0⟩
  | 1 => ⟨[3], true, true, some 0, 0⟩
  | 2 => ⟨[], false, true, some 0, 0⟩
  | 3 => ⟨[4], false, true, some 1, 0⟩
  | 4 => ⟨[], false, true, some 3, 0⟩
  | _ => ⟨[], false, true, none, 1⟩

/-- The depth of a directory of `envNotebook` below the root. -/
def levelNotebook : Nat → Nat := fun d =>
  match d with
  | 1 => 1
  | 2 => 1
  | 3 => 2
  | _ => 0

/-- A widget on the sample notebook before its first `updateDirectoryTree`. -/
def treeEmpty : VDirectoryTree :=
  ⟨0, 0, [], none, none, 0, 0⟩

/-- The height of a directory of `envWorkExpanded` above the leaves. -/
def rankWorkExpanded : Nat → Nat := fun d =>
  match d with
  | 0 => 3
  | 1 => 2
  | 3 => 1
  | _ => 0

/-- UI children of the root of `envWorkExpanded` in the order Personal, Work: the item `5` of
Personal, and the item `6` of Work with the item `7` of Drafts below it. -/
def childrenPersonalWork : List QTreeWidgetItem :=
  [.mk 5 2 false false [], .mk 6 1 false false [newItem 7 3]]

/-- A widget on the sample notebook with the rows Work (item `0`) and Personal (item `1`),
Work not yet materialized below. -/
def treeWorkPersonal : VDirectoryTree :=
  ⟨0, 0, [newItem 0 1, newItem 1 2], none, none, 2, 0⟩

/-! ## Notions of the claims on the clipboard, the navigation mode and the visible rows -/

/-- The directory tree is finite: a rank goes down along `getSubDirs` and a level goes up
along `getParentDirectory`. -/
def FiniteTree (env : Env) : Prop :=
  (∃ rank : Nat → Nat, ∀ d c, c ∈ (env d).subDirs → rank c < rank d) ∧
  (∃ level : Nat → Nat, ∀ d p, (env d).parent = some p → level p < level d)

/-- The items `path` lead down from the list `cs`: the first is in `cs` and each next one is a
child of the one before. -/
def pathIn : List QTreeWidgetItem → List QTreeWidgetItem → Prop
  | _, [] => True
  | cs, a :: rest => a ∈ cs ∧ pathIn a.children rest

/-- The row of address `q` is shown: an item with that address is not hidden and is reached
from the top-level items through ancestors that are all not hidden and expanded. -/
def IsShown (topLevel : List QTreeWidgetItem) (q : Nat) : Prop :=
  ∃ (ancestors : List QTreeWidgetItem) (item : QTreeWidgetItem),
    pathIn topLevel (ancestors ++ [item]) ∧
    (∀ a ∈ ancestors, a.isHidden = false ∧ a.isExpanded = true) ∧
    item.isHidden = false ∧ item.ptr = q

/-! ## Samples -/

/-- The field names of the clipboard format and the `CopyDir` discriminant. -/
def cfgSample : ClipboardConfig :=
  { c_magic := "magic", c_type := "type", c_isCut := "isCut", c_dirs := "dirs", copyDir := 2 }

/-- The sample notebook `envNotebook` with the names and paths of its folders. -/
def dirsNotebook : Directories :=
  { env := envNotebook
    getName := fun d =>
      match d with
      | 1 => "Work"
      | 2 => "Personal"
      | 3 => "Drafts"
      | _ => ""
    fetchPath := fun d =>
      match d with
      | 0 => "/nb"
      | 1 => "/nb/Work"
      | 2 => "/nb/Personal"
      | 3 => "/nb/Work/Drafts"
      | _ => ""
    getInternalDirectory := fun path =>
      if path = "/nb/Work" then some 1
      else if path = "/nb/Personal" then some 2
      else if path = "/nb/Work/Drafts" then some 3
      else none }

/-- Collaborators whose every primitive reports failure and changes nothing: the copy hands
back no directory, and the editor area does not close. -/
def coFailing : Collaborators :=
  { generateCopiedDirName := fun _ _ name => name
    copyDirectory := fun ds _ _ _ _ => (ds, false, none)
    createSubDirectory := fun ds _ _ => (ds, none)
    deleteDirectory := fun ds _ => (ds, false)
    closeFile := fun _ _ => false }

/-- Collaborators whose copy reports failure and changes nothing, but hands back the source
directory in `destDir`. -/
def coSamePath : Collaborators :=
  { generateCopiedDirName := fun _ _ name => name
    copyDirectory := fun ds _ _ src _ => (ds, false, some src)
    createSubDirectory := fun ds _ _ => (ds, none)
    deleteDirectory := fun ds _ => (ds, false)
    closeFile := fun _ _ => false }

/-- The sample notebook shown by the widget `treeWorkPersonal`, with an empty clipboard. -/
def worldNotebook : World :=
  { dirs := dirsNotebook, tree := treeWorkPersonal, clipboard := none, log := [] }

/-- The world `worldNotebook` after Work was copied, at time `1700000001` with `qrand()`
giving `2`. -/
def worldCopied : World :=
  copySelectedDirectories cfgSample [newItem 0 1] false 1700000001 2 worldNotebook

/-- The world `worldNotebook` with the row of Work current. -/
def worldWorkCurrent : World :=
  { worldNotebook with tree := { treeWorkPersonal with current := some 0 } }

/-- The translation of a key into a character for the letter keys: `Qt::Key_A` (65) to
`Qt::Key_Z` (90) give the lower-case letters, every other key the null character. -/
def keyToCharLetters : Int → Nat := fun key =>
  if 65 ≤ key ∧ key ≤ 90 then (key - 65).toNat + 97 else 0

/-- A navigation part in the Idle state with the major key `v` and no labels. -/
def navIdle : NavigationMode :=
  { m_majorKey := 118, m_keyMap := [], m_naviLabels := [], secondKey := false }

/-- The widget after `showNavigation` on the visible widget and a press of the major key. -/
def afterMajorKey (keyToChar : Int → Nat) (t : VDirectoryTree) (nav : NavigationMode)
    (majorKey : Int) : KeyResult :=
  handleKeyNavigation keyToChar t (showNavigation true t.topLevel nav) majorKey

/-- A widget with the rows Work (item `0`, expanded) with Drafts (item `2`) and a hidden row
(item `3`) below it, and Personal (item `1`, collapsed) with a row (item `4`) below it. -/
def treeRows : List QTreeWidgetItem :=
  [.mk 0 1 true false [newItem 2 3, .mk 3 5 false true []],
    .mk 1 2 false false [newItem 4 6]]

/-- UI children of the root of the sample notebooks: the item `5` of Personal and the item `6`
of a directory `9` that is no sub-directory of the root any more.  Work has no item. -/
def childrenPersonalStale : List QTreeWidgetItem :=
  [newItem 5 2, newItem 6 9]

/-- The sample notebook `envNotebook` in which Work (`1`) does not open. -/
def envWorkLocked : Env := fun d =>
  match d with
  | 0 => ⟨[1, 2], false, true, none, 0⟩
  | 1 => ⟨[3], false, false, some 0, 0⟩
  | 2 => ⟨[], false, true, some 0, 0⟩
  | 3 => ⟨[], false, true, some 1, 0⟩
  | _ => ⟨[], false, true, none, 1⟩

/-- A clipboard object with the four fields whose `magic` is a text, not a number. -/
def payloadTextMagic : Option QJsonValue :=
  some (.object [("magic", .string "stale"), ("type", .double (some 2)),
    ("isCut", .bool false), ("dirs", .array [.string "/nb/Work"])])

/-! ## Items: induction and projections -/

/-- Induction over an item and its subtree. -/
theorem QTreeWidgetItem.induct {P : QTreeWidgetItem → Prop}
    (h : ∀ p d e hd cs, (∀ c ∈ cs, P c) → P (.mk p d e hd cs)) : ∀ it, P it := by
  intro it
  exact @QTreeWidgetItem.rec P (fun cs => ∀ c ∈ cs, P c)
    (fun p d e hd cs ih => h p d e hd cs ih)
    (by intro c hc; cases hc)
    (by
      intro head tail ih1 ih2 c hc
      rcases List.mem_cons.1 hc with rfl | hc
      · exact ih1
      · exact ih2 c hc) it

@[simp] theorem ptr_mk (p d : Nat) (e h : Bool) (cs : List QTreeWidgetItem) :
    (QTreeWidgetItem.mk p d e h cs).ptr = p := rfl

@[simp] theorem dir_mk (p d : Nat) (e h : Bool) (cs : List QTreeWidgetItem) :
    (QTreeWidgetItem.mk p d e h cs).dir = d := rfl

@[simp] theorem isExpanded_mk (p d : Nat) (e h : Bool) (cs : List QTreeWidgetItem) :
    (QTreeWidgetItem.mk p d e h cs).isExpanded = e := rfl

@[simp] theorem isHidden_mk (p d : Nat) (e h : Bool) (cs : List QTreeWidgetItem) :
    (QTreeWidgetItem.mk p d e h cs).isHidden = h := rfl

@[simp] theorem children_mk (p d : Nat) (e h : Bool) (cs : List QTreeWidgetItem) :
    (QTreeWidgetItem.mk p d e h cs).children = cs := rfl

@[simp] theorem setChildren_mk (p d : Nat) (e h : Bool) (cs ds : List QTreeWidgetItem) :
    (QTreeWidgetItem.mk p d e h cs).setChildren ds = .mk p d e h ds := rfl

@[simp] theorem setExpandedFlag_mk (p d : Nat) (e h b : Bool) (cs : List QTreeWidgetItem) :
    (QTreeWidgetItem.mk p d e h cs).setExpandedFlag b = .mk p d b h cs := rfl

@[simp] theorem childCount_mk (p d : Nat) (e h : Bool) (cs : List QTreeWidgetItem) :
    (QTreeWidgetItem.mk p d e h cs).childCount = cs.length := rfl

@[simp] theorem newItem_ptr (p d : Nat) : (newItem p d).ptr = p := rfl

@[simp] theorem newItem_dir (p d : Nat) : (newItem p d).dir = d := rfl

@[simp] theorem newItem_children (p d : Nat) : (newItem p d).children = [] := rfl

@[simp] theorem newItem_isExpanded (p d : Nat) : (newItem p d).isExpanded = false := rfl

@[simp] theorem children_setExpandedFlag (it : QTreeWidgetItem) (b : Bool) :
    (it.setExpandedFlag b).children = it.children := by cases it; rfl

@[simp] theorem ptr_setExpandedFlag (it : QTreeWidgetItem) (b : Bool) :
    (it.setExpandedFlag b).ptr = it.ptr := by cases it; rfl

@[simp] theorem dir_setExpandedFlag (it : QTreeWidgetItem) (b : Bool) :
    (it.setExpandedFlag b).dir = it.dir := by cases it; rfl

@[simp] theorem isHidden_setExpandedFlag (it : QTreeWidgetItem) (b : Bool) :
    (it.setExpandedFlag b).isHidden = it.isHidden := by cases it; rfl

@[simp] theorem isExpanded_setExpandedFlag (it : QTreeWidgetItem) (b : Bool) :
    (it.setExpandedFlag b).isExpanded = b := by cases it; rfl

@[simp] theorem children_setChildren (it : QTreeWidgetItem) (cs : List QTreeWidgetItem) :
    (it.setChildren cs).children = cs := by cases it; rfl

@[simp] theorem ptr_setChildren (it : QTreeWidgetItem) (cs : List QTreeWidgetItem) :
    (it.setChildren cs).ptr = it.ptr := by cases it; rfl

@[simp] theorem dir_setChildren (it : QTreeWidgetItem) (cs : List QTreeWidgetItem) :
    (it.setChildren cs).dir = it.dir := by cases it; rfl

@[simp] theorem isHidden_setChildren (it : QTreeWidgetItem) (cs : List QTreeWidgetItem) :
    (it.setChildren cs).isHidden = it.isHidden := by cases it; rfl

@[simp] theorem isExpanded_setChildren (it : QTreeWidgetItem) (cs : List QTreeWidgetItem) :
    (it.setChildren cs).isExpanded = it.isExpanded := by cases it; rfl

@[simp] theorem setChildren_children (it : QTreeWidgetItem) :
    it.setChildren it.children = it := by cases it; rfl

/-! ## Lists related position by position -/

theorem forall2_exists_left {α β : Type} {R : α → β → Prop} {l1 : List α} {l2 : List β}
    (h : List.Forall₂ R l1 l2) : ∀ b ∈ l2, ∃ a ∈ l1, R a b := by
  induction h with
  | nil => intro b hb; cases hb
  | cons h1 _ ih =>
    intro b hb
    rcases List.mem_cons.1 hb with rfl | hb
    · exact ⟨_, List.mem_cons_self _ _, h1⟩
    · obtain ⟨a, ha, hr⟩ := ih b hb
      exact ⟨a, List.mem_cons_of_mem _ ha, hr⟩

theorem forall2_exists_right {α β : Type} {R : α → β → Prop} {l1 : List α} {l2 : List β}
    (h : List.Forall₂ R l1 l2) : ∀ a ∈ l1, ∃ b ∈ l2, R a b := by
  induction h with
  | nil => intro a ha; cases ha
  | cons h1 _ ih =>
    intro a ha
    rcases List.mem_cons.1 ha with rfl | ha
    · exact ⟨_, List.mem_cons_self _ _, h1⟩
    · obtain ⟨b, hb, hr⟩ := ih a ha
      exact ⟨b, List.mem_cons_of_mem _ hb, hr⟩

theorem forall2_of_mem {α β : Type} {R S : α → β → Prop} {l1 : List α} {l2 : List β}
    (h : List.Forall₂ R l1 l2) (hs : ∀ a ∈ l1, ∀ b ∈ l2, R a b → S a b) :
    List.Forall₂ S l1 l2 := by
  induction h with
  | nil => exact List.Forall₂.nil
  | cons h1 _ ih =>
    exact List.Forall₂.cons (hs _ (List.mem_cons_self _ _) _ (List.mem_cons_self _ _) h1)
      (ih (fun a ha b hb => hs a (List.mem_cons_of_mem _ ha) b (List.mem_cons_of_mem _ hb)))

theorem forall2_nil_iff {α β : Type} {R : α → β → Prop} {l1 : List α} {l2 : List β}
    (h : List.Forall₂ R l1 l2) : l1 = [] ↔ l2 = [] := by
  cases h with
  | nil => simp
  | cons _ _ => simp

theorem forall2_map_eq {α β γ : Type} {R : α → β → Prop} {f : α → γ} {g : β → γ}
    {l1 : List α} {l2 : List β} (h : List.Forall₂ R l1 l2)
    (hfg : ∀ a b, R a b → f a = g b) : l1.map f = l2.map g := by
  induction h with
  | nil => rfl
  | cons h1 _ ih => simp only [List.map_cons, hfg _ _ h1, ih]

theorem forall2_trans_of {α : Type} {R : α → α → Prop} :
    ∀ (l1 l2 l3 : List α), (∀ a ∈ l1, ∀ b c, R a b → R b c → R a c) →
      List.Forall₂ R l1 l2 → List.Forall₂ R l2 l3 → List.Forall₂ R l1 l3
  | [], _, _, _, h12, h23 => by
    cases h12; cases h23; exact List.Forall₂.nil
  | a :: l1, _, _, ht, h12, h23 => by
    cases h12 with
    | cons hab hr =>
      cases h23 with
      | cons hbc hr2 =>
        exact List.Forall₂.cons (ht a (List.mem_cons_self _ _) _ _ hab hbc)
          (forall2_trans_of l1 _ _ (fun x hx => ht x (List.mem_cons_of_mem _ hx)) hr hr2)

theorem forall2_comp_of {α β : Type} {R : α → β → Prop} {S : β → β → Prop} :
    ∀ (l1 : List α) (l2 l3 : List β), (∀ a ∈ l1, ∀ b c, R a b → S b c → R a c) →
      List.Forall₂ R l1 l2 → List.Forall₂ S l2 l3 → List.Forall₂ R l1 l3
  | [], _, _, _, h12, h23 => by
    cases h12; cases h23; exact List.Forall₂.nil
  | a :: l1, _, _, ht, h12, h23 => by
    cases h12 with
    | cons hab hr =>
      cases h23 with
      | cons hbc hr2 =>
        exact List.Forall₂.cons (ht a (List.mem_cons_self _ _) _ _ hab hbc)
          (forall2_comp_of l1 _ _ (fun x hx => ht x (List.mem_cons_of_mem _ hx)) hr hr2)

/-! ## The loops -/

/-- A relation that every call of the loop body establishes holds between the old and the new
children, position by position. -/
theorem forItems_forall2 {f : Nat → QTreeWidgetItem → Option (QTreeWidgetItem × Nat)}
    {R : QTreeWidgetItem → QTreeWidgetItem → Prop} :
    ∀ (cs : List QTreeWidgetItem) (next : Nat) (cs1 : List QTreeWidgetItem) (n1 : Nat),
      forItems f next cs = some (cs1, n1) →
      (∀ c ∈ cs, ∀ nx c1 nx1, f nx c = some (c1, nx1) → R c c1) →
      List.Forall₂ R cs cs1
  | [], next, cs1, n1, h, _ => by
    simp only [forItems, Option.some.injEq, Prod.mk.injEq] at h
    rw [← h.1]
    exact List.Forall₂.nil
  | c :: cs, next, cs1, n1, h, hR => by
    simp only [forItems] at h
    cases hc : f next c with
    | none => simp [hc] at h
    | some r =>
      obtain ⟨c1, m1⟩ := r
      simp only [hc] at h
      cases hcs : forItems f m1 cs with
      | none => simp [hcs] at h
      | some r2 =>
        obtain ⟨cs2, m2⟩ := r2
        simp only [hcs, Option.some.injEq, Prod.mk.injEq] at h
        rw [← h.1]
        exact List.Forall₂.cons (hR c (List.mem_cons_self _ _) next c1 m1 hc)
          (forItems_forall2 cs m1 cs2 m2 hcs
            (fun x hx => hR x (List.mem_cons_of_mem _ hx)))

/-- The allocation counter does not decrease over the loop when it does not in the body. -/
theorem forItems_next_le {f : Nat → QTreeWidgetItem → Option (QTreeWidgetItem × Nat)} :
    ∀ (cs : List QTreeWidgetItem) (next : Nat) (cs1 : List QTreeWidgetItem) (n1 : Nat),
      forItems f next cs = some (cs1, n1) →
      (∀ c ∈ cs, ∀ nx c1 nx1, f nx c = some (c1, nx1) → nx ≤ nx1) →
      next ≤ n1
  | [], next, cs1, n1, h, _ => by
    simp only [forItems, Option.some.injEq, Prod.mk.injEq] at h
    omega
  | c :: cs, next, cs1, n1, h, hR => by
    simp only [forItems] at h
    cases hc : f next c with
    | none => simp [hc] at h
    | some r =>
      obtain ⟨c1, m1⟩ := r
      simp only [hc] at h
      cases hcs : forItems f m1 cs with
      | none => simp [hcs] at h
      | some r2 =>
        obtain ⟨cs2, m2⟩ := r2
        simp only [hcs, Option.some.injEq, Prod.mk.injEq] at h
        have h1 := hR c (List.mem_cons_self _ _) next c1 m1 hc
        have h2 := forItems_next_le cs m1 cs2 m2 hcs
          (fun x hx => hR x (List.mem_cons_of_mem _ hx))
        omega

/-- A loop whose body changes nothing changes nothing. -/
theorem forItems_id {f : Nat → QTreeWidgetItem → Option (QTreeWidgetItem × Nat)} :
    ∀ (cs : List QTreeWidgetItem) (next : Nat),
      (∀ c ∈ cs, f next c = some (c, next)) → forItems f next cs = some (cs, next)
  | [], next, _ => rfl
  | c :: cs, next, h => by
    simp only [forItems, h c (List.mem_cons_self _ _),
      forItems_id cs next (fun x hx => h x (List.mem_cons_of_mem _ hx))]

/-- A loop whose body returns for every child returns. -/
theorem forItems_total {f : Nat → QTreeWidgetItem → Option (QTreeWidgetItem × Nat)} :
    ∀ (cs : List QTreeWidgetItem) (next : Nat),
      (∀ c ∈ cs, ∀ nx, ∃ r, f nx c = some r) → ∃ r, forItems f next cs = some r
  | [], next, _ => ⟨_, rfl⟩
  | c :: cs, next, h => by
    obtain ⟨⟨c1, m1⟩, hc⟩ := h c (List.mem_cons_self _ _) next
    obtain ⟨⟨cs2, m2⟩, hcs⟩ := forItems_total cs m1 (fun x hx => h x (List.mem_cons_of_mem _ hx))
    exact ⟨(c1 :: cs2, m2), by simp only [forItems, hc, hcs]⟩

/-- A property that every call of the loop body establishes for the item made for a
sub-directory holds between the sub-directories and the new children, position by position. -/
theorem forDirs_forall2 {f : Nat → QTreeWidgetItem → Option (QTreeWidgetItem × Nat)}
    {R : Nat → QTreeWidgetItem → Prop} :
    ∀ (ds : List Nat) (next : Nat) (cs1 : List QTreeWidgetItem) (n1 : Nat),
      forDirs f next ds = some (cs1, n1) →
      (∀ d ∈ ds, ∀ nx c1 nx1, f (nx + 1) (newItem nx d) = some (c1, nx1) → R d c1) →
      List.Forall₂ R ds cs1
  | [], next, cs1, n1, h, _ => by
    simp only [forDirs, Option.some.injEq, Prod.mk.injEq] at h
    rw [← h.1]
    exact List.Forall₂.nil
  | d :: ds, next, cs1, n1, h, hR => by
    simp only [forDirs] at h
    cases hc : f (next + 1) (newItem next d) with
    | none => simp [hc] at h
    | some r =>
      obtain ⟨c1, m1⟩ := r
      simp only [hc] at h
      cases hcs : forDirs f m1 ds with
      | none => simp [hcs] at h
      | some r2 =>
        obtain ⟨cs2, m2⟩ := r2
        simp only [hcs, Option.some.injEq, Prod.mk.injEq] at h
        rw [← h.1]
        exact List.Forall₂.cons (hR d (List.mem_cons_self _ _) next c1 m1 hc)
          (forDirs_forall2 ds m1 cs2 m2 hcs
            (fun x hx => hR x (List.mem_cons_of_mem _ hx)))

/-- The allocation counter does not decrease over the loop when it does not in the body. -/
theorem forDirs_next_le {f : Nat → QTreeWidgetItem → Option (QTreeWidgetItem × Nat)} :
    ∀ (ds : List Nat) (next : Nat) (cs1 : List QTreeWidgetItem) (n1 : Nat),
      forDirs f next ds = some (cs1, n1) →
      (∀ d ∈ ds, ∀ nx c1 nx1, f (nx + 1) (newItem nx d) = some (c1, nx1) → nx + 1 ≤ nx1) →
      next ≤ n1
  | [], next, cs1, n1, h, _ => by
    simp only [forDirs, Option.some.injEq, Prod.mk.injEq] at h
    omega
  | d :: ds, next, cs1, n1, h, hR => by
    simp only [forDirs] at h
    cases hc : f (next + 1) (newItem next d) with
    | none => simp [hc] at h
    | some r =>
      obtain ⟨c1, m1⟩ := r
      simp only [hc] at h
      cases hcs : forDirs f m1 ds with
      | none => simp [hcs] at h
      | some r2 =>
        obtain ⟨cs2, m2⟩ := r2
        simp only [hcs, Option.some.injEq, Prod.mk.injEq] at h
        have h1 := hR d (List.mem_cons_self _ _) next c1 m1 hc
        have h2 := forDirs_next_le ds m1 cs2 m2 hcs
          (fun x hx => hR x (List.mem_cons_of_mem _ hx))
        omega

/-- A loop whose body returns for every new item returns. -/
theorem forDirs_total {f : Nat → QTreeWidgetItem → Option (QTreeWidgetItem × Nat)} :
    ∀ (ds : List Nat) (next : Nat),
      (∀ d ∈ ds, ∀ nx, ∃ r, f (nx + 1) (newItem nx d) = some r) →
      ∃ r, forDirs f next ds = some r
  | [], next, _ => ⟨_, rfl⟩
  | d :: ds, next, h => by
    obtain ⟨⟨c1, m1⟩, hc⟩ := h d (List.mem_cons_self _ _) next
    obtain ⟨⟨cs2, m2⟩, hcs⟩ := forDirs_total ds m1 (fun x hx => h x (List.mem_cons_of_mem _ hx))
    exact ⟨(c1 :: cs2, m2), by simp only [forDirs, hc, hcs]⟩

/-- A loop whose body, when it returns, has changed nothing has changed nothing. -/
theorem forItems_eq_self {f : Nat → QTreeWidgetItem → Option (QTreeWidgetItem × Nat)} :
    ∀ (cs : List QTreeWidgetItem) (next : Nat) (cs1 : List QTreeWidgetItem) (n1 : Nat),
      forItems f next cs = some (cs1, n1) →
      (∀ c ∈ cs, ∀ nx c1 nx1, f nx c = some (c1, nx1) → c1 = c ∧ nx1 = nx) →
      cs1 = cs ∧ n1 = next
  | [], next, cs1, n1, h, _ => by
    simp only [forItems, Option.some.injEq, Prod.mk.injEq] at h
    exact ⟨h.1.symm, h.2.symm⟩
  | c :: cs, next, cs1, n1, h, hR => by
    simp only [forItems] at h
    cases hc : f next c with
    | none => simp [hc] at h
    | some r =>
      obtain ⟨c1, m1⟩ := r
      simp only [hc] at h
      cases hcs : forItems f m1 cs with
      | none => simp [hcs] at h
      | some r2 =>
        obtain ⟨cs2, m2⟩ := r2
        simp only [hcs, Option.some.injEq, Prod.mk.injEq] at h
        obtain ⟨e1, e2⟩ := hR c (List.mem_cons_self _ _) next c1 m1 hc
        obtain ⟨e3, e4⟩ := forItems_eq_self cs m1 cs2 m2 hcs
          (fun x hx => hR x (List.mem_cons_of_mem _ hx))
        subst e1 e2 e3 e4
        exact ⟨h.1.symm, h.2.symm⟩

/-! ## What a returning call has done -/

/-- The three ways `buildSubTree` returns: at depth 0, at a directory that does not open, or
after the loop over the children (old or new) and the expansion of a flagged directory. -/
theorem buildSubTree_some {env : Env} {fuel n : Nat} {it : QTreeWidgetItem} {d : Int}
    {r : QTreeWidgetItem} {n1 : Nat} (h : buildSubTree env (fuel + 1) n it d = some (r, n1)) :
    (d = 0 ∧ r = it ∧ n1 = n) ∨
    (d ≠ 0 ∧ (env it.dir).openOk = false ∧ r = it ∧ n1 = n) ∨
    (d ≠ 0 ∧ (env it.dir).openOk = true ∧ ∃ cs m,
      ((0 < it.childCount ∧
          forItems (fun nx c => buildSubTree env fuel nx c (d - 1)) n it.children
            = some (cs, m)) ∨
        (it.childCount = 0 ∧
          forDirs (fun nx c => buildSubTree env fuel nx c (d - 1)) n (env it.dir).subDirs
            = some (cs, m))) ∧
      (((env it.dir).expanded = true ∧ expandItem env fuel m (it.setChildren cs) = some (r, n1)) ∨
        ((env it.dir).expanded = false ∧ r = it.setChildren cs ∧ n1 = m))) := by
  rw [buildSubTree] at h
  by_cases hd : d = 0
  · rw [if_pos hd] at h
    simp only [Option.some.injEq, Prod.mk.injEq] at h
    exact Or.inl ⟨hd, h.1.symm, h.2.symm⟩
  · rw [if_neg hd] at h
    by_cases ho : (env it.dir).openOk = false
    · rw [if_pos ho] at h
      simp only [Option.some.injEq, Prod.mk.injEq] at h
      exact Or.inr (Or.inl ⟨hd, ho, h.1.symm, h.2.symm⟩)
    · rw [if_neg ho] at h
      refine Or.inr (Or.inr ⟨hd, by simpa using ho, ?_⟩)
      dsimp only at h
      by_cases hc : it.childCount > 0
      · rw [if_pos hc] at h
        cases hb : forItems (fun nx c => buildSubTree env fuel nx c (d - 1)) n it.children with
        | none => rw [hb] at h; cases h
        | some q =>
          obtain ⟨cs, m⟩ := q
          rw [hb] at h
          dsimp only at h
          refine ⟨cs, m, Or.inl ⟨hc, rfl⟩, ?_⟩
          by_cases he : (env it.dir).expanded = true
          · rw [if_pos he] at h
            exact Or.inl ⟨he, h⟩
          · rw [if_neg he] at h
            simp only [Option.some.injEq, Prod.mk.injEq] at h
            exact Or.inr ⟨by simpa using he, h.1.symm, h.2.symm⟩
      · rw [if_neg hc] at h
        cases hb : forDirs (fun nx c => buildSubTree env fuel nx c (d - 1)) n
            (env it.dir).subDirs with
        | none => rw [hb] at h; cases h
        | some q =>
          obtain ⟨cs, m⟩ := q
          rw [hb] at h
          dsimp only at h
          refine ⟨cs, m, Or.inr ⟨by omega, rfl⟩, ?_⟩
          by_cases he : (env it.dir).expanded = true
          · rw [if_pos he] at h
            exact Or.inl ⟨he, h⟩
          · rw [if_neg he] at h
            simp only [Option.some.injEq, Prod.mk.injEq] at h
            exact Or.inr ⟨by simpa using he, h.1.symm, h.2.symm⟩

/-- A returning `buildChildren` has run its loop. -/
theorem buildChildren_some {env : Env} {fuel n : Nat} {it r : QTreeWidgetItem} {n1 : Nat}
    (h : buildChildren env (fuel + 1) n it = some (r, n1)) :
    ∃ cs, forItems (buildChildBody env fuel) n it.children = some (cs, n1) ∧
      r = it.setChildren cs := by
  rw [buildChildren] at h
  cases hb : forItems
      (fun nx c => if c.childCount > 0 then some (c, nx) else buildSubTree env fuel nx c 1)
      n it.children with
  | none => simp [hb] at h
  | some q =>
    obtain ⟨cs, m⟩ := q
    simp only [hb, Option.some.injEq, Prod.mk.injEq] at h
    exact ⟨cs, by rw [← h.2]; exact hb, h.1.symm⟩

/-- A returning `expandItem` found the item expanded, or has run `buildChildren` on the item
marked expanded. -/
theorem expandItem_some {env : Env} {fuel n : Nat} {it r : QTreeWidgetItem} {n1 : Nat}
    (h : expandItem env fuel n it = some (r, n1)) :
    (it.isExpanded = true ∧ r = it ∧ n1 = n) ∨
    (it.isExpanded = false ∧ ∃ f2 cs, fuel = f2 + 3 ∧
      forItems (buildChildBody env f2) n it.children = some (cs, n1) ∧
      r = (it.setExpandedFlag true).setChildren cs) := by
  cases fuel with
  | zero => simp [expandItem] at h
  | succ f1 =>
    rw [expandItem] at h
    by_cases he : it.isExpanded = true
    · simp only [he, if_true, Option.some.injEq, Prod.mk.injEq] at h
      exact Or.inl ⟨he, h.1.symm, h.2.symm⟩
    · simp only [he, if_false] at h
      refine Or.inr ⟨by simpa using he, ?_⟩
      cases f1 with
      | zero => simp [handleItemExpanded] at h
      | succ f0 =>
        rw [handleItemExpanded] at h
        cases f0 with
        | zero => simp [buildChildren] at h
        | succ f2 =>
          obtain ⟨cs, h1, h2⟩ := buildChildren_some h
          exact ⟨f2, cs, rfl, by simpa using h1, h2⟩

/-- The call `buildSubTree` past its two early returns. -/
theorem buildSubTree_eq_of_loop {env : Env} {fuel n : Nat} {it : QTreeWidgetItem} {d : Int}
    {cs : List QTreeWidgetItem} {m : Nat} (hd : d ≠ 0) (ho : (env it.dir).openOk = true)
    (hloop : (if it.childCount > 0 then
        forItems (fun nx c => buildSubTree env fuel nx c (d - 1)) n it.children
      else forDirs (fun nx c => buildSubTree env fuel nx c (d - 1)) n (env it.dir).subDirs)
      = some (cs, m)) :
    buildSubTree env (fuel + 1) n it d =
      if (env it.dir).expanded then expandItem env fuel m (it.setChildren cs)
      else some (it.setChildren cs, m) := by
  rw [buildSubTree, if_neg hd, if_neg (by simp [ho])]
  dsimp only
  rw [hloop]

/-- The call `expandItem` on an expanded item. -/
theorem expandItem_of_expanded {env : Env} {fuel n : Nat} {it : QTreeWidgetItem}
    (he : it.isExpanded = true) : expandItem env (fuel + 1) n it = some (it, n) := by
  rw [expandItem, if_pos he]

/-- The call `expandItem` on a collapsed item. -/
theorem expandItem_of_collapsed {env : Env} {fuel n : Nat} {it : QTreeWidgetItem}
    {cs : List QTreeWidgetItem} {m : Nat} (he : it.isExpanded = false)
    (hloop : forItems (buildChildBody env fuel) n it.children = some (cs, m)) :
    expandItem env (fuel + 3) n it = some ((it.setExpandedFlag true).setChildren cs, m) := by
  rw [expandItem, if_neg (by simp [he]), handleItemExpanded, buildChildren]
  have h2 : forItems
      (fun nx c => if c.childCount > 0 then some (c, nx) else buildSubTree env fuel nx c 1) n
      (it.setExpandedFlag true).children = some (cs, m) := by
    rw [children_setExpandedFlag]
    exact hloop
  rw [h2]

/-! ## Termination on a finite directory tree -/

theorem hb_eq (rank : Nat → Nat) (it : QTreeWidgetItem) :
    hb rank it = max (rank it.dir) (hbList rank it.children) := by
  cases it; rfl

theorem hbList_le_iff (rank : Nat → Nat) (m : Nat) :
    ∀ cs : List QTreeWidgetItem, hbList rank cs ≤ m ↔ ∀ c ∈ cs, hb rank c + 1 ≤ m
  | [] => by simp [hbList]
  | c :: cs => by
    simp only [hbList, max_le_iff, hbList_le_iff rank m cs, List.mem_cons, forall_eq_or_imp]

theorem hb_child_lt (rank : Nat → Nat) (it c : QTreeWidgetItem) (hc : c ∈ it.children) :
    hb rank c < hb rank it := by
  have h1 := (hbList_le_iff rank (hbList rank it.children) it.children).1 (le_refl _) c hc
  rw [hb_eq rank it]
  have := le_max_right (rank it.dir) (hbList rank it.children)
  omega

theorem hb_setExpandedFlag (rank : Nat → Nat) (it : QTreeWidgetItem) (b : Bool) :
    hb rank (it.setExpandedFlag b) = hb rank it := by
  cases it; rfl

theorem hb_setChildren (rank : Nat → Nat) (it : QTreeWidgetItem) (cs : List QTreeWidgetItem) :
    hb rank (it.setChildren cs) = max (rank it.dir) (hbList rank cs) := by
  cases it; rfl

theorem hb_newItem (rank : Nat → Nat) (p d : Nat) : hb rank (newItem p d) = rank d := by
  simp [newItem, hb, hbList]

theorem hbList_le_of_forall2 (rank : Nat → Nat) {cs cs1 : List QTreeWidgetItem}
    (h : List.Forall₂ (fun c c1 => hb rank c1 ≤ hb rank c) cs cs1) :
    hbList rank cs1 ≤ hbList rank cs := by
  induction h with
  | nil => exact le_refl _
  | cons h1 _ ih =>
    simp only [hbList]
    exact max_le_max (by omega) ih

theorem hbList_lt_of_forall2_dirs (rank : Nat → Nat) {ds : List Nat}
    {cs1 : List QTreeWidgetItem} (m : Nat)
    (h : List.Forall₂ (fun d c1 => hb rank c1 ≤ rank d) ds cs1)
    (hm : ∀ d ∈ ds, rank d < m) : hbList rank cs1 ≤ m := by
  induction h with
  | nil => simp [hbList]
  | cons h1 _ ih =>
    simp only [hbList]
    have := hm _ (List.mem_cons_self _ _)
    exact max_le (by omega) (ih (fun d hd => hm d (List.mem_cons_of_mem _ hd)))

/-- No function of the block raises the bound `hb`. -/
theorem hb_le_of_some (env : Env) (rank : Nat → Nat)
    (hrank : ∀ d c, c ∈ (env d).subDirs → rank c < rank d) :
    ∀ fuel,
      (∀ n it d r n1, buildSubTree env fuel n it d = some (r, n1) → hb rank r ≤ hb rank it) ∧
      (∀ n it r n1, buildChildBody env fuel n it = some (r, n1) → hb rank r ≤ hb rank it) ∧
      (∀ n it r n1, expandItem env fuel n it = some (r, n1) → hb rank r ≤ hb rank it) := by
  intro fuel
  induction fuel using Nat.strong_induction_on with
  | _ fuel ih =>
    have hbody : ∀ n it r n1, buildChildBody env fuel n it = some (r, n1) →
        (∀ n it d r n1, buildSubTree env fuel n it d = some (r, n1) → hb rank r ≤ hb rank it) →
        hb rank r ≤ hb rank it := by
      intro n it r n1 h hB
      unfold buildChildBody at h
      by_cases hc : it.childCount > 0
      · rw [if_pos hc] at h
        simp only [Option.some.injEq, Prod.mk.injEq] at h
        rw [← h.1]
      · rw [if_neg hc] at h
        exact hB _ _ _ _ _ h
    have hexp : ∀ n it r n1, expandItem env fuel n it = some (r, n1) →
        hb rank r ≤ hb rank it := by
      intro n it r n1 h
      rcases expandItem_some h with ⟨_, rfl, _⟩ | ⟨_, f2, cs, hf, hl, rfl⟩
      · exact le_refl _
      · have h2 := forItems_forall2 (R := fun c c1 => hb rank c1 ≤ hb rank c) _ _ _ _ hl
          (fun c _ nx c1 nx1 hc => (ih f2 (by omega)).2.1 nx c c1 nx1 hc)
        rw [hb_setChildren, hb_eq rank it]
        simp only [dir_setExpandedFlag]
        exact max_le_max (le_refl _) (hbList_le_of_forall2 rank h2)
    have hbuild : ∀ n it d r n1, buildSubTree env fuel n it d = some (r, n1) →
        hb rank r ≤ hb rank it := by
      intro n it d r n1 h
      cases fuel with
      | zero => simp [buildSubTree] at h
      | succ f =>
        rcases buildSubTree_some h with ⟨_, rfl, _⟩ | ⟨_, _, rfl, _⟩ |
          ⟨_, _, cs, m, hloop, hfin⟩
        · exact le_refl _
        · exact le_refl _
        · have h1 : hb rank (it.setChildren cs) ≤ hb rank it := by
            rw [hb_setChildren, hb_eq rank it]
            rcases hloop with ⟨_, hl⟩ | ⟨hz, hl⟩
            · have h2 := forItems_forall2 (R := fun c c1 => hb rank c1 ≤ hb rank c) _ _ _ _ hl
                (fun c _ nx c1 nx1 hc => (ih f (by omega)).1 nx c _ c1 nx1 hc)
              exact max_le_max (le_refl _) (hbList_le_of_forall2 rank h2)
            · have h2 := forDirs_forall2 (R := fun d c1 => hb rank c1 ≤ rank d) _ _ _ _ hl
                (fun d _ nx c1 nx1 hc => by
                  have := (ih f (by omega)).1 _ _ _ c1 nx1 hc
                  rwa [hb_newItem] at this)
              have h3 := hbList_lt_of_forall2_dirs rank (rank it.dir) h2
                (fun d hd => hrank _ _ hd)
              exact max_le (le_max_left _ _) (le_trans h3 (le_max_left _ _))
          rcases hfin with ⟨_, he⟩ | ⟨_, rfl, _⟩
          · exact le_trans ((ih f (by omega)).2.2 _ _ _ _ he) h1
          · exact h1
    exact ⟨hbuild, fun n it r n1 h => hbody n it r n1 h hbuild, hexp⟩

/-- The item after the loop of `buildSubTree` is within the bound of the item before. -/
theorem hb_after_loop (env : Env) (rank : Nat → Nat)
    (hrank : ∀ d c, c ∈ (env d).subDirs → rank c < rank d) {fuel n : Nat}
    {it : QTreeWidgetItem} {d : Int} {cs : List QTreeWidgetItem} {m : Nat}
    (hloop : (if it.childCount > 0 then
        forItems (fun nx c => buildSubTree env fuel nx c d) n it.children
      else forDirs (fun nx c => buildSubTree env fuel nx c d) n (env it.dir).subDirs)
      = some (cs, m)) :
    hb rank (it.setChildren cs) ≤ hb rank it := by
  rw [hb_setChildren, hb_eq rank it]
  by_cases hc : it.childCount > 0
  · rw [if_pos hc] at hloop
    have h2 := forItems_forall2 (R := fun c c1 => hb rank c1 ≤ hb rank c) _ _ _ _ hloop
      (fun c _ nx c1 nx1 h => (hb_le_of_some env rank hrank fuel).1 nx c _ c1 nx1 h)
    exact max_le_max (le_refl _) (hbList_le_of_forall2 rank h2)
  · rw [if_neg hc] at hloop
    have h2 := forDirs_forall2 (R := fun d c1 => hb rank c1 ≤ rank d) _ _ _ _ hloop
      (fun d _ nx c1 nx1 h => by
        have := (hb_le_of_some env rank hrank fuel).1 _ _ _ c1 nx1 h
        rwa [hb_newItem] at this)
    have h3 := hbList_lt_of_forall2_dirs rank (rank it.dir) h2 (fun d hd => hrank _ _ hd)
    exact max_le (le_max_left _ _) (le_trans h3 (le_max_left _ _))

/-- On a finite directory tree `buildSubTree` and `expandItem` return when the fuel covers
four calls per level of the bound `hb`. -/
theorem returns_of_rank (env : Env) (rank : Nat → Nat)
    (hrank : ∀ d c, c ∈ (env d).subDirs → rank c < rank d) :
    ∀ m it, hb rank it ≤ m →
      (∀ fuel n d, 4 * m + 4 ≤ fuel → ∃ r, buildSubTree env fuel n it d = some r) ∧
      (∀ fuel n, 4 * m + 3 ≤ fuel → ∃ r, expandItem env fuel n it = some r) := by
  intro m
  induction m using Nat.strong_induction_on with
  | _ m ih =>
    have hexp : ∀ it, hb rank it ≤ m →
        ∀ fuel n, 4 * m + 3 ≤ fuel → ∃ r, expandItem env fuel n it = some r := by
      intro it hit fuel n hf
      obtain ⟨f2, rfl⟩ : ∃ f2, fuel = f2 + 3 := ⟨fuel - 3, by omega⟩
      by_cases he : it.isExpanded = true
      · exact ⟨_, expandItem_of_expanded he⟩
      · have he2 : it.isExpanded = false := by simpa using he
        obtain ⟨⟨cs, k⟩, hl⟩ := forItems_total (f := buildChildBody env f2) it.children n
          (by
            intro c hc nx
            unfold buildChildBody
            by_cases hcc : c.childCount > 0
            · exact ⟨_, if_pos hcc⟩
            · rw [if_neg hcc]
              have hlt := hb_child_lt rank it c hc
              exact (ih (m - 1) (by omega) c (by omega)).1 f2 nx 1 (by omega))
        exact ⟨_, expandItem_of_collapsed he2 hl⟩
    intro it hit
    refine ⟨?_, hexp it hit⟩
    intro fuel n d hf
    obtain ⟨f, rfl⟩ : ∃ f, fuel = f + 1 := ⟨fuel - 1, by omega⟩
    by_cases hd : d = 0
    · exact ⟨_, by rw [buildSubTree, if_pos hd]⟩
    by_cases ho : (env it.dir).openOk = false
    · exact ⟨_, by rw [buildSubTree, if_neg hd, if_pos ho]⟩
    have ho2 : (env it.dir).openOk = true := by simpa using ho
    have hloop : ∃ q, (if it.childCount > 0 then
        forItems (fun nx c => buildSubTree env f nx c (d - 1)) n it.children
      else forDirs (fun nx c => buildSubTree env f nx c (d - 1)) n (env it.dir).subDirs)
      = some q := by
      by_cases hc : it.childCount > 0
      · rw [if_pos hc]
        exact forItems_total it.children n (by
          intro c hc nx
          have hlt := hb_child_lt rank it c hc
          exact (ih (m - 1) (by omega) c (by omega)).1 f nx _ (by omega))
      · rw [if_neg hc]
        exact forDirs_total _ n (by
          intro x hx nx
          have hlt := hrank _ _ hx
          have hle : rank it.dir ≤ hb rank it := by rw [hb_eq]; exact le_max_left _ _
          exact (ih (m - 1) (by omega) (newItem nx x) (by rw [hb_newItem]; omega)).1 f _ _
            (by omega))
    obtain ⟨⟨cs, k⟩, hl⟩ := hloop
    rw [buildSubTree_eq_of_loop hd ho2 hl]
    by_cases he : (env it.dir).expanded = true
    · rw [if_pos he]
      have h1 := hb_after_loop env rank hrank hl
      exact hexp _ (le_trans h1 hit) f k (by omega)
    · rw [if_neg he]
      exact ⟨_, rfl⟩

/-! ## A second buildSubTree finds nothing to do -/

theorem settledList_iff (env : Env) (e : Int) :
    ∀ cs : List QTreeWidgetItem, settledList env e cs ↔ ∀ c ∈ cs, settled env e c
  | [] => by simp [settledList]
  | c :: cs => by
    simp only [settledList, settledList_iff env e cs, List.mem_cons, forall_eq_or_imp]

theorem settled_iff (env : Env) (e : Int) (it : QTreeWidgetItem) :
    settled env e it ↔
      (e = 0 ∨ (env it.dir).openOk = false ∨
        (((env it.dir).expanded = true → it.isExpanded = true) ∧
          (it.children = [] → (env it.dir).subDirs = []) ∧
          ∀ c ∈ it.children, settled env (e - 1) c)) := by
  cases it with
  | mk p d x h cs =>
    simp only [settled, settledList_iff, dir_mk, isExpanded_mk, children_mk]

/-- An item without children that is settled at a depth other than 0 is left as it is by
`buildSubTree(item, 1)`. -/
theorem buildSubTree_one_of_settled {env : Env} {fuel n : Nat} {c r : QTreeWidgetItem}
    {e : Int} {n1 : Nat} (hs : settled env e c) (he : e ≠ 0) (hc : c.children = [])
    (h : buildSubTree env fuel n c 1 = some (r, n1)) : r = c ∧ n1 = n := by
  cases fuel with
  | zero => simp [buildSubTree] at h
  | succ f =>
    rcases buildSubTree_some h with ⟨h0, _, _⟩ | ⟨_, _, h1, h2⟩ | ⟨_, ho, cs, m, hloop, hfin⟩
    · exact absurd h0 (by decide)
    · exact ⟨h1, h2⟩
    · rcases (settled_iff env e c).1 hs with h0 | h0 | ⟨hx, hsub, _⟩
      · exact absurd h0 he
      · rw [ho] at h0; cases h0
      · have hcs : cs = [] ∧ m = n := by
          rcases hloop with ⟨hpos, _⟩ | ⟨_, hl⟩
          · simp [QTreeWidgetItem.childCount, hc] at hpos
          · rw [hsub hc] at hl
            simp only [forDirs, Option.some.injEq, Prod.mk.injEq] at hl
            exact ⟨hl.1.symm, hl.2.symm⟩
        obtain ⟨rfl, rfl⟩ := hcs
        have hself : c.setChildren [] = c := by rw [← hc]; exact setChildren_children c
        rw [hself] at hfin
        rcases hfin with ⟨hflag, hex⟩ | ⟨_, h1, h2⟩
        · rcases expandItem_some hex with ⟨_, h1, h2⟩ | ⟨hcol, _⟩
          · exact ⟨h1, h2⟩
          · rw [hx hflag] at hcol; cases hcol
        · exact ⟨h1, h2⟩

/-- The loop of `buildChildren` keeps settled children settled. -/
theorem buildChildBody_settled {env : Env} {fuel n : Nat} {c r : QTreeWidgetItem}
    {e : Int} {n1 : Nat} (hs : settled env e c)
    (h : buildChildBody env fuel n c = some (r, n1)) : settled env e r := by
  unfold buildChildBody at h
  by_cases hc : c.childCount > 0
  · rw [if_pos hc] at h
    simp only [Option.some.injEq, Prod.mk.injEq] at h
    rw [← h.1]; exact hs
  · rw [if_neg hc] at h
    by_cases he : e = 0
    · exact (settled_iff env e r).2 (Or.inl he)
    · have hc2 : c.children = [] := by
        simpa [QTreeWidgetItem.childCount] using hc
      rw [(buildSubTree_one_of_settled hs he hc2 h).1]; exact hs

/-- What `buildSubTree(item, d)` returns is settled at depth `d`. -/
theorem settled_of_buildSubTree (env : Env) :
    ∀ fuel n it d r n1, buildSubTree env fuel n it d = some (r, n1) → settled env d r := by
  intro fuel
  induction fuel using Nat.strong_induction_on with
  | _ fuel ih =>
    intro n it d r n1 h
    cases fuel with
    | zero => simp [buildSubTree] at h
    | succ f =>
      rcases buildSubTree_some h with ⟨h0, _, _⟩ | ⟨_, ho, h1, _⟩ | ⟨hd, ho, cs, m, hloop, hfin⟩
      · exact (settled_iff env d r).2 (Or.inl h0)
      · exact (settled_iff env d r).2 (Or.inr (Or.inl (by rw [h1]; exact ho)))
      · have hkids : ∀ c ∈ cs, settled env (d - 1) c := by
          intro c hc
          rcases hloop with ⟨_, hl⟩ | ⟨_, hl⟩
          · have h2 := forItems_forall2 (R := fun _ c1 => settled env (d - 1) c1) _ _ _ _ hl
              (fun c _ nx c1 nx1 hc => ih f (by omega) nx c _ c1 nx1 hc)
            obtain ⟨_, _, hr⟩ := forall2_exists_left h2 c hc
            exact hr
          · have h2 := forDirs_forall2 (R := fun _ c1 => settled env (d - 1) c1) _ _ _ _ hl
              (fun x _ nx c1 nx1 hc => ih f (by omega) _ _ _ c1 nx1 hc)
            obtain ⟨_, _, hr⟩ := forall2_exists_left h2 c hc
            exact hr
        have hnil : cs = [] → (env it.dir).subDirs = [] := by
          intro hcs
          rcases hloop with ⟨hpos, hl⟩ | ⟨_, hl⟩
          · have h2 := forItems_forall2 (R := fun _ _ => True) _ _ _ _ hl
              (fun _ _ _ _ _ _ => trivial)
            have h3 := (forall2_nil_iff h2).2 hcs
            simp [QTreeWidgetItem.childCount, h3] at hpos
          · have h2 := forDirs_forall2 (R := fun _ _ => True) _ _ _ _ hl
              (fun _ _ _ _ _ _ => trivial)
            exact (forall2_nil_iff h2).2 hcs
        rcases hfin with ⟨hflag, hex⟩ | ⟨hflag, h1, _⟩
        · rcases expandItem_some hex with ⟨hx, h1, _⟩ | ⟨_, f2, cs2, _, hl2, h1⟩
          · rw [h1]
            refine (settled_iff env d _).2 (Or.inr (Or.inr ⟨fun _ => hx, ?_, ?_⟩))
            · simpa using hnil
            · simpa using hkids
          · rw [h1]
            simp only [children_setChildren] at hl2
            have h2 := forItems_forall2 (R := fun c c1 => settled env (d - 1) c →
                settled env (d - 1) c1) _ _ _ _ hl2
              (fun c _ nx c1 nx1 hc hs => buildChildBody_settled hs hc)
            refine (settled_iff env d _).2 (Or.inr (Or.inr ⟨fun _ => by simp, ?_, ?_⟩))
            · intro hcs2
              simp only [children_setChildren] at hcs2
              simpa using hnil ((forall2_nil_iff h2).2 hcs2)
            · intro c1 hc1
              simp only [children_setChildren] at hc1
              obtain ⟨c, hc, hr⟩ := forall2_exists_left h2 c1 hc1
              exact hr (hkids c hc)
        · rw [h1]
          refine (settled_iff env d _).2 (Or.inr (Or.inr ⟨?_, ?_, ?_⟩))
          · intro hf
            simp only [dir_setChildren] at hf
            rw [hflag] at hf; cases hf
          · simpa using hnil
          · simpa using hkids

/-- A settled item is left as it is by `buildSubTree` at the same depth. -/
theorem buildSubTree_of_settled (env : Env) :
    ∀ fuel n it d r n1, settled env d it → buildSubTree env fuel n it d = some (r, n1) →
      r = it ∧ n1 = n := by
  intro fuel
  induction fuel using Nat.strong_induction_on with
  | _ fuel ih =>
    intro n it d r n1 hs h
    cases fuel with
    | zero => simp [buildSubTree] at h
    | succ f =>
      rcases buildSubTree_some h with ⟨_, h1, h2⟩ | ⟨_, _, h1, h2⟩ | ⟨hd, ho, cs, m, hloop, hfin⟩
      · exact ⟨h1, h2⟩
      · exact ⟨h1, h2⟩
      · rcases (settled_iff env d it).1 hs with h0 | h0 | ⟨hx, hsub, hkids⟩
        · exact absurd h0 hd
        · rw [ho] at h0; cases h0
        · have hcs : cs = it.children ∧ m = n := by
            rcases hloop with ⟨_, hl⟩ | ⟨hz, hl⟩
            · exact forItems_eq_self _ _ _ _ hl
                (fun c hc nx c1 nx1 hcc => ih f (by omega) nx c _ c1 nx1 (hkids c hc) hcc)
            · have hc0 : it.children = [] := by
                simpa [QTreeWidgetItem.childCount] using hz
              rw [hsub hc0] at hl
              simp only [forDirs, Option.some.injEq, Prod.mk.injEq] at hl
              exact ⟨by rw [hc0]; exact hl.1.symm, hl.2.symm⟩
          obtain ⟨rfl, rfl⟩ := hcs
          rw [setChildren_children] at hfin
          rcases hfin with ⟨hflag, hex⟩ | ⟨_, h1, h2⟩
          · rcases expandItem_some hex with ⟨_, h1, h2⟩ | ⟨hcol, _⟩
            · exact ⟨h1, h2⟩
            · rw [hx hflag] at hcol; cases hcol
          · exact ⟨h1, h2⟩

/-! ## The depth bound of buildSubTree -/

theorem truncShape_of_shaped (env : Env) :
    ∀ k it, shaped env k it → truncShape env k it = true
  | 0, it, h => by
    simp only [shaped] at h
    simp [truncShape, h]
  | k + 1, it, h => by
    simp only [shaped] at h
    simp only [truncShape, Bool.and_eq_true, decide_eq_true_eq, List.all_eq_true]
    exact ⟨h.1, fun c hc => truncShape_of_shaped env k c (h.2.2 c hc)⟩

/-- An item without children, whose directory opens and has no sub-directory, and which is
expanded when the directory is flagged, is left as it is by `buildSubTree(item, 1)`. -/
theorem buildSubTree_one_of_leaf {env : Env} {fuel n : Nat} {c : QTreeWidgetItem}
    (hf : 2 ≤ fuel) (ho : (env c.dir).openOk = true) (hc : c.children = [])
    (hsub : (env c.dir).subDirs = []) (hx : (env c.dir).expanded = true → c.isExpanded = true) :
    buildSubTree env fuel n c 1 = some (c, n) := by
  obtain ⟨g, rfl⟩ : ∃ g, fuel = g + 2 := ⟨fuel - 2, by omega⟩
  have hloop : (if c.childCount > 0 then
      forItems (fun nx x => buildSubTree env (g + 1) nx x (1 - 1)) n c.children
    else forDirs (fun nx x => buildSubTree env (g + 1) nx x (1 - 1)) n (env c.dir).subDirs)
    = some ([], n) := by
    rw [if_neg (by simp [QTreeWidgetItem.childCount, hc]), hsub]
    rfl
  have hself : c.setChildren [] = c := by rw [← hc]; exact setChildren_children c
  rw [buildSubTree_eq_of_loop (by decide) ho hloop, hself]
  by_cases he : (env c.dir).expanded = true
  · rw [if_pos he]
    exact expandItem_of_expanded (hx he)
  · rw [if_neg he]

/-- The depth bound with its invariant: see `shaped`. -/
theorem buildSubTree_shaped (env : Env) (hopen : ∀ d, (env d).openOk = true) :
    ∀ (k : Nat) (item : QTreeWidgetItem), item.children = [] →
      (∀ j, j + 1 = k → ∀ x ∈ levelDirs env j item.dir, (env x).expanded = false) →
      ∀ fuel n, k + 5 ≤ fuel → ∃ r n1,
        buildSubTree env fuel n item (k : Int) = some (r, n1) ∧ shaped env k r ∧
          r.dir = item.dir ∧ (k = 0 → r = item ∧ n1 = n) := by
  intro k
  induction k with
  | zero =>
    intro item hleaf _ fuel n hf
    obtain ⟨f, rfl⟩ : ∃ f, fuel = f + 1 := ⟨fuel - 1, by omega⟩
    refine ⟨item, n, ?_, hleaf, rfl, fun _ => ⟨rfl, rfl⟩⟩
    rw [buildSubTree, if_pos (by simp)]
  | succ k ih =>
    intro item hleaf hflag fuel n hf
    obtain ⟨f, rfl⟩ : ∃ f, fuel = f + 1 := ⟨fuel - 1, by omega⟩
    have hcast : ((k + 1 : Nat) : Int) - 1 = (k : Int) := by push_cast; ring
    have hkid : ∀ x ∈ (env item.dir).subDirs, ∀ nx, ∃ r n1,
        buildSubTree env f (nx + 1) (newItem nx x) (k : Int) = some (r, n1) ∧ shaped env k r ∧
          r.dir = x := by
      intro x hx nx
      obtain ⟨r, n1, h1, h2, h3, _⟩ := ih (newItem nx x) rfl
        (by
          intro j hj y hy
          refine hflag (j + 1) (by omega) y ?_
          simp only [levelDirs, List.mem_flatMap]
          exact ⟨x, hx, hy⟩)
        f (nx + 1) (by omega)
      exact ⟨r, n1, h1, h2, h3⟩
    obtain ⟨⟨cs, m⟩, hl⟩ := forDirs_total
      (f := fun nx c => buildSubTree env f nx c (((k + 1 : Nat) : Int) - 1))
      (env item.dir).subDirs n
      (by
        intro x hx nx
        obtain ⟨r, n1, h1, _⟩ := hkid x hx nx
        rw [hcast]
        exact ⟨_, h1⟩)
    have hfa := forDirs_forall2 (R := fun x c1 => shaped env k c1 ∧ c1.dir = x) _ _ _ _ hl
      (by
        intro x hx nx c1 nx1 hc
        obtain ⟨r, n1, h1, h2, h3⟩ := hkid x hx nx
        rw [hcast, h1] at hc
        simp only [Option.some.injEq, Prod.mk.injEq] at hc
        rw [← hc.1]
        exact ⟨h2, h3⟩)
    have hdirs : cs.map QTreeWidgetItem.dir = (env item.dir).subDirs := by
      have := forall2_map_eq (f := id) (g := QTreeWidgetItem.dir) hfa (fun a b h => h.2.symm)
      simpa using this.symm
    have hshape : ∀ c ∈ cs, shaped env k c := by
      intro c hc
      obtain ⟨_, _, h⟩ := forall2_exists_left hfa c hc
      exact h.1
    have hloop : (if item.childCount > 0 then
        forItems (fun nx c => buildSubTree env f nx c (((k + 1 : Nat) : Int) - 1)) n
          item.children
      else forDirs (fun nx c => buildSubTree env f nx c (((k + 1 : Nat) : Int) - 1)) n
          (env item.dir).subDirs) = some (cs, m) := by
      rw [if_neg (by simp [QTreeWidgetItem.childCount, hleaf])]
      exact hl
    rw [buildSubTree_eq_of_loop (by push_cast; omega) (hopen _) hloop]
    by_cases he : (env item.dir).expanded = true
    · rw [if_pos he]
      have hk : 1 ≤ k := by
        rcases Nat.eq_zero_or_pos k with h0 | h0
        · subst h0
          have := hflag 0 rfl item.dir (by simp [levelDirs])
          rw [he] at this; cases this
        · exact h0
      by_cases hx : (item.setChildren cs).isExpanded = true
      · obtain ⟨g, rfl⟩ : ∃ g, f = g + 1 := ⟨f - 1, by omega⟩
        refine ⟨_, _, expandItem_of_expanded hx, ?_, by simp, fun h => by omega⟩
        refine ⟨by simpa using hdirs, fun _ => hx, by simpa using hshape⟩
      · obtain ⟨g, rfl⟩ : ∃ g, f = g + 3 := ⟨f - 3, by omega⟩
        have hbody : forItems (buildChildBody env g) m (item.setChildren cs).children
            = some (cs, m) := by
          rw [children_setChildren]
          refine forItems_id cs m ?_
          intro c hc
          unfold buildChildBody
          by_cases hcc : c.childCount > 0
          · rw [if_pos hcc]
          · rw [if_neg hcc]
            have hc0 : c.children = [] := by simpa [QTreeWidgetItem.childCount] using hcc
            obtain ⟨k1, rfl⟩ : ∃ k1, k = k1 + 1 := ⟨k - 1, by omega⟩
            have hs := hshape c hc
            simp only [shaped] at hs
            refine buildSubTree_one_of_leaf (by omega) (hopen _) hc0 ?_ hs.2.1
            rw [← hs.1, hc0]; rfl
        refine ⟨_, _, expandItem_of_collapsed (by simpa using hx) hbody, ?_, by simp,
          fun h => by omega⟩
        refine ⟨by simpa using hdirs, fun _ => by simp, by simpa using hshape⟩
    · rw [if_neg he]
      refine ⟨_, _, rfl, ?_, by simp, fun h => by omega⟩
      refine ⟨by simpa using hdirs, fun h => ?_, by simpa using hshape⟩
      simp only [dir_setChildren] at h
      exact absurd h he

/-! ## Items are kept -/

theorem keptList_iff : ∀ cs ns : List QTreeWidgetItem,
    keptList cs ns = true ↔ List.Forall₂ (fun a b => kept a b = true) cs ns
  | [], [] => by simp [keptList]
  | [], _ :: _ => by simp [keptList]
  | _ :: _, [] => by simp [keptList]
  | c :: cs, n :: ns => by
    simp only [keptList, Bool.and_eq_true, keptList_iff cs ns, List.forall₂_cons]

theorem kept_iff (old new : QTreeWidgetItem) :
    kept old new = true ↔
      new.ptr = old.ptr ∧ new.dir = old.dir ∧ new.isHidden = old.isHidden ∧
        (old.children = [] ∨
          List.Forall₂ (fun a b => kept a b = true) old.children new.children) := by
  cases old with
  | mk p d e h cs =>
    simp only [kept, Bool.and_eq_true, beq_iff_eq, Bool.or_eq_true, List.isEmpty_iff,
      keptList_iff, ptr_mk, dir_mk, isHidden_mk, children_mk, and_assoc]

theorem kept_refl : ∀ it : QTreeWidgetItem, kept it it = true := by
  intro it
  induction it using QTreeWidgetItem.induct with
  | h p d e hd cs ih =>
    refine (kept_iff _ _).2 ⟨rfl, rfl, rfl, Or.inr ?_⟩
    simp only [children_mk]
    exact List.forall₂_same.2 ih

theorem kept_trans : ∀ a b c : QTreeWidgetItem, kept a b = true → kept b c = true →
    kept a c = true := by
  intro a
  induction a using QTreeWidgetItem.induct with
  | h p d e hd cs ih =>
    intro b c hab hbc
    obtain ⟨h1, h2, h3, h4⟩ := (kept_iff _ _).1 hab
    obtain ⟨g1, g2, g3, g4⟩ := (kept_iff _ _).1 hbc
    refine (kept_iff _ _).2 ⟨by rw [g1, h1], by rw [g2, h2], by rw [g3, h3], ?_⟩
    simp only [children_mk] at h4 ⊢
    rcases h4 with h4 | h4
    · exact Or.inl h4
    · rcases g4 with g4 | g4
      · rw [g4] at h4
        cases h4
        exact Or.inl rfl
      · exact Or.inr (forall2_trans_of _ _ _ ih h4 g4)

theorem kept_setExpandedFlag (it : QTreeWidgetItem) (b : Bool) :
    kept it (it.setExpandedFlag b) = true := by
  cases it with
  | mk p d e h cs =>
    refine (kept_iff _ _).2 ⟨rfl, rfl, rfl, Or.inr ?_⟩
    exact List.forall₂_same.2 (fun c _ => kept_refl c)

theorem kept_setChildren (it : QTreeWidgetItem) (cs : List QTreeWidgetItem)
    (h : it.children = [] ∨ List.Forall₂ (fun a b => kept a b = true) it.children cs) :
    kept it (it.setChildren cs) = true :=
  (kept_iff _ _).2 ⟨by simp, by simp, by simp, by simpa using h⟩

/-- What every function of the block leaves of an item: the item is kept, the allocation
counter does not go back, an expanded item stays expanded, and the item of a directory that
is not flagged keeps its expansion state. -/
theorem frame_of_some (env : Env) :
    ∀ fuel,
      (∀ n it d r n1, buildSubTree env fuel n it d = some (r, n1) →
        kept it r = true ∧ n ≤ n1 ∧ (it.isExpanded = true → r.isExpanded = true) ∧
          ((env it.dir).expanded = false → r.isExpanded = it.isExpanded)) ∧
      (∀ n it r n1, buildChildBody env fuel n it = some (r, n1) →
        kept it r = true ∧ n ≤ n1 ∧ (it.isExpanded = true → r.isExpanded = true)) ∧
      (∀ n it r n1, expandItem env fuel n it = some (r, n1) →
        kept it r = true ∧ n ≤ n1 ∧ r.isExpanded = true ∧
          List.Forall₂ (fun a b => kept a b = true) it.children r.children) := by
  intro fuel
  induction fuel using Nat.strong_induction_on with
  | _ fuel ih =>
    have hexp : ∀ n it r n1, expandItem env fuel n it = some (r, n1) →
        kept it r = true ∧ n ≤ n1 ∧ r.isExpanded = true ∧
          List.Forall₂ (fun a b => kept a b = true) it.children r.children := by
      intro n it r n1 h
      rcases expandItem_some h with ⟨hx, rfl, rfl⟩ | ⟨_, f2, cs, hf, hl, rfl⟩
      · exact ⟨kept_refl _, le_refl _, hx, List.forall₂_same.2 (fun c _ => kept_refl c)⟩
      · have h2 := forItems_forall2 (R := fun a b => kept a b = true) _ _ _ _ hl
          (fun c _ nx c1 nx1 hc => ((ih f2 (by omega)).2.1 nx c c1 nx1 hc).1)
        have h3 := forItems_next_le _ _ _ _ hl
          (fun c _ nx c1 nx1 hc => ((ih f2 (by omega)).2.1 nx c c1 nx1 hc).2.1)
        refine ⟨?_, h3, by simp, by simpa using h2⟩
        refine (kept_iff _ _).2 ⟨by simp, by simp, by simp, Or.inr (by simpa using h2)⟩
    have hbuild : ∀ n it d r n1, buildSubTree env fuel n it d = some (r, n1) →
        kept it r = true ∧ n ≤ n1 ∧ (it.isExpanded = true → r.isExpanded = true) ∧
          ((env it.dir).expanded = false → r.isExpanded = it.isExpanded) := by
      intro n it d r n1 h
      cases fuel with
      | zero => simp [buildSubTree] at h
      | succ f =>
        rcases buildSubTree_some h with ⟨_, rfl, rfl⟩ | ⟨_, _, rfl, rfl⟩ |
          ⟨_, _, cs, m, hloop, hfin⟩
        · exact ⟨kept_refl _, le_refl _, id, fun _ => rfl⟩
        · exact ⟨kept_refl _, le_refl _, id, fun _ => rfl⟩
        · have h1 : kept it (it.setChildren cs) = true ∧ n ≤ m := by
            rcases hloop with ⟨_, hl⟩ | ⟨hz, hl⟩
            · have h2 := forItems_forall2 (R := fun a b => kept a b = true) _ _ _ _ hl
                (fun c _ nx c1 nx1 hc => ((ih f (by omega)).1 nx c _ c1 nx1 hc).1)
              have h3 := forItems_next_le _ _ _ _ hl
                (fun c _ nx c1 nx1 hc => ((ih f (by omega)).1 nx c _ c1 nx1 hc).2.1)
              exact ⟨kept_setChildren _ _ (Or.inr h2), h3⟩
            · have h3 := forDirs_next_le _ _ _ _ hl
                (fun c _ nx c1 nx1 hc => ((ih f (by omega)).1 _ _ _ c1 nx1 hc).2.1)
              refine ⟨kept_setChildren _ _ (Or.inl ?_), h3⟩
              simpa [QTreeWidgetItem.childCount] using hz
          rcases hfin with ⟨hflag, he⟩ | ⟨hflag, rfl, rfl⟩
          · obtain ⟨k1, k2, k3, _⟩ := (ih f (by omega)).2.2 _ _ _ _ he
            refine ⟨kept_trans _ _ _ h1.1 k1, le_trans h1.2 k2, fun _ => k3, ?_⟩
            intro hnf
            rw [hflag] at hnf; cases hnf
          · exact ⟨h1.1, h1.2, by simp, fun _ => by simp⟩
    refine ⟨hbuild, ?_, hexp⟩
    intro n it r n1 h
    unfold buildChildBody at h
    by_cases hc : it.childCount > 0
    · rw [if_pos hc] at h
      simp only [Option.some.injEq, Prod.mk.injEq] at h
      rw [← h.1, ← h.2]
      exact ⟨kept_refl _, le_refl _, id⟩
    · rw [if_neg hc] at h
      obtain ⟨k1, k2, k3, _⟩ := hbuild _ _ _ _ _ h
      exact ⟨k1, k2, k3⟩

/-! ## Unbounded materialization -/

theorem fullMirrorList_iff (env : Env) : ∀ cs : List QTreeWidgetItem,
    fullMirrorList env cs = true ↔ ∀ c ∈ cs, fullMirror env c = true
  | [] => by simp [fullMirrorList]
  | c :: cs => by
    simp only [fullMirrorList, Bool.and_eq_true, fullMirrorList_iff env cs, List.mem_cons,
      forall_eq_or_imp]

theorem fullMirror_iff (env : Env) (it : QTreeWidgetItem) :
    fullMirror env it = true ↔
      it.children.map QTreeWidgetItem.dir = (env it.dir).subDirs ∧
        ∀ c ∈ it.children, fullMirror env c = true := by
  cases it with
  | mk p d e h cs =>
    simp only [fullMirror, Bool.and_eq_true, decide_eq_true_eq, fullMirrorList_iff, dir_mk,
      children_mk]

theorem builtPartMirrorsList_iff (env : Env) : ∀ cs : List QTreeWidgetItem,
    builtPartMirrorsList env cs = true ↔ ∀ c ∈ cs, builtPartMirrors env c = true
  | [] => by simp [builtPartMirrorsList]
  | c :: cs => by
    simp only [builtPartMirrorsList, Bool.and_eq_true, builtPartMirrorsList_iff env cs,
      List.mem_cons, forall_eq_or_imp]

theorem builtPartMirrors_iff (env : Env) (it : QTreeWidgetItem) :
    builtPartMirrors env it = true ↔
      it.children = [] ∨
        (it.children.map QTreeWidgetItem.dir = (env it.dir).subDirs ∧
          ∀ c ∈ it.children, builtPartMirrors env c = true) := by
  cases it with
  | mk p d e h cs =>
    simp only [builtPartMirrors, Bool.or_eq_true, Bool.and_eq_true, decide_eq_true_eq,
      builtPartMirrorsList_iff, List.isEmpty_iff, dir_mk, children_mk]

theorem kept_dir {a b : QTreeWidgetItem} (h : kept a b = true) : b.dir = a.dir :=
  ((kept_iff a b).1 h).2.1

theorem kept_ptr {a b : QTreeWidgetItem} (h : kept a b = true) : b.ptr = a.ptr :=
  ((kept_iff a b).1 h).1

/-- A full mirror stays a full mirror under every function of the block. -/
theorem fullMirror_of_some (env : Env) :
    ∀ fuel,
      (∀ n it d r n1, fullMirror env it = true → buildSubTree env fuel n it d = some (r, n1) →
        fullMirror env r = true) ∧
      (∀ n it r n1, fullMirror env it = true → buildChildBody env fuel n it = some (r, n1) →
        fullMirror env r = true) ∧
      (∀ n it r n1, fullMirror env it = true → expandItem env fuel n it = some (r, n1) →
        fullMirror env r = true) := by
  intro fuel
  induction fuel using Nat.strong_induction_on with
  | _ fuel ih =>
    have hkids : ∀ (g : Nat) (body : Nat → QTreeWidgetItem → Option (QTreeWidgetItem × Nat))
        (it : QTreeWidgetItem) (n : Nat) (cs : List QTreeWidgetItem) (m : Nat),
        fullMirror env it = true →
        (∀ nx c c1 nx1, body nx c = some (c1, nx1) →
          kept c c1 = true ∧ (fullMirror env c = true → fullMirror env c1 = true)) →
        forItems body n it.children = some (cs, m) →
        cs.map QTreeWidgetItem.dir = (env it.dir).subDirs ∧
          ∀ c ∈ cs, fullMirror env c = true := by
      intro g body it n cs m hm hb hl
      obtain ⟨hd, hc⟩ := (fullMirror_iff env it).1 hm
      have h2 := forItems_forall2
        (R := fun c c1 => kept c c1 = true ∧ (fullMirror env c = true →
          fullMirror env c1 = true)) _ _ _ _ hl
        (fun c _ nx c1 nx1 h => hb nx c c1 nx1 h)
      refine ⟨?_, ?_⟩
      · rw [← hd]
        exact (forall2_map_eq h2 (fun a b h => (kept_dir h.1).symm)).symm
      · intro c1 hc1
        obtain ⟨c, hcm, hr⟩ := forall2_exists_left h2 c1 hc1
        exact hr.2 (hc c hcm)
    have hexp : ∀ n it r n1, fullMirror env it = true →
        expandItem env fuel n it = some (r, n1) → fullMirror env r = true := by
      intro n it r n1 hm h
      rcases expandItem_some h with ⟨_, rfl, _⟩ | ⟨_, f2, cs, hf, hl, rfl⟩
      · exact hm
      · obtain ⟨k1, k2⟩ := hkids f2 (buildChildBody env f2) it n cs n1 hm
          (fun nx c c1 nx1 h => ⟨((frame_of_some env f2).2.1 nx c c1 nx1 h).1,
            fun hc => (ih f2 (by omega)).2.1 nx c c1 nx1 hc h⟩) hl
        exact (fullMirror_iff env _).2 ⟨by simpa using k1, by simpa using k2⟩
    have hbuild : ∀ n it d r n1, fullMirror env it = true →
        buildSubTree env fuel n it d = some (r, n1) → fullMirror env r = true := by
      intro n it d r n1 hm h
      cases fuel with
      | zero => simp [buildSubTree] at h
      | succ f =>
        rcases buildSubTree_some h with ⟨_, rfl, _⟩ | ⟨_, _, rfl, _⟩ |
          ⟨_, _, cs, m, hloop, hfin⟩
        · exact hm
        · exact hm
        · have h1 : fullMirror env (it.setChildren cs) = true := by
            rcases hloop with ⟨_, hl⟩ | ⟨hz, hl⟩
            · obtain ⟨k1, k2⟩ := hkids f _ it n cs m hm
                (fun nx c c1 nx1 h => ⟨((frame_of_some env f).1 nx c _ c1 nx1 h).1,
                  fun hc => (ih f (by omega)).1 nx c _ c1 nx1 hc h⟩) hl
              exact (fullMirror_iff env _).2 ⟨by simpa using k1, by simpa using k2⟩
            · have hc0 : it.children = [] := by
                simpa [QTreeWidgetItem.childCount] using hz
              have hs : (env it.dir).subDirs = [] := by
                rw [← ((fullMirror_iff env it).1 hm).1, hc0]; rfl
              rw [hs] at hl
              simp only [forDirs, Option.some.injEq, Prod.mk.injEq] at hl
              rw [← hl.1, ← hc0, setChildren_children]
              exact hm
          rcases hfin with ⟨_, he⟩ | ⟨_, rfl, _⟩
          · exact (ih f (by omega)).2.2 _ _ _ _ h1 he
          · exact h1
    refine ⟨hbuild, ?_, hexp⟩
    intro n it r n1 hm h
    unfold buildChildBody at h
    by_cases hc : it.childCount > 0
    · rw [if_pos hc] at h
      simp only [Option.some.injEq, Prod.mk.injEq] at h
      rw [← h.1]; exact hm
    · rw [if_neg hc] at h
      exact hbuild _ _ _ _ _ hm h

/-- With a negative depth, `buildSubTree` completes a subtree that mirrors the upper part of
the directory subtree to a full mirror. -/
theorem fullMirror_of_buildSubTree (env : Env) (hopen : ∀ d, (env d).openOk = true) :
    ∀ fuel n it d r n1, d < 0 → builtPartMirrors env it = true →
      buildSubTree env fuel n it d = some (r, n1) → fullMirror env r = true := by
  intro fuel
  induction fuel using Nat.strong_induction_on with
  | _ fuel ih =>
    intro n it d r n1 hd hm h
    cases fuel with
    | zero => simp [buildSubTree] at h
    | succ f =>
      rcases buildSubTree_some h with ⟨h0, _, _⟩ | ⟨_, ho, _, _⟩ | ⟨_, _, cs, m, hloop, hfin⟩
      · omega
      · rw [hopen] at ho; cases ho
      · have h1 : fullMirror env (it.setChildren cs) = true := by
          rcases hloop with ⟨hpos, hl⟩ | ⟨hz, hl⟩
          · rcases (builtPartMirrors_iff env it).1 hm with h0 | ⟨hdirs, hkid⟩
            · simp [QTreeWidgetItem.childCount, h0] at hpos
            · have h2 := forItems_forall2
                (R := fun c c1 => kept c c1 = true ∧ (builtPartMirrors env c = true →
                  fullMirror env c1 = true)) _ _ _ _ hl
                (fun c _ nx c1 nx1 h => ⟨((frame_of_some env f).1 nx c _ c1 nx1 h).1,
                  fun hc => ih f (by omega) nx c _ c1 nx1 (by omega) hc h⟩)
              refine (fullMirror_iff env _).2 ⟨?_, ?_⟩
              · simp only [children_setChildren, dir_setChildren]
                rw [← hdirs]
                exact (forall2_map_eq h2 (fun a b h => (kept_dir h.1).symm)).symm
              · intro c1 hc1
                simp only [children_setChildren] at hc1
                obtain ⟨c, hcm, hr⟩ := forall2_exists_left h2 c1 hc1
                exact hr.2 (hkid c hcm)
          · have h2 := forDirs_forall2
              (R := fun x c1 => c1.dir = x ∧ fullMirror env c1 = true) _ _ _ _ hl
              (fun x _ nx c1 nx1 h =>
                ⟨by simpa using kept_dir ((frame_of_some env f).1 _ _ _ c1 nx1 h).1,
                  ih f (by omega) (nx + 1) (newItem nx x) (d - 1) c1 nx1 (by omega)
                    ((builtPartMirrors_iff env (newItem nx x)).2 (Or.inl rfl)) h⟩)
            refine (fullMirror_iff env _).2 ⟨?_, ?_⟩
            · simp only [children_setChildren, dir_setChildren]
              have := forall2_map_eq (f := id) (g := QTreeWidgetItem.dir) h2
                (fun a b h => h.1.symm)
              simpa using this.symm
            · intro c1 hc1
              simp only [children_setChildren] at hc1
              obtain ⟨_, _, hr⟩ := forall2_exists_left h2 c1 hc1
              exact hr.2
        rcases hfin with ⟨_, he⟩ | ⟨_, rfl, _⟩
        · exact (fullMirror_of_some env f).2.2 _ _ _ _ h1 he
        · exact h1

/-! ## Root rebuild -/

@[simp] theorem setCurrentItem_topLevel (t : VDirectoryTree) (p : Nat) :
    (setCurrentItem t p).topLevel = t.topLevel := by
  unfold setCurrentItem
  split
  · rfl
  · split <;> rfl

@[simp] theorem setCurrentItem_current (t : VDirectoryTree) (p : Nat) :
    (setCurrentItem t p).current = some p := by
  unfold setCurrentItem
  split
  · assumption
  · split <;> rfl

/-- The walk of `findVDirectory` up the parents returns when the parents get closer to a
directory without parent at every step. -/
theorem findVDirectory_returns (env : Env) (t : VDirectoryTree) (level : Nat → Nat)
    (hlevel : ∀ d p, (env d).parent = some p → level p < level d) :
    ∀ fuel (od : Option Nat), (∀ d, od = some d → level d + 1 < fuel) → 0 < fuel →
      ∃ r, findVDirectory env t fuel od = some r := by
  intro fuel
  induction fuel with
  | zero => intro od _ h; omega
  | succ f ih =>
    intro od hod _
    cases od with
    | none => exact ⟨_, rfl⟩
    | some d =>
      have hd := hod d rfl
      rw [findVDirectory]
      by_cases h1 : (env d).notebook ≠ t.notebook
      · rw [if_pos h1]; exact ⟨_, rfl⟩
      rw [if_neg h1]
      by_cases h2 : d = t.rootDir
      · rw [if_pos h2]; exact ⟨_, rfl⟩
      rw [if_neg h2]
      obtain ⟨r, hr⟩ := ih (env d).parent
        (by
          intro p hp
          have := hlevel d p hp
          omega)
        (by omega)
      rw [hr]
      obtain ⟨a, b⟩ := r
      cases a with
      | some pp =>
        dsimp only
        cases findInItems pp t.topLevel <;> exact ⟨_, rfl⟩
      | none =>
        cases b <;> exact ⟨_, rfl⟩

/-- The function `restoreCurrentItem` returns and leaves the rows as they are. -/
theorem restoreCurrentItem_returns (env : Env) (t : VDirectoryTree) (level : Nat → Nat)
    (hlevel : ∀ d p, (env d).parent = some p → level p < level d) (fuel : Nat)
    (hf : ∀ d, t.remembered = some d → level d + 1 < fuel) (h0 : 0 < fuel) :
    ∃ t1 b, restoreCurrentItem env fuel t = some (t1, b) ∧ t1.topLevel = t.topLevel := by
  unfold restoreCurrentItem
  cases hr : t.remembered with
  | none => exact ⟨t, false, rfl, rfl⟩
  | some d =>
    dsimp only
    obtain ⟨⟨a, b⟩, hfind⟩ := findVDirectory_returns env t level hlevel fuel (some d)
      (by
        intro x hx
        cases hx
        exact hf d hr) h0
    rw [hfind]
    cases a with
    | some p => exact ⟨_, _, rfl, by simp⟩
    | none => exact ⟨_, _, rfl, rfl⟩

/-- What `buildSubTree(item, 1)` makes of a new item whose directory opens: one child per
sub-directory, in order, and no expansion when the directory is not flagged. -/
theorem buildSubTree_one_newItem {env : Env} {fuel nx x : Nat} {r : QTreeWidgetItem}
    {n1 : Nat} (ho : (env x).openOk = true)
    (h : buildSubTree env fuel (nx + 1) (newItem nx x) 1 = some (r, n1)) :
    r.dir = x ∧ r.children.map QTreeWidgetItem.dir = (env x).subDirs ∧
      ((env x).expanded = false → r.isExpanded = false) := by
  have hfr := (frame_of_some env fuel).1 _ _ _ _ _ h
  refine ⟨by simpa using kept_dir hfr.1, ?_, fun hx => by simpa using hfr.2.2.2 hx⟩
  cases fuel with
  | zero => simp [buildSubTree] at h
  | succ f =>
    rcases buildSubTree_some h with ⟨h0, _, _⟩ | ⟨_, hno, _, _⟩ | ⟨_, _, cs, m, hloop, hfin⟩
    · exact absurd h0 (by decide)
    · simp only [newItem_dir] at hno
      rw [ho] at hno; cases hno
    · have hcs : cs.map QTreeWidgetItem.dir = (env x).subDirs := by
        rcases hloop with ⟨hpos, _⟩ | ⟨_, hl⟩
        · simp [QTreeWidgetItem.childCount] at hpos
        · have h2 := forDirs_forall2 (R := fun y c1 => c1.dir = y) _ _ _ _ hl
            (fun y _ k c1 k1 hc => by
              simpa using kept_dir ((frame_of_some env f).1 _ _ _ c1 k1 hc).1)
          have := forall2_map_eq (f := id) (g := QTreeWidgetItem.dir) h2
            (fun a b h => h.symm)
          simpa using this.symm
      rcases hfin with ⟨_, he⟩ | ⟨_, rfl, _⟩
      · have h3 := ((frame_of_some env f).2.2 _ _ _ _ he).2.2.2
        simp only [children_setChildren] at h3
        rw [← hcs]
        exact (forall2_map_eq h3 (fun a b h => (kept_dir h).symm)).symm
      · simpa using hcs

/-! ## Items grow -/

theorem grownList_iff : ∀ cs ns : List QTreeWidgetItem,
    grownList cs ns = true ↔ List.Forall₂ (fun a b => grown a b = true) cs ns
  | [], [] => by simp [grownList]
  | [], _ :: _ => by simp [grownList]
  | _ :: _, [] => by simp [grownList]
  | c :: cs, n :: ns => by
    simp only [grownList, Bool.and_eq_true, grownList_iff cs ns, List.forall₂_cons]

theorem grown_iff (old new : QTreeWidgetItem) :
    grown old new = true ↔
      new.ptr = old.ptr ∧ new.dir = old.dir ∧ new.isHidden = old.isHidden ∧
        (old.isExpanded = true → new.isExpanded = true) ∧
        (old.children = [] ∨
          List.Forall₂ (fun a b => grown a b = true) old.children new.children) := by
  cases old with
  | mk p d e h cs =>
    cases e <;>
    simp only [grown, Bool.and_eq_true, beq_iff_eq, Bool.or_eq_true, List.isEmpty_iff,
      grownList_iff, ptr_mk, dir_mk, isHidden_mk, isExpanded_mk, children_mk, and_assoc,
      Bool.not_true, Bool.not_false, true_or, true_and, false_or, forall_const,
      Bool.false_eq_true, false_implies]

theorem grown_refl : ∀ it : QTreeWidgetItem, grown it it = true := by
  intro it
  induction it using QTreeWidgetItem.induct with
  | h p d e hd cs ih =>
    refine (grown_iff _ _).2 ⟨rfl, rfl, rfl, id, Or.inr ?_⟩
    simp only [children_mk]
    exact List.forall₂_same.2 ih

theorem grown_trans : ∀ a b c : QTreeWidgetItem, grown a b = true → grown b c = true →
    grown a c = true := by
  intro a
  induction a using QTreeWidgetItem.induct with
  | h p d e hd cs ih =>
    intro b c hab hbc
    obtain ⟨h1, h2, h3, h5, h4⟩ := (grown_iff _ _).1 hab
    obtain ⟨g1, g2, g3, g5, g4⟩ := (grown_iff _ _).1 hbc
    refine (grown_iff _ _).2 ⟨by rw [g1, h1], by rw [g2, h2], by rw [g3, h3],
      fun h => g5 (h5 h), ?_⟩
    simp only [children_mk] at h4 ⊢
    rcases h4 with h4 | h4
    · exact Or.inl h4
    · rcases g4 with g4 | g4
      · rw [g4] at h4
        cases h4
        exact Or.inl rfl
      · exact Or.inr (forall2_trans_of _ _ _ ih h4 g4)

theorem kept_of_grown : ∀ a b : QTreeWidgetItem, grown a b = true → kept a b = true := by
  intro a
  induction a using QTreeWidgetItem.induct with
  | h p d e hd cs ih =>
    intro b hab
    obtain ⟨h1, h2, h3, _, h4⟩ := (grown_iff _ _).1 hab
    refine (kept_iff _ _).2 ⟨h1, h2, h3, ?_⟩
    rcases h4 with h4 | h4
    · exact Or.inl h4
    · exact Or.inr (forall2_of_mem h4 (fun x hx y _ h => ih x hx y h))

theorem grown_setChildren (it : QTreeWidgetItem) (cs : List QTreeWidgetItem)
    (h : it.children = [] ∨ List.Forall₂ (fun a b => grown a b = true) it.children cs) :
    grown it (it.setChildren cs) = true :=
  (grown_iff _ _).2 ⟨by simp, by simp, by simp, by simp, by simpa using h⟩

/-- Every function of the block grows the item it works on. -/
theorem grown_of_some (env : Env) :
    ∀ fuel,
      (∀ n it d r n1, buildSubTree env fuel n it d = some (r, n1) → grown it r = true) ∧
      (∀ n it r n1, buildChildBody env fuel n it = some (r, n1) → grown it r = true) ∧
      (∀ n it r n1, expandItem env fuel n it = some (r, n1) →
        grown it r = true ∧
          List.Forall₂ (fun a b => grown a b = true) it.children r.children) := by
  intro fuel
  induction fuel using Nat.strong_induction_on with
  | _ fuel ih =>
    have hexp : ∀ n it r n1, expandItem env fuel n it = some (r, n1) →
        grown it r = true ∧
          List.Forall₂ (fun a b => grown a b = true) it.children r.children := by
      intro n it r n1 h
      rcases expandItem_some h with ⟨hx, rfl, rfl⟩ | ⟨_, f2, cs, hf, hl, rfl⟩
      · exact ⟨grown_refl _, List.forall₂_same.2 (fun c _ => grown_refl c)⟩
      · have h2 := forItems_forall2 (R := fun a b => grown a b = true) _ _ _ _ hl
          (fun c _ nx c1 nx1 hc => (ih f2 (by omega)).2.1 nx c c1 nx1 hc)
        refine ⟨?_, by simpa using h2⟩
        refine (grown_iff _ _).2 ⟨by simp, by simp, by simp, by simp,
          Or.inr (by simpa using h2)⟩
    have hbuild : ∀ n it d r n1, buildSubTree env fuel n it d = some (r, n1) →
        grown it r = true := by
      intro n it d r n1 h
      cases fuel with
      | zero => simp [buildSubTree] at h
      | succ f =>
        rcases buildSubTree_some h with ⟨_, rfl, rfl⟩ | ⟨_, _, rfl, rfl⟩ |
          ⟨_, _, cs, m, hloop, hfin⟩
        · exact grown_refl _
        · exact grown_refl _
        · have h1 : grown it (it.setChildren cs) = true := by
            rcases hloop with ⟨_, hl⟩ | ⟨hz, hl⟩
            · have h2 := forItems_forall2 (R := fun a b => grown a b = true) _ _ _ _ hl
                (fun c _ nx c1 nx1 hc => (ih f (by omega)).1 nx c _ c1 nx1 hc)
              exact grown_setChildren _ _ (Or.inr h2)
            · refine grown_setChildren _ _ (Or.inl ?_)
              simpa [QTreeWidgetItem.childCount] using hz
          rcases hfin with ⟨_, he⟩ | ⟨_, rfl, rfl⟩
          · exact grown_trans _ _ _ h1 ((ih f (by omega)).2.2 _ _ _ _ he).1
          · exact h1
    refine ⟨hbuild, ?_, hexp⟩
    intro n it r n1 h
    unfold buildChildBody at h
    by_cases hc : it.childCount > 0
    · rw [if_pos hc] at h
      simp only [Option.some.injEq, Prod.mk.injEq] at h
      rw [← h.1]
      exact grown_refl _
    · rw [if_neg hc] at h
      exact hbuild _ _ _ _ _ h

/-! ## Sticky expansion -/

theorem stickyList_iff (env : Env) : ∀ cs ns : List QTreeWidgetItem,
    stickyList env cs ns = true ↔ List.Forall₂ (fun a b => sticky env a b = true) cs ns
  | [], [] => by simp [stickyList]
  | [], _ :: _ => by simp [stickyList]
  | _ :: _, [] => by simp [stickyList]
  | c :: cs, n :: ns => by
    simp only [stickyList, Bool.and_eq_true, stickyList_iff env cs ns, List.forall₂_cons]

theorem sticky_iff (env : Env) (old new : QTreeWidgetItem) :
    sticky env old new = true ↔
      new.ptr = old.ptr ∧
        ((env old.dir).expanded = true → old.children ≠ [] → new.isExpanded = true) ∧
        (old.children = [] ∨
          List.Forall₂ (fun a b => sticky env a b = true) old.children new.children) := by
  cases old with
  | mk p d e h cs =>
    simp only [sticky, Bool.and_eq_true, beq_iff_eq, Bool.or_eq_true, List.isEmpty_iff,
      stickyList_iff, ptr_mk, dir_mk, children_mk, and_assoc, Bool.not_eq_true',
      Bool.and_eq_false_imp, Bool.not_eq_false', ne_eq]
    constructor
    · rintro ⟨h1, h2, h3⟩
      refine ⟨h1, fun hf hc => ?_, h3⟩
      rcases h2 with h2 | h2
      · exact absurd (h2 hf) hc
      · exact h2
    · rintro ⟨h1, h2, h3⟩
      refine ⟨h1, ?_, h3⟩
      by_cases hf : (env d).expanded = true
      · by_cases hc : cs = []
        · exact Or.inl (fun _ => hc)
        · exact Or.inr (h2 hf hc)
      · exact Or.inl (fun h => absurd h hf)

/-- Sticky expansion survives the growth of the new item. -/
theorem sticky_grown (env : Env) : ∀ a b c : QTreeWidgetItem, sticky env a b = true →
    grown b c = true → sticky env a c = true := by
  intro a
  induction a using QTreeWidgetItem.induct with
  | h p d e hd cs ih =>
    intro b c hab hbc
    obtain ⟨h1, h2, h3⟩ := (sticky_iff env _ _).1 hab
    obtain ⟨g1, _, _, g4, g5⟩ := (grown_iff _ _).1 hbc
    refine (sticky_iff env _ _).2 ⟨by rw [g1, h1], fun hf hc => g4 (h2 hf hc), ?_⟩
    simp only [children_mk] at h3 ⊢
    rcases h3 with h3 | h3
    · exact Or.inl h3
    · rcases g5 with g5 | g5
      · rw [g5] at h3
        cases h3
        exact Or.inl rfl
      · exact Or.inr (forall2_comp_of _ _ _ ih h3 g5)

/-! ## expandSubTree and collapseAll -/

theorem expandSubTreeList_eq_forItems (env : Env) (fuel : Nat) :
    ∀ (cs : List QTreeWidgetItem) (n : Nat),
      expandSubTreeList env fuel n cs = forItems (expandSubTree env fuel) n cs
  | [], n => by simp [expandSubTreeList, forItems]
  | c :: cs, n => by
    rw [expandSubTreeList, forItems]
    cases h : expandSubTree env fuel n c with
    | none => rfl
    | some r =>
      obtain ⟨c1, n1⟩ := r
      dsimp only
      rw [expandSubTreeList_eq_forItems env fuel cs n1]

/-- A returning `expandSubTree` has run its loop over the children and then, for a flagged
directory, `expandItem`. -/
theorem expandSubTree_some {env : Env} {fuel n : Nat} {it r : QTreeWidgetItem} {n1 : Nat}
    (h : expandSubTree env fuel n it = some (r, n1)) :
    ∃ cs m, forItems (expandSubTree env fuel) n it.children = some (cs, m) ∧
      (((env it.dir).expanded = true ∧ expandItem env fuel m (it.setChildren cs) = some (r, n1)) ∨
        ((env it.dir).expanded = false ∧ r = it.setChildren cs ∧ n1 = m)) := by
  cases it with
  | mk p d e hd cs0 =>
    rw [expandSubTree, expandSubTreeList_eq_forItems] at h
    cases hl : forItems (expandSubTree env fuel) n cs0 with
    | none => rw [hl] at h; cases h
    | some q =>
      obtain ⟨cs, m⟩ := q
      rw [hl] at h
      dsimp only at h
      refine ⟨cs, m, hl, ?_⟩
      by_cases he : (env d).expanded = true
      · rw [if_pos he] at h
        exact Or.inl ⟨he, h⟩
      · rw [if_neg he] at h
        simp only [Option.some.injEq, Prod.mk.injEq] at h
        exact Or.inr ⟨by simpa using he, h.1.symm, h.2.symm⟩

/-- The call `expandSubTree` from its loop on. -/
theorem expandSubTree_eq_of_loop {env : Env} {fuel n : Nat} {it : QTreeWidgetItem}
    {cs : List QTreeWidgetItem} {m : Nat}
    (hl : forItems (expandSubTree env fuel) n it.children = some (cs, m)) :
    expandSubTree env fuel n it =
      if (env it.dir).expanded then expandItem env fuel m (it.setChildren cs)
      else some (it.setChildren cs, m) := by
  cases it with
  | mk p d e hd cs0 =>
    rw [expandSubTree, expandSubTreeList_eq_forItems]
    simp only [children_mk] at hl
    rw [hl]
    rfl

/-- What `expandSubTree` leaves of an item: the item has grown, expansion is sticky, the
allocation counter has not gone back and the bound `hb` has not been raised. -/
theorem expandSubTree_spec (env : Env) (rank : Nat → Nat)
    (hrank : ∀ d c, c ∈ (env d).subDirs → rank c < rank d) (fuel : Nat) :
    ∀ it n r n1, expandSubTree env fuel n it = some (r, n1) →
      grown it r = true ∧ sticky env it r = true ∧ n ≤ n1 ∧ hb rank r ≤ hb rank it := by
  intro it
  induction it using QTreeWidgetItem.induct with
  | h p d e hd cs0 ih =>
    intro n r n1 h
    obtain ⟨cs, m, hl, hfin⟩ := expandSubTree_some h
    simp only [children_mk, dir_mk, setChildren_mk] at hl hfin
    have h2 := forItems_forall2
      (R := fun a b => grown a b = true ∧ sticky env a b = true ∧ hb rank b ≤ hb rank a)
      _ _ _ _ hl
      (fun c hc nx c1 nx1 hcc =>
        ⟨(ih c hc nx c1 nx1 hcc).1, (ih c hc nx c1 nx1 hcc).2.1, (ih c hc nx c1 nx1 hcc).2.2.2⟩)
    have h3 := forItems_next_le _ _ _ _ hl
      (fun c hc nx c1 nx1 hcc => (ih c hc nx c1 nx1 hcc).2.2.1)
    have hg : grown (QTreeWidgetItem.mk p d e hd cs0) (QTreeWidgetItem.mk p d e hd cs) = true :=
      (grown_iff _ _).2 ⟨rfl, rfl, rfl, id,
        Or.inr (forall2_of_mem h2 (fun _ _ _ _ h => h.1))⟩
    have hs2 : List.Forall₂ (fun a b => sticky env a b = true) cs0 cs :=
      forall2_of_mem h2 (fun _ _ _ _ h => h.2.1)
    have hb2 : hb rank (QTreeWidgetItem.mk p d e hd cs) ≤ hb rank (QTreeWidgetItem.mk p d e hd cs0) := by
      simp only [hb]
      exact max_le_max (le_refl _)
        (hbList_le_of_forall2 rank (forall2_of_mem h2 (fun _ _ _ _ h => h.2.2)))
    rcases hfin with ⟨hflag, he⟩ | ⟨hflag, rfl, rfl⟩
    · obtain ⟨k1, k2⟩ := (grown_of_some env fuel).2.2 _ _ _ _ he
      obtain ⟨_, k4, k5, _⟩ := (frame_of_some env fuel).2.2 _ _ _ _ he
      refine ⟨grown_trans _ _ _ hg k1, ?_, le_trans h3 k4,
        le_trans ((hb_le_of_some env rank hrank fuel).2.2 _ _ _ _ he) hb2⟩
      refine (sticky_iff env _ _).2 ⟨by simpa using kept_ptr (kept_of_grown _ _ k1),
        fun _ _ => k5, Or.inr ?_⟩
      simp only [children_mk] at k2 ⊢
      exact forall2_comp_of _ _ _ (fun a _ b c hab hbc => sticky_grown env a b c hab hbc) hs2 k2
    · refine ⟨hg, ?_, h3, hb2⟩
      refine (sticky_iff env _ _).2 ⟨rfl, fun hf => ?_, Or.inr hs2⟩
      simp only [dir_mk] at hf
      rw [hflag] at hf; cases hf

/-- On a finite directory tree `expandSubTree` returns when the fuel covers `expandItem`. -/
theorem expandSubTree_returns (env : Env) (rank : Nat → Nat)
    (hrank : ∀ d c, c ∈ (env d).subDirs → rank c < rank d) (fuel m : Nat)
    (hf : 4 * m + 3 ≤ fuel) :
    ∀ it n, hb rank it ≤ m → ∃ r, expandSubTree env fuel n it = some r := by
  intro it
  induction it using QTreeWidgetItem.induct with
  | h p d e hd cs0 ih =>
    intro n hm
    obtain ⟨⟨cs, k⟩, hl⟩ := forItems_total (f := expandSubTree env fuel) cs0 n
      (fun c hc nx => ih c hc nx (by
        have := hb_child_lt rank (QTreeWidgetItem.mk p d e hd cs0) c hc
        omega))
    have hl2 : forItems (expandSubTree env fuel) n (QTreeWidgetItem.mk p d e hd cs0).children
        = some (cs, k) := hl
    rw [expandSubTree_eq_of_loop hl2]
    by_cases he : (env (QTreeWidgetItem.mk p d e hd cs0).dir).expanded = true
    · rw [if_pos he]
      have h2 := forItems_forall2 (R := fun a b => hb rank b ≤ hb rank a) _ _ _ _ hl
        (fun c _ nx c1 nx1 hcc => (expandSubTree_spec env rank hrank fuel c nx c1 nx1 hcc).2.2.2)
      refine (returns_of_rank env rank hrank m _ ?_).2 fuel k hf
      refine le_trans ?_ hm
      simp only [setChildren_mk, hb]
      exact max_le_max (le_refl _) (hbList_le_of_forall2 rank h2)
    · rw [if_neg he]
      exact ⟨_, rfl⟩

theorem collapseAllList_eq_map : ∀ cs : List QTreeWidgetItem,
    collapseAllList cs = cs.map collapseAll
  | [] => rfl
  | c :: cs => by rw [collapseAllList, collapseAllList_eq_map cs]; rfl

@[simp] theorem collapseAll_ptr (it : QTreeWidgetItem) : (collapseAll it).ptr = it.ptr := by
  cases it; rfl

@[simp] theorem collapseAll_dir (it : QTreeWidgetItem) : (collapseAll it).dir = it.dir := by
  cases it; rfl

@[simp] theorem collapseAll_isHidden (it : QTreeWidgetItem) :
    (collapseAll it).isHidden = it.isHidden := by
  cases it; rfl

@[simp] theorem collapseAll_children (it : QTreeWidgetItem) :
    (collapseAll it).children = it.children.map collapseAll := by
  cases it with
  | mk p d e h cs => simp only [collapseAll, children_mk, collapseAllList_eq_map]

theorem hb_collapseAll (rank : Nat → Nat) : ∀ it : QTreeWidgetItem,
    hb rank (collapseAll it) = hb rank it := by
  intro it
  induction it using QTreeWidgetItem.induct with
  | h p d e hd cs ih =>
    simp only [collapseAll, hb, collapseAllList_eq_map]
    congr 1
    clear e hd p d
    induction cs with
    | nil => rfl
    | cons c cs ih2 =>
      simp only [List.map_cons, hbList, ih c (List.mem_cons_self _ _),
        ih2 (fun x hx => ih x (List.mem_cons_of_mem _ hx))]

/-- An item that is the collapsed item kept is the item kept. -/
theorem kept_of_collapseAll : ∀ a b : QTreeWidgetItem, kept (collapseAll a) b = true →
    kept a b = true := by
  intro a
  induction a using QTreeWidgetItem.induct with
  | h p d e hd cs ih =>
    intro b hab
    obtain ⟨h1, h2, h3, h4⟩ := (kept_iff _ _).1 hab
    refine (kept_iff _ _).2 ⟨by simpa using h1, by simpa using h2, by simpa using h3, ?_⟩
    simp only [collapseAll_children, children_mk, List.map_eq_nil_iff] at h4 ⊢
    rcases h4 with h4 | h4
    · exact Or.inl h4
    · refine Or.inr ?_
      rw [List.forall₂_map_left_iff] at h4
      exact forall2_of_mem h4 (fun x hx y _ h => ih x hx y h)

/-- Expansion that is sticky from the collapsed item is sticky from the item. -/
theorem sticky_of_collapseAll (env : Env) : ∀ a b : QTreeWidgetItem,
    sticky env (collapseAll a) b = true → sticky env a b = true := by
  intro a
  induction a using QTreeWidgetItem.induct with
  | h p d e hd cs ih =>
    intro b hab
    obtain ⟨h1, h2, h3⟩ := (sticky_iff env _ _).1 hab
    simp only [collapseAll_children, collapseAll_dir, collapseAll_ptr, children_mk, dir_mk,
      ptr_mk, List.map_eq_nil_iff, ne_eq] at h1 h2 h3
    refine (sticky_iff env _ _).2 ⟨h1, h2, ?_⟩
    simp only [children_mk]
    rcases h3 with h3 | h3
    · exact Or.inl h3
    · refine Or.inr ?_
      rw [List.forall₂_map_left_iff] at h3
      exact forall2_of_mem h3 (fun x hx y _ h => ih x hx y h)

/-! ## The clipboard check -/

/-- The array read by `toArray` is non-empty exactly for an array value with an element. -/
theorem toArray_isEmpty_false (v : Option QJsonValue) :
    (QJsonValue.toArray v).isEmpty = false ↔ ∃ x xs, v = some (.array (x :: xs)) := by
  constructor
  · intro h
    match v, h with
    | some (.array (x :: xs)), _ => exact ⟨x, xs, rfl⟩
    | some (.array []), h => simp [QJsonValue.toArray] at h
    | some .null, h => simp [QJsonValue.toArray] at h
    | some (.bool _), h => simp [QJsonValue.toArray] at h
    | some (.double _), h => simp [QJsonValue.toArray] at h
    | some (.string _), h => simp [QJsonValue.toArray] at h
    | some (.object _), h => simp [QJsonValue.toArray] at h
    | none, h => simp [QJsonValue.toArray] at h
  · rintro ⟨x, xs, rfl⟩
    simp [QJsonValue.toArray]

/-- C10, as the code has it: `pasteAvailable` returns true if and only if the clipboard decodes
to a JSON object with the fields `magic`, `type`, `isCut` and `dirs`, whose `type` read with
`toInt()` is the `CopyDir` discriminant, whose `magic` read with `toInt()` is the current token
and whose `dirs` is a non-empty array; for every other clipboard content it returns false.  A
field that is no whole number in the range of `int` reads as `0`. -/
theorem pasteAvailable_iff_wellFormedPayload (cfg : ClipboardConfig) (token : Int)
    (clipboard : Option QJsonValue) :
    pasteAvailable cfg token clipboard = true ↔ wellFormedPayload cfg token clipboard := by
  unfold wellFormedPayload
  constructor
  · intro h
    unfold pasteAvailable at h
    simp only [] at h
    split_ifs at h with h1 h2 h3 h4 h5
    obtain ⟨fields, hf⟩ : ∃ fields, clipboard = some (.object fields) := by
      match clipboard, h1 with
      | some (.object fields), _ => exact ⟨fields, rfl⟩
      | some .null, h1 => simp [clipboardToJson] at h1
      | some (.bool _), h1 => simp [clipboardToJson] at h1
      | some (.double _), h1 => simp [clipboardToJson] at h1
      | some (.string _), h1 => simp [clipboardToJson] at h1
      | some (.array _), h1 => simp [clipboardToJson] at h1
      | none, h1 => simp [clipboardToJson] at h1
    subst hf
    simp only [clipboardToJson] at h1 h2 h3 h4 h5 h
    simp only [Bool.not_eq_true', Bool.or_eq_true, not_or, Bool.not_eq_true, Bool.not_eq_false,
      Bool.not_eq_false'] at h2 h4 h5
    simp only [ne_eq, not_not] at h3
    refine ⟨fields, rfl, h4.1.1, h2, h4.1.2, h4.2, h3, ?_, ?_⟩
    · have h6 : token = QJsonValue.toInt (QJsonObject.get fields cfg.c_magic) := by
        simpa [checkMagic] using h5
      exact h6.symm
    · exact (toArray_isEmpty_false _).1 (by simpa using h)
  · rintro ⟨fields, rfl, hm, ht, hc, hd, hty, hmg, x, xs, hx⟩
    unfold pasteAvailable
    simp only [clipboardToJson]
    have hne : (fields : List (String × QJsonValue)).isEmpty = false := by
      cases fields with
      | nil => simp [QJsonObject.contains] at hm
      | cons a l => rfl
    simp [hne, hm, ht, hc, hd, hty, hmg, checkMagic, hx, QJsonValue.toArray]

/-! ## Reconciliation: the order defect -/


/-- C10 fails as stated: with the token `0` that a tree has before its first copy, a clipboard
object whose `magic` is the text "stale" is accepted, although its `magic` is not the token:
`toInt()` reads the text as `0`. -/
theorem pasteAvailable_accepts_text_magic :
    treeEmpty.magic = 0 ∧ pasteAvailable cfgSample 0 payloadTextMagic = true ∧
    ¬ matchingPayload cfgSample 0 payloadTextMagic := by
  refine ⟨rfl, by decide, ?_⟩
  rintro ⟨fields, hf, _, _, hm, _⟩
  have hfields : fields = [("magic", .string "stale"), ("type", .double (some 2)),
      ("isCut", .bool false), ("dirs", .array [.string "/nb/Work"])] := by
    unfold payloadTextMagic at hf
    injection hf with hf
    injection hf with hf
    exact hf.symm
  subst hfields
  have hget : QJsonObject.get [("magic", QJsonValue.string "stale"),
      ("type", .double (some 2)), ("isCut", .bool false),
      ("dirs", .array [.string "/nb/Work"])] cfgSample.c_magic
      = some (.string "stale") := rfl
  rw [hget] at hm
  injection hm with hm
  cases hm

/-- C1 (defect of the code): with the UI children for the directories `1, 2` and the ground
truth `7, 1, 2`, the new item for `7` is appended (`new QTreeWidgetItem(p_item)`) and never
moved to index 0, so the children end up carrying `1, 7, 2`, which is not the ground truth. -/
theorem updateItemDirectChildren_new_item_not_positioned :
    (envNewFirst 0).subDirs = [7, 1, 2] ∧
    (updateItemDirectChildren envNewFirst 5 100 0 [newItem 10 1, newItem 11 2]).map
        (fun r => r.1.map QTreeWidgetItem.dir) = some [1, 7, 2] := by
  decide

/-- C2 (defect of the code): on the same input a second call, with the directory tree
unchanged, moves the item the first call appended: the first call leaves the items
`10, 100, 11` and the second call leaves `100, 10, 11`. -/
theorem updateItemDirectChildren_second_call_reorders :
    updateItemDirectChildren envNewFirst 5 100 0 [newItem 10 1, newItem 11 2] =
        some ([newItem 10 1, newItem 100 7, newItem 11 2], 101) ∧
    updateItemDirectChildren envNewFirst 5 101 0 [newItem 10 1, newItem 100 7, newItem 11 2] =
        some ([newItem 100 7, newItem 10 1, newItem 11 2], 101) :=
  ⟨rfl, rfl⟩

/-! ## The child list and the hash of updateItemDirectChildren -/

theorem findChild_of_mem : ∀ (cs : List QTreeWidgetItem) (c : QTreeWidgetItem),
    (cs.map QTreeWidgetItem.ptr).Nodup → c ∈ cs → findChild c.ptr cs = some c
  | [], _, _, h => by cases h
  | x :: cs, c, hn, h => by
    unfold findChild
    rw [List.map_cons, List.nodup_cons] at hn
    rcases List.mem_cons.1 h with rfl | h
    · simp
    · have hne : x.ptr ≠ c.ptr := by
        intro he
        exact hn.1 (he ▸ List.mem_map_of_mem _ h)
      rw [List.find?_cons_of_neg _ (by simpa using hne)]
      exact findChild_of_mem cs c hn.2 h

theorem perm_cons_removeChild : ∀ (cs : List QTreeWidgetItem) (p : Nat) (c : QTreeWidgetItem),
    findChild p cs = some c → cs.Perm (c :: removeChild p cs)
  | [], _, _, h => by simp [findChild] at h
  | x :: cs, p, c, h => by
    unfold findChild at h
    unfold removeChild
    by_cases hx : x.ptr = p
    · rw [List.find?_cons_of_pos _ (by simpa using hx)] at h
      cases h
      rw [List.eraseP_cons_of_pos (by simpa using hx)]
    · rw [List.find?_cons_of_neg _ (by simpa using hx)] at h
      rw [List.eraseP_cons_of_neg (by simpa using hx)]
      exact (List.Perm.cons x (perm_cons_removeChild cs p c h)).trans (List.Perm.swap c x _)

theorem perm_insertChild (i : Nat) (x : QTreeWidgetItem) (l : List QTreeWidgetItem)
    (h : i ≤ l.length) : (insertChild i x l).Perm (x :: l) := by
  unfold insertChild
  rw [if_pos h]
  have h1 : (l.take i ++ x :: l.drop i).Perm (x :: (l.take i ++ l.drop i)) :=
    List.perm_middle
  rwa [List.take_append_drop] at h1

theorem value_some_mem : ∀ (m : ItemDirMap) (d p : Nat),
    ItemDirMap.value m d = some p → (d, p) ∈ m
  | [], _, _, h => by simp [ItemDirMap.value] at h
  | (k, v) :: m, d, p, h => by
    unfold ItemDirMap.value at h
    by_cases hk : d = k
    · subst hk
      simp only [List.lookup_cons, beq_self_eq_true] at h
      simp only [Option.some.injEq] at h
      subst h
      exact List.mem_cons_self _ _
    · have hb : (d == k) = false := by simpa using hk
      simp only [List.lookup_cons, hb] at h
      exact List.mem_cons_of_mem _ (value_some_mem m d p h)

theorem value_none_not_mem : ∀ (m : ItemDirMap) (d : Nat),
    ItemDirMap.value m d = none → ∀ p, (d, p) ∉ m
  | [], _, _, _ => by simp
  | (k, v) :: m, d, h, p => by
    unfold ItemDirMap.value at h
    by_cases hk : d = k
    · subst hk
      simp [List.lookup_cons] at h
    · have hb : (d == k) = false := by simpa using hk
      simp only [List.lookup_cons, hb] at h
      intro hmem
      rcases List.mem_cons.1 hmem with he | hmem
      · simp only [Prod.mk.injEq] at he
        exact hk he.1
      · exact value_none_not_mem m d h p hmem

theorem mem_remove (m : ItemDirMap) (d : Nat) (e : Nat × Nat) :
    e ∈ ItemDirMap.remove m d ↔ e ∈ m ∧ e.1 ≠ d := by
  unfold ItemDirMap.remove
  simp [List.mem_filter]

theorem keys_nodup_remove (m : ItemDirMap) (d : Nat) (h : (m.map Prod.fst).Nodup) :
    ((ItemDirMap.remove m d).map Prod.fst).Nodup := by
  unfold ItemDirMap.remove
  exact List.Nodup.sublist (List.Sublist.map _ (List.filter_sublist _)) h

theorem remove_of_not_key (m : ItemDirMap) (d : Nat) (h : ∀ e ∈ m, e.1 ≠ d) :
    ItemDirMap.remove m d = m := by
  unfold ItemDirMap.remove
  exact List.filter_eq_self.2 (fun e he => by simpa using h e he)

/-- The hash built from children with pairwise distinct directories holds exactly one entry
per child. -/
theorem buildItemDirMap_spec : ∀ (cs : List QTreeWidgetItem) (acc : ItemDirMap),
    (cs.map QTreeWidgetItem.dir).Nodup → (acc.map Prod.fst).Nodup →
    (∀ c ∈ cs, ∀ e ∈ acc, e.1 ≠ c.dir) →
    ((buildItemDirMap cs acc).map Prod.fst).Nodup ∧
      ∀ d p, (d, p) ∈ buildItemDirMap cs acc ↔
        ((d, p) ∈ acc ∨ ∃ c ∈ cs, c.dir = d ∧ c.ptr = p)
  | [], acc, _, ha, _ => by
    simp [buildItemDirMap, ha]
  | c :: cs, acc, hn, ha, hdis => by
    rw [List.map_cons, List.nodup_cons] at hn
    have hrem : ItemDirMap.remove acc c.dir = acc :=
      remove_of_not_key acc c.dir (fun e he => hdis c (List.mem_cons_self _ _) e he)
    have hacc2 : ((ItemDirMap.insert acc c.dir c.ptr).map Prod.fst).Nodup := by
      unfold ItemDirMap.insert
      rw [hrem, List.map_cons, List.nodup_cons]
      refine ⟨?_, ha⟩
      intro hmem
      obtain ⟨e, he, hk⟩ := List.mem_map.1 hmem
      exact hdis c (List.mem_cons_self _ _) e he hk
    have hdis2 : ∀ x ∈ cs, ∀ e ∈ ItemDirMap.insert acc c.dir c.ptr, e.1 ≠ x.dir := by
      intro x hx e he
      unfold ItemDirMap.insert at he
      rw [hrem] at he
      rcases List.mem_cons.1 he with rfl | he
      · intro heq
        have heq2 : c.dir = x.dir := heq
        exact hn.1 (by rw [heq2]; exact List.mem_map_of_mem _ hx)
      · exact hdis x (List.mem_cons_of_mem _ hx) e he
    obtain ⟨k1, k2⟩ := buildItemDirMap_spec cs _ hn.2 hacc2 hdis2
    rw [buildItemDirMap]
    refine ⟨k1, ?_⟩
    intro d p
    rw [k2 d p]
    unfold ItemDirMap.insert
    rw [hrem]
    simp only [List.mem_cons, Prod.mk.injEq, exists_eq_or_imp]
    constructor
    · rintro ((⟨rfl, rfl⟩ | h) | h)
      · exact Or.inr (Or.inl ⟨rfl, rfl⟩)
      · exact Or.inl h
      · exact Or.inr (Or.inr h)
    · rintro (h | ⟨h1, h2⟩ | h)
      · exact Or.inl (Or.inr h)
      · exact Or.inl (Or.inl ⟨h1.symm, h2.symm⟩)
      · exact Or.inr h

theorem mem_removeChild (cs : List QTreeWidgetItem) (p : Nat)
    (hn : (cs.map QTreeWidgetItem.ptr).Nodup) (r : QTreeWidgetItem) :
    r ∈ removeChild p cs ↔ r ∈ cs ∧ r.ptr ≠ p := by
  induction cs with
  | nil => simp [removeChild]
  | cons x cs ih =>
    rw [List.map_cons, List.nodup_cons] at hn
    unfold removeChild at ih ⊢
    by_cases hx : x.ptr = p
    · rw [List.eraseP_cons_of_pos (by simpa using hx)]
      constructor
      · intro hr
        refine ⟨List.mem_cons_of_mem _ hr, ?_⟩
        intro he
        exact hn.1 (by rw [hx, ← he]; exact List.mem_map_of_mem _ hr)
      · rintro ⟨hr, hne⟩
        rcases List.mem_cons.1 hr with rfl | hr
        · exact absurd hx hne
        · exact hr
    · rw [List.eraseP_cons_of_neg (by simpa using hx)]
      simp only [List.mem_cons, ih hn.2]
      constructor
      · rintro (rfl | ⟨h1, h2⟩)
        · exact ⟨Or.inl rfl, hx⟩
        · exact ⟨Or.inr h1, h2⟩
      · rintro ⟨rfl | h1, h2⟩
        · exact Or.inl rfl
        · exact Or.inr ⟨h1, h2⟩

theorem removeChild_sublist (cs : List QTreeWidgetItem) (p : Nat) :
    (removeChild p cs).Sublist cs := by
  unfold removeChild
  exact List.eraseP_sublist _

theorem deleteLeftItems_sublist : ∀ (m : ItemDirMap) (cs : List QTreeWidgetItem),
    (deleteLeftItems m cs).Sublist cs
  | [], cs => by simp [deleteLeftItems]
  | e :: m, cs => by
    rw [deleteLeftItems]
    exact (deleteLeftItems_sublist m _).trans (removeChild_sublist cs e.2)

theorem mem_deleteLeftItems : ∀ (m : ItemDirMap) (cs : List QTreeWidgetItem),
    (cs.map QTreeWidgetItem.ptr).Nodup → ∀ r,
      (r ∈ deleteLeftItems m cs ↔ r ∈ cs ∧ ∀ e ∈ m, e.2 ≠ r.ptr)
  | [], cs, _, r => by simp [deleteLeftItems]
  | e :: m, cs, hn, r => by
    rw [deleteLeftItems]
    have hn2 : ((removeChild e.2 cs).map QTreeWidgetItem.ptr).Nodup :=
      List.Nodup.sublist (List.Sublist.map _ (removeChild_sublist cs e.2)) hn
    rw [mem_deleteLeftItems m _ hn2 r, mem_removeChild cs e.2 hn r]
    simp only [List.mem_cons, forall_eq_or_imp]
    constructor
    · rintro ⟨⟨h1, h2⟩, h3⟩
      exact ⟨h1, fun h => h2 h.symm, h3⟩
    · rintro ⟨h1, h2, h3⟩
      exact ⟨⟨h1, fun h => h2 h.symm⟩, h3⟩

/-! ## The item made for a new sub-directory -/

/-- The call `expandSubTree` leaves the directory of the item and the directories of its
children as they are: it adds no child and removes none. -/
theorem expandSubTree_dirs (env : Env) (fuel : Nat) :
    ∀ (it : QTreeWidgetItem) (n : Nat) (r : QTreeWidgetItem) (n1 : Nat),
      expandSubTree env fuel n it = some (r, n1) →
      r.dir = it.dir ∧
        r.children.map QTreeWidgetItem.dir = it.children.map QTreeWidgetItem.dir := by
  intro it
  induction it using QTreeWidgetItem.induct with
  | h p d e hd cs0 ih =>
    intro n r n1 h
    obtain ⟨cs, m, hl, hfin⟩ := expandSubTree_some h
    simp only [children_mk, dir_mk, setChildren_mk] at hl hfin ⊢
    have h2 := forItems_forall2 (R := fun a b => b.dir = a.dir) _ _ _ _ hl
      (fun c hc nx c1 nx1 hcc => (ih c hc nx c1 nx1 hcc).1)
    have hmap : cs.map QTreeWidgetItem.dir = cs0.map QTreeWidgetItem.dir :=
      (forall2_map_eq h2 (fun a b hab => hab.symm)).symm
    rcases hfin with ⟨_, he⟩ | ⟨_, hr, _⟩
    · obtain ⟨k1, _, _, k4⟩ := (frame_of_some env fuel).2.2 _ _ _ _ he
      refine ⟨by simpa using kept_dir k1, ?_⟩
      simp only [children_mk] at k4
      rw [← hmap]
      exact (forall2_map_eq k4 (fun a b hab => (kept_dir hab).symm)).symm
    · rw [hr]
      exact ⟨rfl, hmap⟩

/-- The call `buildSubTree(item, 1)` on a new item whose directory does not open returns the
item as it is. -/
theorem buildSubTree_one_unopened {env : Env} {fuel nx x : Nat} {r : QTreeWidgetItem}
    {n1 : Nat} (ho : (env x).openOk = false)
    (h : buildSubTree env fuel (nx + 1) (newItem nx x) 1 = some (r, n1)) :
    r = newItem nx x := by
  cases fuel with
  | zero => simp [buildSubTree] at h
  | succ f =>
    rcases buildSubTree_some h with ⟨h0, _, _⟩ | ⟨_, _, hr, _⟩ | ⟨_, hop, _⟩
    · exact absurd h0 (by decide)
    · exact hr
    · simp only [newItem_dir] at hop
      rw [ho] at hop; cases hop

/-- The call `buildSubTree(item, 1)` on a new item whose directory opens and is not flagged
expanded gives children that have no children. -/
theorem buildSubTree_one_childless_children {env : Env} {fuel nx x : Nat}
    {r : QTreeWidgetItem} {n1 : Nat} (hx : (env x).expanded = false)
    (h : buildSubTree env fuel (nx + 1) (newItem nx x) 1 = some (r, n1)) :
    ∀ c ∈ r.children, c.children = [] := by
  cases fuel with
  | zero => simp [buildSubTree] at h
  | succ f =>
    rcases buildSubTree_some h with ⟨h0, _, _⟩ | ⟨_, _, hr, _⟩ | ⟨_, _, cs, m, hloop, hfin⟩
    · exact absurd h0 (by decide)
    · rw [hr]
      intro c hc
      simp at hc
    · have hcs : ∀ c ∈ cs, c.children = [] := by
        rcases hloop with ⟨hpos, _⟩ | ⟨_, hl⟩
        · simp [QTreeWidgetItem.childCount] at hpos
        · have h2 := forDirs_forall2 (R := fun _ c1 => c1.children = []) _ _ _ _ hl
            (fun y _ k c1 k1 hc => by
              cases f with
              | zero => simp [buildSubTree] at hc
              | succ g =>
                rcases buildSubTree_some hc with ⟨_, hr, _⟩ | ⟨hne, _, _, _⟩ | ⟨hne, _⟩
                · rw [hr]; rfl
                · exact absurd (by norm_num) hne
                · exact absurd (by norm_num) hne)
          intro c hc
          obtain ⟨_, _, hR⟩ := forall2_exists_left h2 c hc
          exact hR
      rcases hfin with ⟨hflag, _⟩ | ⟨_, hr, _⟩
      · simp only [newItem_dir] at hflag
        rw [hx] at hflag; cases hflag
      · rw [hr]
        simpa using hcs

/-- What `buildSubTree(item, 1)` followed by `expandSubTree(item)` makes of a new item for the
directory `x`: when `x` opens, one child per sub-directory of `x`, in order, and children
without children when `x` is not flagged expanded; when `x` does not open, no child. -/
theorem new_item_shape {env : Env} {fuel nx x : Nat} {b r : QTreeWidgetItem} {n2 n3 : Nat}
    (hb1 : buildSubTree env fuel (nx + 1) (newItem nx x) 1 = some (b, n2))
    (hr1 : expandSubTree env fuel n2 b = some (r, n3)) :
    ((env x).openOk = true → r.children.map QTreeWidgetItem.dir = (env x).subDirs) ∧
    ((env x).openOk = true → (env x).expanded = false → ∀ g ∈ r.children, g.children = []) ∧
    ((env x).openOk = false → r.children = []) := by
  have hd := expandSubTree_dirs env fuel b n2 r n3 hr1
  refine ⟨fun ho => ?_, fun _ hx => ?_, fun ho => ?_⟩
  · rw [hd.2]
    exact (buildSubTree_one_newItem ho hb1).2.1
  · have hbc := buildSubTree_one_childless_children hx hb1
    have hbd : b.dir = x := by
      simpa using kept_dir ((frame_of_some env fuel).1 _ _ _ _ _ hb1).1
    obtain ⟨cs, m, hl, hfin⟩ := expandSubTree_some hr1
    have h2 := forItems_forall2
      (R := fun a g => g.children.map QTreeWidgetItem.dir = a.children.map QTreeWidgetItem.dir)
      _ _ _ _ hl
      (fun c _ k c1 k1 hc => (expandSubTree_dirs env fuel c k c1 k1 hc).2)
    rcases hfin with ⟨hflag, _⟩ | ⟨_, hr, _⟩
    · rw [hbd, hx] at hflag; cases hflag
    · rw [hr]
      intro g hg
      simp only [children_setChildren] at hg
      obtain ⟨a, ha, hga⟩ := forall2_exists_left h2 g hg
      rw [hbc a ha] at hga
      exact List.map_eq_nil_iff.1 hga
  · have hbn := buildSubTree_one_unopened ho hb1
    rw [hbn] at hd
    have h2 : r.children.map QTreeWidgetItem.dir = [] := by
      rw [hd.2, newItem_children]
      rfl
    exact List.map_eq_nil_iff.1 h2

/-! ## The loop of updateItemDirectChildren -/

/-- One round of the loop, for the sub-directory `d`: the child list becomes `y` (the item of
`d`) together with `cs1`, the old list without the items of `d`. -/
theorem LoopInv.advance {env : Env} {rank : Nat → Nat} {fuel bound : Nat}
    {cs0 : List QTreeWidgetItem} {next0 : Nat} {done : List Nat}
    {cs : List QTreeWidgetItem} {m : ItemDirMap} {nx : Nat}
    (inv : LoopInv env rank fuel bound cs0 next0 done cs m nx)
    (hd0 : (cs0.map QTreeWidgetItem.dir).Nodup) {d : Nat} (hdn : d ∉ done)
    {cs1 cs2 : List QTreeWidgetItem} {y : QTreeWidgetItem} {m2 : ItemDirMap} {nx2 : Nat}
    (hsub : ∀ x ∈ cs1, x ∈ cs) (hperm : cs2.Perm (y :: cs1))
    (hp1 : y.ptr ∉ cs1.map QTreeWidgetItem.ptr) (hp2 : (cs1.map QTreeWidgetItem.ptr).Nodup)
    (hd1 : d ∉ cs1.map QTreeWidgetItem.dir) (hd2 : (cs1.map QTreeWidgetItem.dir).Nodup)
    (hyd : y.dir = d) (hyp : y.ptr < nx2) (hnx : nx ≤ nx2) (hyb : hb rank y ≤ bound)
    (hgone : ∀ x ∈ cs, x ∈ cs1 ∨ x.dir = d)
    (hk2 : (m2.map Prod.fst).Nodup)
    (hm2 : ∀ d1 p1, (d1, p1) ∈ m2 ↔ ((d1, p1) ∈ m ∧ d1 ≠ d))
    (hy : (∃ c ∈ cs0, c.dir = d ∧ Reused env c y) ∨
      ((∀ c ∈ cs0, c.dir ≠ d) ∧ IsNewItem env next0 d y)) :
    LoopInv env rank fuel bound cs0 next0 (done ++ [d]) cs2 m2 nx2 := by
  have hmem : ∀ x, x ∈ cs2 ↔ x = y ∨ x ∈ cs1 := fun x => by
    rw [hperm.mem_iff, List.mem_cons]
  have hdone : ∀ x, x ∈ done ++ [d] ↔ x ∈ done ∨ x = d := fun x => by simp
  refine ⟨?_, ?_, le_trans inv.nextLe hnx, ?_, hk2, ?_, ?_, ?_, ?_, ?_, ?_, ?_⟩
  · rw [(hperm.map QTreeWidgetItem.ptr).nodup_iff, List.map_cons, List.nodup_cons]
    exact ⟨hp1, hp2⟩
  · intro x hx
    rcases (hmem x).1 hx with rfl | hx
    · exact hyp
    · exact lt_of_lt_of_le (inv.ptrLt x (hsub x hx)) hnx
  · rw [(hperm.map QTreeWidgetItem.dir).nodup_iff, List.map_cons, List.nodup_cons, hyd]
    exact ⟨hd1, hd2⟩
  · intro d1 p1
    rw [hm2, inv.mapMem, hdone]
    constructor
    · rintro ⟨⟨h1, h2⟩, h3⟩
      exact ⟨fun h => h.elim h1 h3, h2⟩
    · rintro ⟨h1, h2⟩
      exact ⟨⟨fun h => h1 (Or.inl h), h2⟩, fun h => h1 (Or.inr h)⟩
  · intro c hc hcd
    rw [hdone] at hcd
    rcases hgone c (inv.pending c hc (fun h => hcd (Or.inl h))) with h | h
    · exact (hmem c).2 (Or.inr h)
    · exact absurd (Or.inr h) hcd
  · intro c hc hcd
    rcases (hdone _).1 hcd with hcd | hcd
    · obtain ⟨r, hr, hru⟩ := inv.reused c hc hcd
      rcases hgone r hr with h | h
      · exact ⟨r, (hmem r).2 (Or.inr h), hru⟩
      · rw [kept_dir hru.1] at h
        rw [h] at hcd
        exact absurd hcd hdn
    · rcases hy with ⟨c2, hc2, hcd2, hru⟩ | ⟨hno, _⟩
      · have : c = c2 := List.inj_on_of_nodup_map hd0 hc hc2 (by rw [hcd, hcd2])
        subst this
        exact ⟨y, (hmem y).2 (Or.inl rfl), hru⟩
      · exact absurd hcd (hno c hc)
  · intro d1 hd1m hno
    rcases (hdone _).1 hd1m with hd1m | hd1m
    · obtain ⟨r, hr, hnew⟩ := inv.fresh d1 hd1m hno
      rcases hgone r hr with h | h
      · exact ⟨r, (hmem r).2 (Or.inr h), hnew⟩
      · rw [hnew.1] at h
        rw [h] at hd1m
        exact absurd hd1m hdn
    · subst hd1m
      rcases hy with ⟨c2, hc2, hcd2, _⟩ | ⟨_, hnew⟩
      · exact absurd hcd2 (hno c2 hc2)
      · exact ⟨y, (hmem y).2 (Or.inl rfl), hnew⟩
  · intro x hx
    rw [hdone]
    rcases (hmem x).1 hx with rfl | hx
    · exact Or.inl (Or.inr hyd)
    · rcases inv.origin x (hsub x hx) with h | ⟨h1, h2⟩
      · exact Or.inl (Or.inl h)
      · refine Or.inr ⟨h1, fun h => h.elim h2 (fun h3 => hd1 ?_)⟩
        rw [← h3]
        exact List.mem_map_of_mem _ hx
  · intro d1 hd1m
    rcases (hdone _).1 hd1m with hd1m | hd1m
    · obtain ⟨x, hx, hxd⟩ := List.mem_map.1 (inv.covered d1 hd1m)
      rcases hgone x hx with h | h
      · exact List.mem_map.2 ⟨x, (hmem x).2 (Or.inr h), hxd⟩
      · rw [hxd] at h
        rw [h] at hd1m
        exact absurd hd1m hdn
    · subst hd1m
      exact List.mem_map.2 ⟨y, (hmem y).2 (Or.inl rfl), hyd⟩
  · intro x hx
    rcases (hmem x).1 hx with rfl | hx
    · exact hyb
    · exact inv.bounded x (hsub x hx)

/-- The loop of `updateItemDirectChildren` returns on a finite directory tree and keeps the
invariant. -/
theorem updateLoop_inv (env : Env) (rank : Nat → Nat)
    (hrank : ∀ d c, c ∈ (env d).subDirs → rank c < rank d) (fuel bound : Nat)
    (hfuel : 4 * bound + 4 ≤ fuel) (cs0 : List QTreeWidgetItem) (next0 : Nat)
    (hd0 : (cs0.map QTreeWidgetItem.dir).Nodup) :
    ∀ (dirs done : List Nat) (cs : List QTreeWidgetItem) (m : ItemDirMap) (nx : Nat),
      (done ++ dirs).Nodup → (∀ d ∈ dirs, rank d ≤ bound) →
      LoopInv env rank fuel bound cs0 next0 done cs m nx →
      ∃ cs1 m1 nx1, updateLoop env fuel done.length dirs cs m nx = some (cs1, m1, nx1) ∧
        LoopInv env rank fuel bound cs0 next0 (done ++ dirs) cs1 m1 nx1 := by
  intro dirs
  induction dirs with
  | nil =>
    intro done cs m nx _ _ inv
    refine ⟨cs, m, nx, by rw [updateLoop], ?_⟩
    rw [List.append_nil]
    exact inv
  | cons d rest ih =>
    intro done cs m nx hnd hrk inv
    have hnd2 : ((done ++ [d]) ++ rest).Nodup := by
      rw [List.append_assoc]; exact hnd
    have hdn : d ∉ done := by
      have h1 := (List.nodup_append.1 hnd).2.2
      intro hmem
      exact h1 hmem (List.mem_cons_self _ _)
    have hlen : (done ++ [d]).length = done.length + 1 := by simp
    have hrest : ∀ x ∈ rest, rank x ≤ bound := fun x hx => hrk x (List.mem_cons_of_mem _ hx)
    have happ : done ++ d :: rest = (done ++ [d]) ++ rest := by simp
    rw [updateLoop, happ]
    cases hv : ItemDirMap.value m d with
    | none =>
      dsimp only
      have hno : ∀ c ∈ cs0, c.dir ≠ d := by
        intro c hc he
        exact value_none_not_mem m d hv c.ptr ((inv.mapMem d c.ptr).2 ⟨hdn, c, hc, he, rfl⟩)
      obtain ⟨⟨b, n2⟩, hb1⟩ := (returns_of_rank env rank hrank bound (newItem nx d)
        (by rw [hb_newItem]; exact hrk d (List.mem_cons_self _ _))).1 fuel (nx + 1) 1 hfuel
      have hbb : hb rank b ≤ bound := by
        have := (hb_le_of_some env rank hrank fuel).1 _ _ _ _ _ hb1
        rw [hb_newItem] at this
        exact le_trans this (hrk d (List.mem_cons_self _ _))
      obtain ⟨⟨r, n3⟩, hr1⟩ := expandSubTree_returns env rank hrank fuel bound (by omega) b n2 hbb
      obtain ⟨g1, _, g3, g4⟩ := expandSubTree_spec env rank hrank fuel b n2 r n3 hr1
      obtain ⟨f1, f2, _, _⟩ := (frame_of_some env fuel).1 _ _ _ _ _ hb1
      have hrp : r.ptr = nx := by
        rw [kept_ptr (kept_of_grown _ _ g1), kept_ptr f1]; rfl
      have hrd : r.dir = d := by
        rw [kept_dir (kept_of_grown _ _ g1), kept_dir f1]; rfl
      rw [hb1]
      dsimp only
      rw [hr1]
      dsimp only
      rw [← hlen]
      refine ih (done ++ [d]) (cs ++ [r]) m n3 hnd2 hrest ?_
      refine inv.advance hd0 hdn (fun x hx => hx) (List.perm_append_singleton r cs) ?_
        inv.ptrNodup ?_ inv.dirNodup hrd (by omega) (by omega) (le_trans g4 hbb)
        (fun x hx => Or.inl hx) inv.mapKeys ?_ (Or.inr ⟨hno, hrd, ?_, new_item_shape hb1 hr1⟩)
      · intro hmem
        obtain ⟨x, hx, hxp⟩ := List.mem_map.1 hmem
        have := inv.ptrLt x hx
        omega
      · intro hmem
        obtain ⟨x, hx, hxd⟩ := List.mem_map.1 hmem
        rcases inv.origin x hx with h | ⟨h, _⟩
        · rw [hxd] at h; exact hdn h
        · exact hno x h hxd
      · intro d1 p1
        constructor
        · intro h
          refine ⟨h, ?_⟩
          obtain ⟨_, c, hc, hcd, _⟩ := (inv.mapMem d1 p1).1 h
          rw [← hcd]
          exact hno c hc
        · exact fun h => h.1
      · rw [hrp]; exact inv.nextLe
    | some p =>
      dsimp only
      obtain ⟨_, c, hc0, hcd, hcp⟩ := (inv.mapMem d p).1 (value_some_mem m d p hv)
      have hcs : c ∈ cs := inv.pending c hc0 (by rw [hcd]; exact hdn)
      have hfind : findChild p cs = some c := by
        rw [← hcp]; exact findChild_of_mem cs c inv.ptrNodup hcs
      have hperm := perm_cons_removeChild cs p c hfind
      have hpn : (c.ptr :: (removeChild p cs).map QTreeWidgetItem.ptr).Nodup := by
        have := (hperm.map QTreeWidgetItem.ptr).nodup_iff.1 inv.ptrNodup
        simpa using this
      have hdnn : (c.dir :: (removeChild p cs).map QTreeWidgetItem.dir).Nodup := by
        have := (hperm.map QTreeWidgetItem.dir).nodup_iff.1 inv.dirNodup
        simpa using this
      rw [List.nodup_cons] at hpn hdnn
      have hle : done.length ≤ (removeChild p cs).length := by
        have hsubset : (d :: done) ⊆ cs.map QTreeWidgetItem.dir := by
          intro x hx
          rcases List.mem_cons.1 hx with rfl | hx
          · rw [← hcd]; exact List.mem_map_of_mem _ hcs
          · exact inv.covered x hx
        have hnd3 : (d :: done).Nodup := List.nodup_cons.2
          ⟨hdn, (List.nodup_append.1 hnd).1⟩
        have h1 := (List.Nodup.subperm hnd3 hsubset).length_le
        have h2 := hperm.length_eq
        simp only [List.length_cons, List.length_map] at h1 h2
        omega
      have hbc : hb rank (collapseAll c) ≤ bound := by
        rw [hb_collapseAll]; exact inv.bounded c hcs
      obtain ⟨⟨item1, n1⟩, hr1⟩ := expandSubTree_returns env rank hrank fuel bound (by omega)
        (collapseAll c) nx hbc
      obtain ⟨g1, g2, g3, g4⟩ := expandSubTree_spec env rank hrank fuel _ nx item1 n1 hr1
      have hk : kept c item1 = true := kept_of_collapseAll c item1 (kept_of_grown _ _ g1)
      have hs : sticky env c item1 = true := sticky_of_collapseAll env c item1 g2
      rw [hfind]
      dsimp only
      rw [if_pos hle, hr1]
      dsimp only
      rw [← hlen]
      refine ih (done ++ [d]) _ _ n1 hnd2 hrest ?_
      refine inv.advance hd0 hdn
        (fun x hx => hperm.mem_iff.2 (List.mem_cons_of_mem _ hx))
        (perm_insertChild done.length item1 _ hle) ?_ hpn.2 ?_ hdnn.2
        (by rw [kept_dir hk, hcd]) ?_ g3 (le_trans g4 hbc) ?_
        (keys_nodup_remove m d inv.mapKeys) ?_ (Or.inl ⟨c, hc0, hcd, hk, hs⟩)
      · rw [kept_ptr hk]; exact hpn.1
      · rw [← hcd]; exact hdnn.1
      · rw [kept_ptr hk]
        exact lt_of_lt_of_le (inv.ptrLt c hcs) g3
      · intro x hx
        rcases List.mem_cons.1 (hperm.mem_iff.1 hx) with rfl | h
        · exact Or.inr hcd
        · exact Or.inl h
      · intro d1 p1
        rw [mem_remove]

/-! ## updateItemDirectChildren: membership, reuse and sticky expansion -/

/-- On a finite directory tree, with UI children that are distinct items of pairwise distinct
directories, `updateItemDirectChildren` returns; the new children carry the ground truth up to
order, every old child of a ground-truth directory is reused, and every ground-truth
directory without old child has a new item. -/
theorem updateItemDirectChildren_spec (env : Env) (rank : Nat → Nat)
    (hrank : ∀ d c, c ∈ (env d).subDirs → rank c < rank d) (parentDir next : Nat)
    (cs0 : List QTreeWidgetItem) (hd0 : (cs0.map QTreeWidgetItem.dir).Nodup)
    (hp0 : (cs0.map QTreeWidgetItem.ptr).Nodup) (hlt0 : ∀ c ∈ cs0, c.ptr < next)
    (htruth : (env parentDir).subDirs.Nodup) :
    ∃ bound, ∀ fuel, bound ≤ fuel → ∃ rs n1,
      updateItemDirectChildren env fuel next parentDir cs0 = some (rs, n1) ∧
      (rs.map QTreeWidgetItem.dir).Perm (env parentDir).subDirs ∧
      (∀ c ∈ cs0, c.dir ∈ (env parentDir).subDirs → ∃ r ∈ rs, Reused env c r) ∧
      (∀ d ∈ (env parentDir).subDirs, (∀ c ∈ cs0, c.dir ≠ d) →
        ∃ r ∈ rs, IsNewItem env next d r) := by
  refine ⟨4 * (hbList rank cs0 + rank parentDir) + 4, ?_⟩
  intro fuel hf
  have hmap := buildItemDirMap_spec cs0 [] hd0 (by simp) (by simp)
  have inv0 : LoopInv env rank fuel (hbList rank cs0 + rank parentDir) cs0 next []
      cs0 (buildItemDirMap cs0 []) next :=
    { ptrNodup := hp0
      ptrLt := hlt0
      nextLe := le_refl _
      dirNodup := hd0
      mapKeys := hmap.1
      mapMem := fun d p => by simp [hmap.2 d p]
      pending := fun c hc _ => hc
      reused := fun c _ h => by cases h
      fresh := fun d h _ => by cases h
      origin := fun r hr => Or.inr ⟨hr, by simp⟩
      covered := fun d h => by cases h
      bounded := fun r hr => by
        have := (hbList_le_iff rank (hbList rank cs0) cs0).1 (le_refl _) r hr
        omega }
  obtain ⟨cs1, m1, nx1, hloop, inv⟩ := updateLoop_inv env rank hrank fuel
    (hbList rank cs0 + rank parentDir) hf cs0 next hd0 (env parentDir).subDirs [] cs0 _ next
    (by simpa using htruth)
    (fun d hd => by have := hrank _ _ hd; omega) inv0
  simp only [List.nil_append, List.length_nil] at hloop inv
  have hmemrs := mem_deleteLeftItems m1 cs1 inv.ptrNodup
  have hreuse : ∀ c ∈ cs0, c.dir ∈ (env parentDir).subDirs →
      ∃ r ∈ deleteLeftItems m1 cs1, Reused env c r := by
    intro c hc hcd
    obtain ⟨r, hr, hru⟩ := inv.reused c hc hcd
    refine ⟨r, (hmemrs r).2 ⟨hr, ?_⟩, hru⟩
    intro e he hep
    obtain ⟨hnot, c2, hc2, hcd2, hcp2⟩ := (inv.mapMem e.1 e.2).1 he
    have : c2 = c := List.inj_on_of_nodup_map hp0 hc2 hc (by rw [hcp2, hep, kept_ptr hru.1])
    subst this
    rw [← hcd2] at hnot
    exact hnot hcd
  have hnew : ∀ d ∈ (env parentDir).subDirs, (∀ c ∈ cs0, c.dir ≠ d) →
      ∃ r ∈ deleteLeftItems m1 cs1, IsNewItem env next d r := by
    intro d hd hno
    obtain ⟨r, hr, hnw⟩ := inv.fresh d hd hno
    refine ⟨r, (hmemrs r).2 ⟨hr, ?_⟩, hnw⟩
    intro e he hep
    obtain ⟨_, c2, hc2, _, hcp2⟩ := (inv.mapMem e.1 e.2).1 he
    have h1 := hlt0 c2 hc2
    have h2 := hnw.2.1
    omega
  have hin : ∀ r ∈ deleteLeftItems m1 cs1, r.dir ∈ (env parentDir).subDirs := by
    intro r hr
    obtain ⟨hr1, hr2⟩ := (hmemrs r).1 hr
    rcases inv.origin r hr1 with h | ⟨h1, h2⟩
    · exact h
    · exact absurd rfl (hr2 (r.dir, r.ptr) ((inv.mapMem r.dir r.ptr).2 ⟨h2, r, h1, rfl, rfl⟩))
  refine ⟨deleteLeftItems m1 cs1, nx1, ?_, ?_, hreuse, hnew⟩
  · unfold updateItemDirectChildren
    rw [hloop]
  · refine (List.perm_ext_iff_of_nodup ?_ htruth).2 ?_
    · exact List.Nodup.sublist (List.Sublist.map _ (deleteLeftItems_sublist m1 cs1))
        inv.dirNodup
    · intro d
      constructor
      · intro hd
        obtain ⟨r, hr, hrd⟩ := List.mem_map.1 hd
        rw [← hrd]
        exact hin r hr
      · intro hd
        by_cases hex : ∃ c ∈ cs0, c.dir = d
        · obtain ⟨c, hc, hcd⟩ := hex
          obtain ⟨r, hr, hru⟩ := hreuse c hc (by rw [hcd]; exact hd)
          exact List.mem_map.2 ⟨r, hr, by rw [kept_dir hru.1, hcd]⟩
        · obtain ⟨r, hr, hnw⟩ := hnew d hd (fun c hc hcd => hex ⟨c, hc, hcd⟩)
          exact List.mem_map.2 ⟨r, hr, hnw.1⟩

/-! ## The items of the widget -/

theorem nodes_eq (it : QTreeWidgetItem) : nodes it = it :: nodesList it.children := by
  cases it; rfl

theorem self_mem_nodes (it : QTreeWidgetItem) : it ∈ nodes it := by
  rw [nodes_eq]; exact List.mem_cons_self _ _

theorem mem_nodesList_iff : ∀ (cs : List QTreeWidgetItem) (a : QTreeWidgetItem),
    a ∈ nodesList cs ↔ ∃ x ∈ cs, a ∈ nodes x
  | [], a => by simp [nodesList]
  | c :: cs, a => by
    rw [nodesList, List.mem_append, mem_nodesList_iff cs a]
    simp only [List.mem_cons, exists_eq_or_imp]

theorem mem_nodesList_of_mem {cs : List QTreeWidgetItem} {c : QTreeWidgetItem} (h : c ∈ cs) :
    c ∈ nodesList cs :=
  (mem_nodesList_iff cs c).2 ⟨c, h, self_mem_nodes c⟩

theorem nodes_trans : ∀ c a b : QTreeWidgetItem, a ∈ nodes c → b ∈ nodes a → b ∈ nodes c := by
  intro c
  induction c using QTreeWidgetItem.induct with
  | h p d e hd cs ih =>
    intro a b ha hb
    rw [nodes_eq] at ha
    rcases List.mem_cons.1 ha with rfl | ha
    · exact hb
    · obtain ⟨x, hx, hax⟩ := (mem_nodesList_iff _ a).1 ha
      rw [nodes_eq]
      exact List.mem_cons_of_mem _ ((mem_nodesList_iff _ b).2 ⟨x, hx, ih x hx a b hax hb⟩)

theorem nodesList_trans {cs : List QTreeWidgetItem} {a b : QTreeWidgetItem}
    (ha : a ∈ nodesList cs) (hb : b ∈ nodes a) : b ∈ nodesList cs := by
  obtain ⟨x, hx, hax⟩ := (mem_nodesList_iff cs a).1 ha
  exact (mem_nodesList_iff cs b).2 ⟨x, hx, nodes_trans x a b hax hb⟩

theorem findChild_append (p : Nat) (l1 l2 : List QTreeWidgetItem) :
    findChild p (l1 ++ l2) = (findChild p l1).or (findChild p l2) := by
  unfold findChild
  exact List.find?_append

theorem findIn_eq_findChild (p : Nat) : ∀ it : QTreeWidgetItem,
    findInItem p it = findChild p (nodes it) ∧
      findInItems p it.children = findChild p (nodesList it.children) := by
  intro it
  induction it using QTreeWidgetItem.induct with
  | h q d e hd cs ih =>
    have hlist : findInItems p cs = findChild p (nodesList cs) := by
      clear e hd q d
      induction cs with
      | nil => rfl
      | cons c rest ih2 =>
        rw [findInItems, nodesList, findChild_append, (ih c (List.mem_cons_self _ _)).1,
          ih2 (fun x hx => ih x (List.mem_cons_of_mem _ hx))]
        cases findChild p (nodes c) <;> rfl
    refine ⟨?_, hlist⟩
    rw [findInItem, nodes_eq]
    by_cases hq : q = p
    · rw [if_pos hq]
      unfold findChild
      rw [List.find?_cons_of_pos _ (by simpa using hq)]
    · rw [if_neg hq, hlist]
      simp only [children_mk]
      unfold findChild
      rw [List.find?_cons_of_neg _ (by simpa using hq)]

theorem findInItems_eq_findChild (p : Nat) : ∀ cs : List QTreeWidgetItem,
    findInItems p cs = findChild p (nodesList cs)
  | [] => rfl
  | c :: cs => by
    rw [findInItems, nodesList, findChild_append, (findIn_eq_findChild p c).1,
      findInItems_eq_findChild p cs]
    cases findChild p (nodes c) <;> rfl

/-- In a widget of distinct items, following the address of an item gives the item. -/
theorem findInItems_of_mem {cs : List QTreeWidgetItem} {c : QTreeWidgetItem}
    (hn : (allPtrs cs).Nodup) (hc : c ∈ nodesList cs) : findInItems c.ptr cs = some c := by
  rw [findInItems_eq_findChild]
  exact findChild_of_mem _ c hn hc

theorem findChild_some {p : Nat} {cs : List QTreeWidgetItem} {c : QTreeWidgetItem}
    (h : findChild p cs = some c) : c ∈ cs ∧ c.ptr = p := by
  unfold findChild at h
  exact ⟨List.mem_of_find?_eq_some h, by simpa using List.find?_some h⟩

theorem findInItems_some {p : Nat} {cs : List QTreeWidgetItem} {c : QTreeWidgetItem}
    (h : findInItems p cs = some c) : c ∈ nodesList cs ∧ c.ptr = p := by
  rw [findInItems_eq_findChild] at h
  exact findChild_some h

theorem replaceIn_of_not_mem (p : Nat) (new : QTreeWidgetItem) : ∀ it : QTreeWidgetItem,
    p ∉ (nodes it).map QTreeWidgetItem.ptr → replaceInItem p new it = it := by
  intro it
  induction it using QTreeWidgetItem.induct with
  | h q d e hd cs ih =>
    intro hp
    rw [nodes_eq, List.map_cons, List.mem_cons, not_or] at hp
    simp only [ptr_mk, children_mk] at hp
    rw [replaceInItem, if_neg (fun h => hp.1 h.symm)]
    congr 1
    have hp2 := hp.2
    clear hp
    induction cs with
    | nil => rfl
    | cons c rest ih2 =>
      rw [nodesList, List.map_append, List.mem_append, not_or] at hp2
      rw [replaceInItems, ih c (List.mem_cons_self _ _) hp2.1,
        ih2 (fun x hx => ih x (List.mem_cons_of_mem _ hx)) hp2.2]

theorem replaceInItems_of_not_mem (p : Nat) (new : QTreeWidgetItem) :
    ∀ cs : List QTreeWidgetItem, p ∉ allPtrs cs → replaceInItems p new cs = cs
  | [], _ => rfl
  | c :: cs, hp => by
    unfold allPtrs at hp
    rw [nodesList, List.map_append, List.mem_append, not_or] at hp
    rw [replaceInItems, replaceIn_of_not_mem p new c hp.1,
      replaceInItems_of_not_mem p new cs hp.2]

theorem nodesList_cons (c : QTreeWidgetItem) (cs : List QTreeWidgetItem) :
    nodesList (c :: cs) = nodes c ++ nodesList cs := by
  rw [nodesList]

theorem allPtrs_cons (c : QTreeWidgetItem) (cs : List QTreeWidgetItem) :
    allPtrs (c :: cs) = (nodes c).map QTreeWidgetItem.ptr ++ allPtrs cs := by
  unfold allPtrs
  rw [nodesList_cons, List.map_append]

theorem replaceInItems_cons (p : Nat) (new c : QTreeWidgetItem) (cs : List QTreeWidgetItem) :
    replaceInItems p new (c :: cs) = replaceInItem p new c :: replaceInItems p new cs := by
  rw [replaceInItems]

/-- Replacing an item of a list of distinct items by an item with the same address, whose
other addresses are those of the old item or freshly allocated, leaves distinct items; the
list is given item by item (`hitem` is the statement for each item of the list). -/
theorem replace_wf_list_of (pp next n1 : Nat) (old new : QTreeWidgetItem)
    (hop : old.ptr = pp) :
    ∀ cs : List QTreeWidgetItem,
      (∀ c ∈ cs, ((nodes c).map QTreeWidgetItem.ptr).Nodup →
        (∀ q ∈ (nodes c).map QTreeWidgetItem.ptr, q < next) → old ∈ nodes c →
        ((nodes (replaceInItem pp new c)).map QTreeWidgetItem.ptr).Nodup ∧
        (∀ q ∈ (nodes (replaceInItem pp new c)).map QTreeWidgetItem.ptr,
          q ∈ (nodes c).map QTreeWidgetItem.ptr ∨ (next ≤ q ∧ q < n1)) ∧
        new ∈ nodes (replaceInItem pp new c)) →
      (allPtrs cs).Nodup → (∀ q ∈ allPtrs cs, q < next) → old ∈ nodesList cs →
      (allPtrs (replaceInItems pp new cs)).Nodup ∧
      (∀ q ∈ allPtrs (replaceInItems pp new cs), q ∈ allPtrs cs ∨ (next ≤ q ∧ q < n1)) ∧
      new ∈ nodesList (replaceInItems pp new cs) := by
  intro cs
  induction cs with
  | nil => intro _ _ _ h; simp [nodesList] at h
  | cons c rest ih =>
    intro hitem hn hlt hold
    rw [allPtrs_cons] at hn hlt
    rw [List.nodup_append] at hn
    obtain ⟨hn1, hn2, hdis⟩ := hn
    rw [replaceInItems_cons, allPtrs_cons, nodesList_cons]
    rw [nodesList_cons, List.mem_append] at hold
    by_cases hpc : pp ∈ (nodes c).map QTreeWidgetItem.ptr
    · have hnr : pp ∉ allPtrs rest := fun h => hdis hpc h
      have holdc : old ∈ nodes c := by
        rcases hold with h | h
        · exact h
        · exact absurd (by rw [← hop]; exact List.mem_map_of_mem _ h) hnr
      rw [replaceInItems_of_not_mem pp new rest hnr]
      obtain ⟨k1, k2, k3⟩ := hitem c (List.mem_cons_self _ _) hn1
        (fun q hq => hlt q (List.mem_append_left _ hq)) holdc
      refine ⟨List.nodup_append.2 ⟨k1, hn2, ?_⟩, ?_, ?_⟩
      · intro q hq1 hq2
        rcases k2 q hq1 with h | h
        · exact hdis h hq2
        · have := hlt q (List.mem_append_right _ hq2)
          omega
      · intro q hq
        rw [allPtrs_cons]
        rcases List.mem_append.1 hq with hq | hq
        · rcases k2 q hq with h | h
          · exact Or.inl (List.mem_append_left _ h)
          · exact Or.inr h
        · exact Or.inl (List.mem_append_right _ hq)
      · exact List.mem_append_left _ k3
    · have holdr : old ∈ nodesList rest := by
        rcases hold with h | h
        · exact absurd (by rw [← hop]; exact List.mem_map_of_mem _ h) hpc
        · exact h
      rw [replaceIn_of_not_mem pp new c hpc]
      obtain ⟨k1, k2, k3⟩ := ih (fun x hx => hitem x (List.mem_cons_of_mem _ hx)) hn2
        (fun q hq => hlt q (List.mem_append_right _ hq)) holdr
      refine ⟨List.nodup_append.2 ⟨hn1, k1, ?_⟩, ?_, ?_⟩
      · intro q hq1 hq2
        rcases k2 q hq2 with h | h
        · exact hdis hq1 h
        · have := hlt q (List.mem_append_left _ hq1)
          omega
      · intro q hq
        rw [allPtrs_cons]
        rcases List.mem_append.1 hq with hq | hq
        · exact Or.inl (List.mem_append_left _ hq)
        · rcases k2 q hq with h | h
          · exact Or.inl (List.mem_append_right _ h)
          · exact Or.inr h
      · exact List.mem_append_right _ k3

/-- The statement of `replace_wf_list_of` for one item. -/
theorem replace_wf_item (pp next n1 : Nat) (old new : QTreeWidgetItem) (hop : old.ptr = pp)
    (hnn : ((nodes new).map QTreeWidgetItem.ptr).Nodup)
    (hfresh : ∀ q ∈ (nodes new).map QTreeWidgetItem.ptr,
      q ∈ (nodes old).map QTreeWidgetItem.ptr ∨ (next ≤ q ∧ q < n1)) :
    ∀ it : QTreeWidgetItem, ((nodes it).map QTreeWidgetItem.ptr).Nodup →
      (∀ q ∈ (nodes it).map QTreeWidgetItem.ptr, q < next) → old ∈ nodes it →
      ((nodes (replaceInItem pp new it)).map QTreeWidgetItem.ptr).Nodup ∧
      (∀ q ∈ (nodes (replaceInItem pp new it)).map QTreeWidgetItem.ptr,
        q ∈ (nodes it).map QTreeWidgetItem.ptr ∨ (next ≤ q ∧ q < n1)) ∧
      new ∈ nodes (replaceInItem pp new it) := by
  intro it
  induction it using QTreeWidgetItem.induct with
  | h q d e hd cs ih =>
    intro hn hlt hold
    by_cases hq : q = pp
    · rw [replaceInItem, if_pos hq]
      refine ⟨hnn, ?_, self_mem_nodes new⟩
      intro x hx
      rcases hfresh x hx with h | h
      · obtain ⟨y, hy, hyx⟩ := List.mem_map.1 h
        exact Or.inl (List.mem_map.2 ⟨y, nodes_trans _ old y hold hy, hyx⟩)
      · exact Or.inr h
    · rw [replaceInItem, if_neg hq]
      rw [nodes_eq, List.map_cons, List.nodup_cons] at hn
      simp only [ptr_mk, children_mk] at hn
      have hlt2 : ∀ x ∈ allPtrs cs, x < next := by
        intro x hx
        refine hlt x ?_
        rw [nodes_eq, List.map_cons]
        exact List.mem_cons_of_mem _ hx
      have holdcs : old ∈ nodesList cs := by
        rw [nodes_eq] at hold
        rcases List.mem_cons.1 hold with h | h
        · rw [h] at hop
          exact absurd hop hq
        · exact h
      obtain ⟨k1, k2, k3⟩ := replace_wf_list_of pp next n1 old new hop cs ih hn.2 hlt2 holdcs
      have hqlt : q < next := by
        refine hlt q ?_
        rw [nodes_eq, List.map_cons]
        exact List.mem_cons_self _ _
      refine ⟨?_, ?_, ?_⟩
      · rw [nodes_eq, List.map_cons, List.nodup_cons]
        simp only [ptr_mk, children_mk]
        refine ⟨?_, k1⟩
        intro hmem
        rcases k2 q hmem with h | h
        · exact hn.1 h
        · omega
      · intro x hx
        rw [nodes_eq, List.map_cons] at hx ⊢
        simp only [ptr_mk, children_mk] at hx ⊢
        rcases List.mem_cons.1 hx with h | h
        · exact Or.inl (List.mem_cons.2 (Or.inl h))
        · rcases k2 x h with h2 | h2
          · exact Or.inl (List.mem_cons_of_mem _ h2)
          · exact Or.inr h2
      · rw [nodes_eq]
        exact List.mem_cons_of_mem _ k3

/-- Writing a grown item through its address keeps the widget well formed and puts the item
into the widget. -/
theorem replace_wf (pp next n1 : Nat) (old new : QTreeWidgetItem) (hop : old.ptr = pp)
    (hnn : ((nodes new).map QTreeWidgetItem.ptr).Nodup)
    (hfresh : ∀ q ∈ (nodes new).map QTreeWidgetItem.ptr,
      q ∈ (nodes old).map QTreeWidgetItem.ptr ∨ (next ≤ q ∧ q < n1))
    (cs : List QTreeWidgetItem) (hn : (allPtrs cs).Nodup) (hlt : ∀ q ∈ allPtrs cs, q < next)
    (hold : old ∈ nodesList cs) :
    (allPtrs (replaceInItems pp new cs)).Nodup ∧
      (∀ q ∈ allPtrs (replaceInItems pp new cs), q ∈ allPtrs cs ∨ (next ≤ q ∧ q < n1)) ∧
      new ∈ nodesList (replaceInItems pp new cs) :=
  replace_wf_list_of pp next n1 old new hop cs
    (fun c _ => replace_wf_item pp next n1 old new hop hnn hfresh c) hn hlt hold

/-! ## New items get fresh addresses -/

theorem ptrs_nodes (it : QTreeWidgetItem) :
    (nodes it).map QTreeWidgetItem.ptr = it.ptr :: allPtrs it.children := by
  rw [nodes_eq, List.map_cons]; rfl

/-- The addresses below an item after its children were worked on, when the addresses below
the children are the old ones and fresh ones. -/
theorem ptrs_assemble {it r : QTreeWidgetItem} {cs : List QTreeWidgetItem} {n m : Nat}
    (hrp : r.ptr = it.ptr) (hrc : r.children = cs)
    (hn : ((nodes it).map QTreeWidgetItem.ptr).Nodup)
    (hlt : ∀ q ∈ (nodes it).map QTreeWidgetItem.ptr, q < n)
    (hcn : (allPtrs cs).Nodup)
    (hcf : ∀ q ∈ allPtrs cs, q ∈ allPtrs it.children ∨ (n ≤ q ∧ q < m)) :
    ((nodes r).map QTreeWidgetItem.ptr).Nodup ∧
      ∀ q ∈ (nodes r).map QTreeWidgetItem.ptr,
        q ∈ (nodes it).map QTreeWidgetItem.ptr ∨ (n ≤ q ∧ q < m) := by
  rw [ptrs_nodes] at hn hlt
  rw [ptrs_nodes r, hrp, hrc, ptrs_nodes it]
  rw [List.nodup_cons] at hn
  refine ⟨List.nodup_cons.2 ⟨?_, hcn⟩, ?_⟩
  · intro hmem
    rcases hcf _ hmem with h | h
    · exact hn.1 h
    · have := hlt it.ptr (List.mem_cons_self _ _)
      omega
  · intro q hq
    rcases List.mem_cons.1 hq with h | h
    · exact Or.inl (List.mem_cons.2 (Or.inl h))
    · rcases hcf q h with h2 | h2
      · exact Or.inl (List.mem_cons_of_mem _ h2)
      · exact Or.inr h2

theorem forItems_fresh {f : Nat → QTreeWidgetItem → Option (QTreeWidgetItem × Nat)} :
    ∀ (cs : List QTreeWidgetItem) (next : Nat) (cs1 : List QTreeWidgetItem) (n1 : Nat),
      forItems f next cs = some (cs1, n1) →
      (∀ c ∈ cs, ∀ nx c1 nx1, f nx c = some (c1, nx1) →
        ((nodes c).map QTreeWidgetItem.ptr).Nodup →
        (∀ q ∈ (nodes c).map QTreeWidgetItem.ptr, q < nx) →
        nx ≤ nx1 ∧ ((nodes c1).map QTreeWidgetItem.ptr).Nodup ∧
          ∀ q ∈ (nodes c1).map QTreeWidgetItem.ptr,
            q ∈ (nodes c).map QTreeWidgetItem.ptr ∨ (nx ≤ q ∧ q < nx1)) →
      (allPtrs cs).Nodup → (∀ q ∈ allPtrs cs, q < next) →
      next ≤ n1 ∧ (allPtrs cs1).Nodup ∧
        ∀ q ∈ allPtrs cs1, q ∈ allPtrs cs ∨ (next ≤ q ∧ q < n1)
  | [], next, cs1, n1, h, _, _, _ => by
    simp only [forItems, Option.some.injEq, Prod.mk.injEq] at h
    rw [← h.1, ← h.2]
    exact ⟨le_refl _, by simp [allPtrs, nodesList], by simp [allPtrs, nodesList]⟩
  | c :: cs, next, cs1, n1, h, hB, hn, hlt => by
    simp only [forItems] at h
    cases hc : f next c with
    | none => simp [hc] at h
    | some r =>
      obtain ⟨c1, m1⟩ := r
      simp only [hc] at h
      cases hcs : forItems f m1 cs with
      | none => simp [hcs] at h
      | some r2 =>
        obtain ⟨cs2, m2⟩ := r2
        simp only [hcs, Option.some.injEq, Prod.mk.injEq] at h
        rw [allPtrs_cons] at hn hlt
        rw [List.nodup_append] at hn
        obtain ⟨hn1, hn2, hdis⟩ := hn
        obtain ⟨k1, k2, k3⟩ := hB c (List.mem_cons_self _ _) next c1 m1 hc hn1
          (fun q hq => hlt q (List.mem_append_left _ hq))
        obtain ⟨j1, j2, j3⟩ := forItems_fresh cs m1 cs2 m2 hcs
          (fun x hx => hB x (List.mem_cons_of_mem _ hx)) hn2
          (fun q hq => lt_of_lt_of_le (hlt q (List.mem_append_right _ hq)) k1)
        rw [← h.1, ← h.2, allPtrs_cons, allPtrs_cons]
        refine ⟨le_trans k1 j1, List.nodup_append.2 ⟨k2, j2, ?_⟩, ?_⟩
        · intro q hq1 hq2
          rcases k3 q hq1 with a | a <;> rcases j3 q hq2 with b | b
          · exact hdis a b
          · have := hlt q (List.mem_append_left _ a)
            omega
          · have := hlt q (List.mem_append_right _ b)
            omega
          · omega
        · intro q hq
          rcases List.mem_append.1 hq with hq | hq
          · rcases k3 q hq with a | a
            · exact Or.inl (List.mem_append_left _ a)
            · exact Or.inr ⟨a.1, by omega⟩
          · rcases j3 q hq with a | a
            · exact Or.inl (List.mem_append_right _ a)
            · exact Or.inr ⟨by omega, a.2⟩

theorem forDirs_fresh {f : Nat → QTreeWidgetItem → Option (QTreeWidgetItem × Nat)} :
    ∀ (ds : List Nat) (next : Nat) (cs1 : List QTreeWidgetItem) (n1 : Nat),
      forDirs f next ds = some (cs1, n1) →
      (∀ d ∈ ds, ∀ nx c1 nx1, f (nx + 1) (newItem nx d) = some (c1, nx1) →
        nx + 1 ≤ nx1 ∧ ((nodes c1).map QTreeWidgetItem.ptr).Nodup ∧
          ∀ q ∈ (nodes c1).map QTreeWidgetItem.ptr, nx ≤ q ∧ q < nx1) →
      next ≤ n1 ∧ (allPtrs cs1).Nodup ∧ ∀ q ∈ allPtrs cs1, next ≤ q ∧ q < n1
  | [], next, cs1, n1, h, _ => by
    simp only [forDirs, Option.some.injEq, Prod.mk.injEq] at h
    rw [← h.1, ← h.2]
    exact ⟨le_refl _, by simp [allPtrs, nodesList], by simp [allPtrs, nodesList]⟩
  | d :: ds, next, cs1, n1, h, hB => by
    simp only [forDirs] at h
    cases hc : f (next + 1) (newItem next d) with
    | none => simp [hc] at h
    | some r =>
      obtain ⟨c1, m1⟩ := r
      simp only [hc] at h
      cases hcs : forDirs f m1 ds with
      | none => simp [hcs] at h
      | some r2 =>
        obtain ⟨cs2, m2⟩ := r2
        simp only [hcs, Option.some.injEq, Prod.mk.injEq] at h
        obtain ⟨k1, k2, k3⟩ := hB d (List.mem_cons_self _ _) next c1 m1 hc
        obtain ⟨j1, j2, j3⟩ := forDirs_fresh ds m1 cs2 m2 hcs
          (fun x hx => hB x (List.mem_cons_of_mem _ hx))
        rw [← h.1, ← h.2, allPtrs_cons]
        refine ⟨by omega, List.nodup_append.2 ⟨k2, j2, ?_⟩, ?_⟩
        · intro q hq1 hq2
          have := k3 q hq1
          have := j3 q hq2
          omega
        · intro q hq
          rcases List.mem_append.1 hq with hq | hq
          · have := k3 q hq
            omega
          · have := j3 q hq
            omega

/-- The addresses below what a function of the block returns are distinct; they are the
addresses that were there and addresses allocated by the call. -/
theorem fresh_of_some (env : Env) :
    ∀ fuel,
      (∀ n it d r n1, buildSubTree env fuel n it d = some (r, n1) →
        ((nodes it).map QTreeWidgetItem.ptr).Nodup →
        (∀ q ∈ (nodes it).map QTreeWidgetItem.ptr, q < n) →
        n ≤ n1 ∧ ((nodes r).map QTreeWidgetItem.ptr).Nodup ∧
          ∀ q ∈ (nodes r).map QTreeWidgetItem.ptr,
            q ∈ (nodes it).map QTreeWidgetItem.ptr ∨ (n ≤ q ∧ q < n1)) ∧
      (∀ n it r n1, buildChildBody env fuel n it = some (r, n1) →
        ((nodes it).map QTreeWidgetItem.ptr).Nodup →
        (∀ q ∈ (nodes it).map QTreeWidgetItem.ptr, q < n) →
        n ≤ n1 ∧ ((nodes r).map QTreeWidgetItem.ptr).Nodup ∧
          ∀ q ∈ (nodes r).map QTreeWidgetItem.ptr,
            q ∈ (nodes it).map QTreeWidgetItem.ptr ∨ (n ≤ q ∧ q < n1)) ∧
      (∀ n it r n1, expandItem env fuel n it = some (r, n1) →
        ((nodes it).map QTreeWidgetItem.ptr).Nodup →
        (∀ q ∈ (nodes it).map QTreeWidgetItem.ptr, q < n) →
        n ≤ n1 ∧ ((nodes r).map QTreeWidgetItem.ptr).Nodup ∧
          ∀ q ∈ (nodes r).map QTreeWidgetItem.ptr,
            q ∈ (nodes it).map QTreeWidgetItem.ptr ∨ (n ≤ q ∧ q < n1)) := by
  intro fuel
  induction fuel using Nat.strong_induction_on with
  | _ fuel ih =>
    have hkids : ∀ (it : QTreeWidgetItem),
        ((nodes it).map QTreeWidgetItem.ptr).Nodup →
        (allPtrs it.children).Nodup ∧ ∀ n, (∀ q ∈ (nodes it).map QTreeWidgetItem.ptr, q < n) →
          ∀ q ∈ allPtrs it.children, q < n := by
      intro it hn
      rw [ptrs_nodes, List.nodup_cons] at hn
      refine ⟨hn.2, fun n hlt q hq => hlt q ?_⟩
      rw [ptrs_nodes]
      exact List.mem_cons_of_mem _ hq
    have hexp : ∀ n it r n1, expandItem env fuel n it = some (r, n1) →
        ((nodes it).map QTreeWidgetItem.ptr).Nodup →
        (∀ q ∈ (nodes it).map QTreeWidgetItem.ptr, q < n) →
        n ≤ n1 ∧ ((nodes r).map QTreeWidgetItem.ptr).Nodup ∧
          ∀ q ∈ (nodes r).map QTreeWidgetItem.ptr,
            q ∈ (nodes it).map QTreeWidgetItem.ptr ∨ (n ≤ q ∧ q < n1) := by
      intro n it r n1 h hn hlt
      rcases expandItem_some h with ⟨_, rfl, rfl⟩ | ⟨_, f2, cs, hf, hl, rfl⟩
      · exact ⟨le_refl _, hn, fun q hq => Or.inl hq⟩
      · obtain ⟨k1, k2, k3⟩ := forItems_fresh _ _ _ _ hl
          (fun c _ nx c1 nx1 hc => (ih f2 (by omega)).2.1 nx c c1 nx1 hc)
          (hkids it hn).1 ((hkids it hn).2 n hlt)
        exact ⟨k1, ptrs_assemble (by simp) (by simp) hn hlt k2 k3⟩
    have hbuild : ∀ n it d r n1, buildSubTree env fuel n it d = some (r, n1) →
        ((nodes it).map QTreeWidgetItem.ptr).Nodup →
        (∀ q ∈ (nodes it).map QTreeWidgetItem.ptr, q < n) →
        n ≤ n1 ∧ ((nodes r).map QTreeWidgetItem.ptr).Nodup ∧
          ∀ q ∈ (nodes r).map QTreeWidgetItem.ptr,
            q ∈ (nodes it).map QTreeWidgetItem.ptr ∨ (n ≤ q ∧ q < n1) := by
      intro n it d r n1 h hn hlt
      cases fuel with
      | zero => simp [buildSubTree] at h
      | succ f =>
        rcases buildSubTree_some h with ⟨_, rfl, rfl⟩ | ⟨_, _, rfl, rfl⟩ |
          ⟨_, _, cs, m, hloop, hfin⟩
        · exact ⟨le_refl _, hn, fun q hq => Or.inl hq⟩
        · exact ⟨le_refl _, hn, fun q hq => Or.inl hq⟩
        · have h1 : n ≤ m ∧ (allPtrs cs).Nodup ∧
              ∀ q ∈ allPtrs cs, q ∈ allPtrs it.children ∨ (n ≤ q ∧ q < m) := by
            rcases hloop with ⟨_, hl⟩ | ⟨_, hl⟩
            · exact forItems_fresh _ _ _ _ hl
                (fun c _ nx c1 nx1 hc => (ih f (by omega)).1 nx c _ c1 nx1 hc)
                (hkids it hn).1 ((hkids it hn).2 n hlt)
            · obtain ⟨k1, k2, k3⟩ := forDirs_fresh _ _ _ _ hl
                (fun x _ nx c1 nx1 hc => by
                  obtain ⟨j1, j2, j3⟩ := (ih f (by omega)).1 _ _ _ c1 nx1 hc
                    (by simp [newItem, nodes, nodesList])
                    (by simp [newItem, nodes, nodesList])
                  refine ⟨j1, j2, fun q hq => ?_⟩
                  rcases j3 q hq with a | a
                  · simp [newItem, nodes, nodesList] at a
                    omega
                  · omega)
              exact ⟨k1, k2, fun q hq => Or.inr (k3 q hq)⟩
          obtain ⟨a1, a2⟩ := ptrs_assemble (r := it.setChildren cs) (by simp) (by simp)
            hn hlt h1.2.1 h1.2.2
          rcases hfin with ⟨_, he⟩ | ⟨_, rfl, rfl⟩
          · obtain ⟨b1, b2, b3⟩ := (ih f (by omega)).2.2 _ _ _ _ he a1
              (fun q hq => by
                rcases a2 q hq with c | c
                · exact lt_of_lt_of_le (hlt q c) h1.1
                · exact c.2)
            refine ⟨le_trans h1.1 b1, b2, fun q hq => ?_⟩
            rcases b3 q hq with c | c
            · rcases a2 q c with e | e
              · exact Or.inl e
              · exact Or.inr ⟨e.1, by omega⟩
            · exact Or.inr ⟨by omega, c.2⟩
          · exact ⟨h1.1, a1, a2⟩
    refine ⟨hbuild, ?_, hexp⟩
    intro n it r n1 h hn hlt
    unfold buildChildBody at h
    by_cases hc : it.childCount > 0
    · rw [if_pos hc] at h
      simp only [Option.some.injEq, Prod.mk.injEq] at h
      rw [← h.1, ← h.2]
      exact ⟨le_refl _, hn, fun q hq => Or.inl hq⟩
    · rw [if_neg hc] at h
      exact hbuild _ _ _ _ _ h hn hlt

/-! ## Locating a directory: auxiliary facts -/

/-- A subtree that mirrors the upper part of its directory subtree keeps doing so under every
function of the block. -/
theorem builtPartMirrors_of_some (env : Env) :
    ∀ fuel,
      (∀ n it d r n1, builtPartMirrors env it = true →
        buildSubTree env fuel n it d = some (r, n1) → builtPartMirrors env r = true) ∧
      (∀ n it r n1, builtPartMirrors env it = true →
        buildChildBody env fuel n it = some (r, n1) → builtPartMirrors env r = true) ∧
      (∀ n it r n1, builtPartMirrors env it = true →
        expandItem env fuel n it = some (r, n1) → builtPartMirrors env r = true) := by
  intro fuel
  induction fuel using Nat.strong_induction_on with
  | _ fuel ih =>
    have hkids : ∀ (body : Nat → QTreeWidgetItem → Option (QTreeWidgetItem × Nat))
        (it r : QTreeWidgetItem) (n : Nat) (cs : List QTreeWidgetItem) (m : Nat),
        builtPartMirrors env it = true →
        (∀ nx c c1 nx1, body nx c = some (c1, nx1) →
          kept c c1 = true ∧ (builtPartMirrors env c = true →
            builtPartMirrors env c1 = true)) →
        forItems body n it.children = some (cs, m) →
        r.children = cs → r.dir = it.dir → builtPartMirrors env r = true := by
      intro body it r n cs m hm hb hl hrc hrd
      have h2 := forItems_forall2
        (R := fun c c1 => kept c c1 = true ∧ (builtPartMirrors env c = true →
          builtPartMirrors env c1 = true)) _ _ _ _ hl
        (fun c _ nx c1 nx1 h => hb nx c c1 nx1 h)
      rcases (builtPartMirrors_iff env it).1 hm with h0 | ⟨hd, hc⟩
      · refine (builtPartMirrors_iff env r).2 (Or.inl ?_)
        rw [hrc]
        exact (forall2_nil_iff h2).1 h0
      · refine (builtPartMirrors_iff env r).2 (Or.inr ⟨?_, ?_⟩)
        · rw [hrc, hrd, ← hd]
          exact (forall2_map_eq h2 (fun a b h => (kept_dir h.1).symm)).symm
        · intro c1 hc1
          rw [hrc] at hc1
          obtain ⟨c, hcm, hr⟩ := forall2_exists_left h2 c1 hc1
          exact hr.2 (hc c hcm)
    have hexp : ∀ n it r n1, builtPartMirrors env it = true →
        expandItem env fuel n it = some (r, n1) → builtPartMirrors env r = true := by
      intro n it r n1 hm h
      rcases expandItem_some h with ⟨_, rfl, _⟩ | ⟨_, f2, cs, hf, hl, rfl⟩
      · exact hm
      · exact hkids (buildChildBody env f2) it _ n cs n1 hm
          (fun nx c c1 nx1 h => ⟨((frame_of_some env f2).2.1 nx c c1 nx1 h).1,
            fun hc => (ih f2 (by omega)).2.1 nx c c1 nx1 hc h⟩) hl (by simp) (by simp)
    have hbuild : ∀ n it d r n1, builtPartMirrors env it = true →
        buildSubTree env fuel n it d = some (r, n1) → builtPartMirrors env r = true := by
      intro n it d r n1 hm h
      cases fuel with
      | zero => simp [buildSubTree] at h
      | succ f =>
        rcases buildSubTree_some h with ⟨_, rfl, _⟩ | ⟨_, _, rfl, _⟩ |
          ⟨_, _, cs, m, hloop, hfin⟩
        · exact hm
        · exact hm
        · have h1 : builtPartMirrors env (it.setChildren cs) = true := by
            rcases hloop with ⟨_, hl⟩ | ⟨hz, hl⟩
            · exact hkids _ it _ n cs m hm
                (fun nx c c1 nx1 h => ⟨((frame_of_some env f).1 nx c _ c1 nx1 h).1,
                  fun hc => (ih f (by omega)).1 nx c _ c1 nx1 hc h⟩) hl (by simp) (by simp)
            · have h2 := forDirs_forall2
                (R := fun x c1 => c1.dir = x ∧ builtPartMirrors env c1 = true) _ _ _ _ hl
                (fun x _ nx c1 nx1 h =>
                  ⟨by simpa using kept_dir ((frame_of_some env f).1 _ _ _ c1 nx1 h).1,
                    (ih f (by omega)).1 (nx + 1) (newItem nx x) (d - 1) c1 nx1
                      ((builtPartMirrors_iff env (newItem nx x)).2 (Or.inl rfl)) h⟩)
              refine (builtPartMirrors_iff env _).2 (Or.inr ⟨?_, ?_⟩)
              · simp only [children_setChildren, dir_setChildren]
                have := forall2_map_eq (f := id) (g := QTreeWidgetItem.dir) h2
                  (fun a b h => h.1.symm)
                simpa using this.symm
              · intro c1 hc1
                simp only [children_setChildren] at hc1
                obtain ⟨_, _, hr⟩ := forall2_exists_left h2 c1 hc1
                exact hr.2
          rcases hfin with ⟨_, he⟩ | ⟨_, rfl, _⟩
          · exact (ih f (by omega)).2.2 _ _ _ _ h1 he
          · exact h1
    refine ⟨hbuild, ?_, hexp⟩
    intro n it r n1 hm h
    unfold buildChildBody at h
    by_cases hc : it.childCount > 0
    · rw [if_pos hc] at h
      simp only [Option.some.injEq, Prod.mk.injEq] at h
      rw [← h.1]; exact hm
    · rw [if_neg hc] at h
      exact hbuild _ _ _ _ _ hm h

/-- At a depth other than 0, `buildSubTree` gives an item without children, whose directory
opens, one child per sub-directory, in order. -/
theorem buildSubTree_childless {env : Env} {fuel n : Nat} {it r : QTreeWidgetItem} {d : Int}
    {n1 : Nat} (hd : d ≠ 0) (ho : (env it.dir).openOk = true) (hc : it.children = [])
    (h : buildSubTree env fuel n it d = some (r, n1)) :
    r.children.map QTreeWidgetItem.dir = (env it.dir).subDirs := by
  cases fuel with
  | zero => simp [buildSubTree] at h
  | succ f =>
    rcases buildSubTree_some h with ⟨h0, _, _⟩ | ⟨_, hno, _, _⟩ | ⟨_, _, cs, m, hloop, hfin⟩
    · exact absurd h0 hd
    · rw [ho] at hno; cases hno
    · have hcs : cs.map QTreeWidgetItem.dir = (env it.dir).subDirs := by
        rcases hloop with ⟨hpos, _⟩ | ⟨_, hl⟩
        · simp [QTreeWidgetItem.childCount, hc] at hpos
        · have h2 := forDirs_forall2 (R := fun y c1 => c1.dir = y) _ _ _ _ hl
            (fun y _ k c1 k1 hc => by
              simpa using kept_dir ((frame_of_some env f).1 _ _ _ c1 k1 hc).1)
          have := forall2_map_eq (f := id) (g := QTreeWidgetItem.dir) h2
            (fun a b h => h.symm)
          simpa using this.symm
      rcases hfin with ⟨_, he⟩ | ⟨_, rfl, _⟩
      · have h3 := ((frame_of_some env f).2.2 _ _ _ _ he).2.2.2
        simp only [children_setChildren] at h3
        rw [← hcs]
        exact (forall2_map_eq h3 (fun a b h => (kept_dir h).symm)).symm
      · simpa using hcs

theorem nodes_sublist_nodesList : ∀ (cs : List QTreeWidgetItem) (x : QTreeWidgetItem),
    x ∈ cs → (nodes x).Sublist (nodesList cs)
  | [], _, h => by cases h
  | c :: cs, x, h => by
    rw [nodesList_cons]
    rcases List.mem_cons.1 h with rfl | h
    · exact List.sublist_append_left _ _
    · exact (nodes_sublist_nodesList cs x h).trans (List.sublist_append_right _ _)

theorem nodes_sublist : ∀ c a : QTreeWidgetItem, a ∈ nodes c → (nodes a).Sublist (nodes c) := by
  intro c
  induction c using QTreeWidgetItem.induct with
  | h p d e hd cs ih =>
    intro a ha
    rw [nodes_eq] at ha
    rcases List.mem_cons.1 ha with rfl | ha
    · exact List.Sublist.refl _
    · obtain ⟨x, hx, hax⟩ := (mem_nodesList_iff _ a).1 ha
      rw [nodes_eq (QTreeWidgetItem.mk p d e hd cs)]
      exact List.Sublist.cons _ ((ih x hx a hax).trans (nodes_sublist_nodesList _ x hx))

theorem nodes_sublist_of_mem_nodesList {cs : List QTreeWidgetItem} {a : QTreeWidgetItem}
    (h : a ∈ nodesList cs) : (nodes a).Sublist (nodesList cs) := by
  obtain ⟨x, hx, hax⟩ := (mem_nodesList_iff cs a).1 h
  exact (nodes_sublist x a hax).trans (nodes_sublist_nodesList cs x hx)

/-- The search of a child list for a directory finds the first child of the directory. -/
theorem findByDir_of_mem {d : Nat} : ∀ {cs : List QTreeWidgetItem},
    d ∈ cs.map QTreeWidgetItem.dir →
    ∃ c ∈ cs, c.dir = d ∧ findByDir d cs = some c.ptr
  | [], h => by simp at h
  | x :: cs, h => by
    by_cases hx : x.dir = d
    · refine ⟨x, List.mem_cons_self _ _, hx, ?_⟩
      unfold findByDir
      rw [List.find?_cons_of_pos _ (by simpa using hx)]
      rfl
    · have h2 : d ∈ cs.map QTreeWidgetItem.dir := by
        rw [List.map_cons] at h
        rcases List.mem_cons.1 h with h | h
        · exact absurd h.symm hx
        · exact h
      obtain ⟨c, hc, hcd, hf⟩ := findByDir_of_mem h2
      refine ⟨c, List.mem_cons_of_mem _ hc, hcd, ?_⟩
      unfold findByDir at hf ⊢
      rw [List.find?_cons_of_neg _ (by simpa using hx)]
      exact hf

/-- Children that mirror the sub-directories and whose subtrees mirror the upper part of
their directory subtrees mirror along every path. -/
theorem mirrorsAlong_of_builtPartMirrors (env : Env) :
    ∀ (path : List Nat) (p : Nat) (cs : List QTreeWidgetItem),
      cs.map QTreeWidgetItem.dir = (env p).subDirs →
      (∀ c ∈ cs, builtPartMirrors env c = true) → mirrorsAlong env p cs path
  | [], _, _, _, _ => by simp [mirrorsAlong]
  | x :: xs, p, cs, hd, hb => by
    rw [mirrorsAlong]
    refine ⟨hd, fun c hc hcx => ?_⟩
    rcases (builtPartMirrors_iff env c).1 (hb c hc) with h | ⟨h1, h2⟩
    · exact Or.inl h
    · rw [← hcx]
      exact Or.inr (mirrorsAlong_of_builtPartMirrors env xs c.dir c.children h1 h2)

/-- What the chain says about the directory `x` after the directories `init`. -/
theorem chainDown_facts (env : Env) (nb root : Nat) :
    ∀ (init : List Nat) (p x : Nat) (rest : List Nat),
      chainDown env nb root p (init ++ x :: rest) →
      (env x).parent = some (init.getLastD p) ∧ x ∈ (env (init.getLastD p)).subDirs ∧
        (env x).notebook = nb ∧ x ≠ root ∧
        (init ≠ [] → init.getLastD p ≠ root ∧ (env (init.getLastD p)).openOk = true)
  | [], p, x, rest, h => by
    simp only [List.nil_append, chainDown] at h
    exact ⟨h.1, h.2.1, h.2.2.1, h.2.2.2.1, fun hne => absurd rfl hne⟩
  | a :: init, p, x, rest, h => by
    simp only [List.cons_append, chainDown] at h
    obtain ⟨k1, k2, k3, k4, k5⟩ := chainDown_facts env nb root init a x rest h.2.2.2.2.2
    have hl : (a :: init).getLastD p = init.getLastD a := by
      cases init <;> rfl
    rw [hl]
    refine ⟨k1, k2, k3, k4, fun _ => ?_⟩
    by_cases hi : init = []
    · subst hi
      exact ⟨h.2.2.2.1, h.2.2.2.2.1 (by simp)⟩
    · exact k5 hi

/-- Down a chain the rank stays below the rank of the start. -/
theorem chainDown_rank (env : Env) (nb root : Nat) (rank : Nat → Nat)
    (hrank : ∀ d c, c ∈ (env d).subDirs → rank c < rank d) :
    ∀ (path : List Nat) (p : Nat), chainDown env nb root p path →
      ∀ x ∈ path, rank x < rank p
  | [], _, _, _, hx => by cases hx
  | a :: path, p, h, x, hx => by
    simp only [chainDown] at h
    have ha := hrank p a h.2.1
    rcases List.mem_cons.1 hx with rfl | hx
    · exact ha
    · exact lt_trans (chainDown_rank env nb root rank hrank path a h.2.2.2.2.2 x hx) ha

/-! ## expandToVDirectory finds the item of the directory -/

theorem wellFormed_item_ptrs {t : VDirectoryTree} (hwf : WellFormed t) {it : QTreeWidgetItem}
    (hit : it ∈ nodesList t.topLevel) :
    ((nodes it).map QTreeWidgetItem.ptr).Nodup ∧
      ∀ q ∈ (nodes it).map QTreeWidgetItem.ptr, q < t.next := by
  have hs := nodes_sublist_of_mem_nodesList hit
  refine ⟨List.Nodup.sublist (List.Sublist.map _ hs) hwf.1, fun q hq => hwf.2 q ?_⟩
  exact (List.Sublist.map QTreeWidgetItem.ptr hs).subset hq

/-- Along a chain of directories whose materialized items mirror their sub-directories,
`expandToVDirectory` returns the item of the last directory, in a widget that is still well
formed; `init` are the directories above `x` and `rest` those below. -/
theorem expandToVDirectory_spec (env : Env) (rank : Nat → Nat)
    (hrank : ∀ d c, c ∈ (env d).subDirs → rank c < rank d) :
    ∀ (init : List Nat) (x : Nat) (rest : List Nat) (t : VDirectoryTree) (fuel : Nat),
      chainDown env t.notebook t.rootDir t.rootDir (init ++ x :: rest) →
      mirrorsAlong env t.rootDir t.topLevel (init ++ x :: rest) →
      WellFormed t →
      init.length + 4 * rank t.rootDir + 5 ≤ fuel →
      ∃ t1 it, expandToVDirectory env fuel t (some x) = some (t1, some it.ptr) ∧
        it ∈ nodesList t1.topLevel ∧ it.dir = x ∧ WellFormed t1 ∧
        (it.children = [] ∨ mirrorsAlong env x it.children rest) ∧
        t1.notebook = t.notebook ∧ t1.rootDir = t.rootDir ∧ t1.current = t.current ∧
        t1.remembered = t.remembered ∧ t1.magic = t.magic := by
  intro init
  induction init using List.reverseRecOn with
  | nil =>
    intro x rest t fuel hch hmi hwf hf
    obtain ⟨f, rfl⟩ : ∃ f, fuel = f + 1 := ⟨fuel - 1, by omega⟩
    obtain ⟨k1, k2, k3, k4, _⟩ := chainDown_facts env _ _ [] t.rootDir x rest hch
    simp only [List.getLastD_nil] at k1 k2
    simp only [List.nil_append, mirrorsAlong] at hmi
    obtain ⟨c, hc, hcd, hfind⟩ := @findByDir_of_mem x t.topLevel
      (by rw [hmi.1]; exact k2)
    refine ⟨t, c, ?_, mem_nodesList_of_mem hc, hcd, hwf, hmi.2 c hc hcd, rfl, rfl, rfl, rfl, rfl⟩
    rw [expandToVDirectory, if_neg (by simp [k3, k4]), if_pos k1, hfind]
  | append_singleton init y ih =>
    intro x rest t fuel hch hmi hwf hf
    obtain ⟨f, rfl⟩ : ∃ f, fuel = f + 1 := ⟨fuel - 1, by omega⟩
    obtain ⟨k1, k2, k3, k4, k5⟩ := chainDown_facts env _ _ (init ++ [y]) t.rootDir x rest hch
    simp only [List.getLastD_concat] at k1 k2 k5
    obtain ⟨k6, k7⟩ := k5 (by simp)
    have hassoc : (init ++ [y]) ++ x :: rest = init ++ y :: (x :: rest) := by simp
    rw [hassoc] at hch hmi
    have hlen : (init ++ [y]).length = init.length + 1 := by simp
    obtain ⟨t1, pItem, hrec, hpin, hpd, hwf1, hpm, e1, e2, e3, e4, e5⟩ :=
      ih y (x :: rest) t f hch hmi hwf (by omega)
    have hfind := findInItems_of_mem hwf1.1 hpin
    obtain ⟨hpn, hplt⟩ := wellFormed_item_ptrs hwf1 hpin
    -- the parent item after `buildSubTree(pItem, 1)`, when it had no children
    have hbuilt : ∃ pItem1 n1,
        (if pItem.childCount = 0 then buildSubTree env f t1.next pItem 1
          else some (pItem, t1.next)) = some (pItem1, n1) ∧
        pItem1.ptr = pItem.ptr ∧ t1.next ≤ n1 ∧
        ((nodes pItem1).map QTreeWidgetItem.ptr).Nodup ∧
        (∀ q ∈ (nodes pItem1).map QTreeWidgetItem.ptr,
          q ∈ (nodes pItem).map QTreeWidgetItem.ptr ∨ (t1.next ≤ q ∧ q < n1)) ∧
        pItem1.children.map QTreeWidgetItem.dir = (env y).subDirs ∧
        ∀ c ∈ pItem1.children, c.dir = x →
          c.children = [] ∨ mirrorsAlong env x c.children rest := by
      by_cases hcc : pItem.childCount = 0
      · have hc0 : pItem.children = [] := by
          simpa [QTreeWidgetItem.childCount] using hcc
        have hby : hb rank pItem ≤ rank t.rootDir := by
          rw [hb_eq, hc0, hpd]
          have := chainDown_rank env _ _ rank hrank _ _ hch y (by simp)
          simp only [hbList]
          omega
        obtain ⟨⟨pItem1, n1⟩, hb1⟩ := (returns_of_rank env rank hrank (rank t.rootDir) pItem
          hby).1 f t1.next 1 (by omega)
        obtain ⟨g1, g2, g3⟩ := (fresh_of_some env f).1 _ _ _ _ _ hb1 hpn hplt
        have hk := ((frame_of_some env f).1 _ _ _ _ _ hb1).1
        have hdirs := buildSubTree_childless (by decide) (by rw [hpd]; exact k7) hc0 hb1
        rw [hpd] at hdirs
        have hbpm := (builtPartMirrors_of_some env f).1 _ _ _ _ _
          ((builtPartMirrors_iff env pItem).2 (Or.inl hc0)) hb1
        refine ⟨pItem1, n1, by rw [if_pos hcc]; exact hb1, kept_ptr hk, g1, g2, g3, hdirs, ?_⟩
        intro c hc hcx
        rcases (builtPartMirrors_iff env pItem1).1 hbpm with h0 | ⟨_, hall⟩
        · rw [h0] at hc; cases hc
        · rcases (builtPartMirrors_iff env c).1 (hall c hc) with h | ⟨h1, h2⟩
          · exact Or.inl h
          · rw [← hcx]
            exact Or.inr (mirrorsAlong_of_builtPartMirrors env rest c.dir c.children h1 h2)
      · have hne : pItem.children ≠ [] := by
          intro h
          exact hcc (by simp [QTreeWidgetItem.childCount, h])
        rcases hpm with h | h
        · exact absurd h hne
        · rw [mirrorsAlong] at h
          exact ⟨pItem, t1.next, by rw [if_neg hcc], rfl, le_refl _, hpn,
            fun q hq => Or.inl hq, h.1, h.2⟩
    obtain ⟨pItem1, n1, hb1, hp1, hn1, hnn, hfr, hdirs, hmir⟩ := hbuilt
    obtain ⟨c, hc, hcd, hfc⟩ := @findByDir_of_mem x pItem1.children
      (by rw [hdirs]; exact k2)
    obtain ⟨w1, w2, w3⟩ := replace_wf pItem.ptr t1.next n1 pItem pItem1 rfl hnn hfr
      t1.topLevel hwf1.1 hwf1.2 hpin
    refine ⟨{ t1 with topLevel := replaceInItems pItem.ptr pItem1 t1.topLevel, next := n1 }, c,
      ?_, ?_, hcd, ⟨w1, ?_⟩, hmir c hc hcd, e1, e2, e3, e4, e5⟩
    · rw [expandToVDirectory, if_neg (by simp [k3, k4, e1]),
        if_neg (by rw [k1]; intro h; exact k6 (Option.some.inj h)), k1, hrec]
      dsimp only
      rw [hfind]
      dsimp only
      rw [hb1]
      dsimp only
      rw [hfc]
    · refine nodesList_trans w3 ?_
      rw [nodes_eq]
      exact List.mem_cons_of_mem _ (mem_nodesList_of_mem hc)
    · intro q hq
      rcases w2 q hq with h | h
      · exact lt_of_lt_of_le (hwf1.2 q h) hn1
      · exact h.2

/-! ## The sample notebook is a finite tree -/

/-- Every sub-directory of `envNotebook` is lower than its parent. -/
theorem rankNotebook_lt : ∀ d c, c ∈ (envNotebook d).subDirs → rankNotebook c < rankNotebook d := by
  intro d c h
  rcases d with _ | _ | _ | _ | d
  · simp only [envNotebook, List.mem_cons, List.mem_singleton, List.not_mem_nil, or_false] at h
    rcases h with rfl | rfl <;> decide
  · simp only [envNotebook, List.mem_cons, List.mem_singleton, List.not_mem_nil, or_false] at h
    subst h; decide
  · simp [envNotebook] at h
  · simp [envNotebook] at h
  · simp [envNotebook] at h

/-! ## Idempotent materialization -/

/-- C7: on a finite directory tree, for every item and every depth, `buildSubTree(item, d)`
returns, and a second `buildSubTree(item, d)` with the directory tree unchanged returns the
tree the first call left: no item is added anywhere under the item (every child count is the
same) and the allocation counter has not moved. -/
theorem buildSubTree_twice (env : Env) (rank : Nat → Nat)
    (hrank : ∀ d c, c ∈ (env d).subDirs → rank c < rank d) (item : QTreeWidgetItem) (d : Int) :
    ∃ bound, ∀ fuel, bound ≤ fuel → ∀ next, ∃ it1 n1,
      buildSubTree env fuel next item d = some (it1, n1) ∧
      buildSubTree env fuel n1 it1 d = some (it1, n1) := by
  refine ⟨4 * hb rank item + 4, ?_⟩
  intro fuel hf next
  obtain ⟨⟨it1, n1⟩, h1⟩ :=
    (returns_of_rank env rank hrank (hb rank item) item (le_refl _)).1 fuel next d hf
  have hle := (hb_le_of_some env rank hrank fuel).1 _ _ _ _ _ h1
  obtain ⟨⟨it2, n2⟩, h2⟩ :=
    (returns_of_rank env rank hrank (hb rank item) it1 hle).1 fuel n1 d hf
  obtain ⟨e1, e2⟩ := buildSubTree_of_settled env fuel n1 it1 d it2 n2
    (settled_of_buildSubTree env fuel next item d it1 n1 h1) h2
  rw [e1, e2] at h2
  exact ⟨it1, n1, h1, h2⟩

/-- Witness of C7 on the sample notebook: the item of Work, built one level deep twice. -/
theorem buildSubTree_twice_witness :
    (∀ d c, c ∈ (envNotebook d).subDirs → rankNotebook c < rankNotebook d) ∧
    ∃ bound, ∀ fuel, bound ≤ fuel → ∀ next, ∃ it1 n1,
      buildSubTree envNotebook fuel next (newItem 0 1) 1 = some (it1, n1) ∧
      buildSubTree envNotebook fuel n1 it1 1 = some (it1, n1) :=
  ⟨rankNotebook_lt, buildSubTree_twice envNotebook rankNotebook rankNotebook_lt (newItem 0 1) 1⟩

/-! ## Lazy depth bound -/

/-- Every directory of the sample notebook opens. -/
theorem envNotebook_open : ∀ d, (envNotebook d).openOk = true := by
  intro d
  unfold envNotebook
  split <;> rfl

/-- No directory of the sample notebook is flagged expanded. -/
theorem envNotebook_collapsed : ∀ d, (envNotebook d).expanded = false := by
  intro d
  unfold envNotebook
  split <;> rfl

/-- Counterexample to C5 as stated: every directory opens and the item of Work has no
children, but Work is flagged expanded, so `buildSubTree(item, 1)` expands the item, the slot
`handleItemExpanded` runs `buildChildren`, and the new child Drafts gets its own child Old: a
grandchild is materialized and the subtree is not the directory subtree cut at one level. -/
theorem buildSubTree_one_builds_grandchild :
    (∀ d, (envWorkExpanded d).openOk = true) ∧
    (newItem 0 1).children = [] ∧
    buildSubTree envWorkExpanded 10 1 (newItem 0 1) 1 =
      some (.mk 0 1 true false [.mk 1 3 false false [newItem 2 4]], 3) ∧
    truncShape envWorkExpanded 1 (.mk 0 1 true false [.mk 1 3 false false [newItem 2 4]])
      = false := by
  refine ⟨?_, rfl, rfl, by decide⟩
  intro d
  unfold envWorkExpanded
  split <;> rfl

/-- C5 (amended): for every item without UI children and every depth `k ≥ 0`, when every
`open()` succeeds and no directory exactly `k - 1` levels below the item's directory is flagged
expanded, `buildSubTree(item, k)` returns and leaves the item with the directory subtree cut
at `k` levels below the item; `buildSubTree(item, 0)` changes nothing. -/
theorem buildSubTree_depth_bound (env : Env) (hopen : ∀ d, (env d).openOk = true)
    (item : QTreeWidgetItem) (hleaf : item.children = []) (k : Nat)
    (hflag : ∀ j, j + 1 = k → ∀ x ∈ levelDirs env j item.dir, (env x).expanded = false) :
    ∃ bound, ∀ fuel, bound ≤ fuel → ∀ next, ∃ it1 n1,
      buildSubTree env fuel next item (k : Int) = some (it1, n1) ∧
      truncShape env k it1 = true ∧ (k = 0 → it1 = item ∧ n1 = next) := by
  refine ⟨k + 5, ?_⟩
  intro fuel hf next
  obtain ⟨r, n1, h1, h2, _, h4⟩ := buildSubTree_shaped env hopen k item hleaf hflag fuel next hf
  exact ⟨r, n1, h1, truncShape_of_shaped env k r h2, h4⟩

/-- Witness of C5 (amended) on the sample notebook: the root item built two levels deep. -/
theorem buildSubTree_depth_bound_witness :
    (∀ d, (envNotebook d).openOk = true) ∧ (newItem 0 0).children = [] ∧
    (∀ j, j + 1 = 2 → ∀ x ∈ levelDirs envNotebook j (newItem 0 0).dir,
      (envNotebook x).expanded = false) ∧
    ∃ bound, ∀ fuel, bound ≤ fuel → ∀ next, ∃ it1 n1,
      buildSubTree envNotebook fuel next (newItem 0 0) ((2 : Nat) : Int) = some (it1, n1) ∧
      truncShape envNotebook 2 it1 = true ∧ (2 = 0 → it1 = newItem 0 0 ∧ n1 = next) :=
  ⟨envNotebook_open, rfl, fun _ _ x _ => envNotebook_collapsed x,
    buildSubTree_depth_bound envNotebook envNotebook_open (newItem 0 0) rfl 2
      (fun _ _ x _ => envNotebook_collapsed x)⟩

/-! ## Unbounded materialization -/

/-- C6: on a finite directory tree in which every `open()` succeeds, for every item whose UI
subtree mirrors the upper part of its directory subtree, `buildSubTree(item, -1)` returns, and
afterwards every directory reachable through `getSubDirs` has its item at the matching
position at every depth; the items that were there before are kept. -/
theorem buildSubTree_unbounded (env : Env) (rank : Nat → Nat)
    (hrank : ∀ d c, c ∈ (env d).subDirs → rank c < rank d)
    (hopen : ∀ d, (env d).openOk = true) (item : QTreeWidgetItem)
    (hpart : builtPartMirrors env item = true) :
    ∃ bound, ∀ fuel, bound ≤ fuel → ∀ next, ∃ it1 n1,
      buildSubTree env fuel next item (-1) = some (it1, n1) ∧
      fullMirror env it1 = true ∧ kept item it1 = true := by
  refine ⟨4 * hb rank item + 4, ?_⟩
  intro fuel hf next
  obtain ⟨⟨it1, n1⟩, h1⟩ :=
    (returns_of_rank env rank hrank (hb rank item) item (le_refl _)).1 fuel next (-1) hf
  exact ⟨it1, n1, h1,
    fullMirror_of_buildSubTree env hopen fuel next item (-1) it1 n1 (by decide) hpart h1,
    ((frame_of_some env fuel).1 next item (-1) it1 n1 h1).1⟩

/-- Witness of C6 on the sample notebook: the item of Work with Drafts not yet materialized. -/
theorem buildSubTree_unbounded_witness :
    (∀ d c, c ∈ (envNotebook d).subDirs → rankNotebook c < rankNotebook d) ∧
    (∀ d, (envNotebook d).openOk = true) ∧
    builtPartMirrors envNotebook (newItem 0 1) = true ∧
    ∃ bound, ∀ fuel, bound ≤ fuel → ∀ next, ∃ it1 n1,
      buildSubTree envNotebook fuel next (newItem 0 1) (-1) = some (it1, n1) ∧
      fullMirror envNotebook it1 = true ∧ kept (newItem 0 1) it1 = true :=
  ⟨rankNotebook_lt, envNotebook_open, rfl,
    buildSubTree_unbounded envNotebook rankNotebook rankNotebook_lt envNotebook_open
      (newItem 0 1) rfl⟩

/-! ## Root rebuild -/

/-- C8: on a finite directory tree, for every notebook root whose sub-directories open,
`updateDirectoryTree` returns, the top-level items carry the sub-directories of the root in
`getSubDirs` order, the children of every top-level item carry the sub-directories of its
directory in order, and a top-level item whose directory is not flagged expanded is not
expanded. -/
theorem updateDirectoryTree_rows (env : Env) (rank level : Nat → Nat)
    (hrank : ∀ d c, c ∈ (env d).subDirs → rank c < rank d)
    (hlevel : ∀ d p, (env d).parent = some p → level p < level d) (t : VDirectoryTree)
    (hopen : ∀ x ∈ (env t.rootDir).subDirs, (env x).openOk = true) :
    ∃ bound, ∀ fuel, bound ≤ fuel → ∃ t1,
      updateDirectoryTree env fuel t = some t1 ∧
      t1.topLevel.map QTreeWidgetItem.dir = (env t.rootDir).subDirs ∧
      ∀ it ∈ t1.topLevel,
        it.children.map QTreeWidgetItem.dir = (env it.dir).subDirs ∧
          ((env it.dir).expanded = false → it.isExpanded = false) := by
  refine ⟨4 * rank t.rootDir + 4 + (match t.remembered with
    | some d => level d + 2
    | none => 0), ?_⟩
  intro fuel hf
  obtain ⟨⟨items, n1⟩, hl⟩ := forDirs_total
    (f := fun nx c => buildSubTree env fuel nx c 1) (env t.rootDir).subDirs t.next
    (by
      intro x hx nx
      have := hrank _ _ hx
      exact (returns_of_rank env rank hrank (rank x) (newItem nx x)
        (by rw [hb_newItem])).1 fuel (nx + 1) 1 (by omega))
  have hfa := forDirs_forall2
    (R := fun x c1 => (env x).openOk = true → (c1.dir = x ∧
      c1.children.map QTreeWidgetItem.dir = (env x).subDirs ∧
      ((env x).expanded = false → c1.isExpanded = false))) _ _ _ _ hl
    (fun x _ nx c1 nx1 hc ho => buildSubTree_one_newItem ho hc)
  have hfa2 := forall2_of_mem (S := fun x c1 => c1.dir = x ∧
      c1.children.map QTreeWidgetItem.dir = (env x).subDirs ∧
      ((env x).expanded = false → c1.isExpanded = false)) hfa
    (fun a ha b _ h => h (hopen a ha))
  have hdirs : items.map QTreeWidgetItem.dir = (env t.rootDir).subDirs := by
    have := forall2_map_eq (f := id) (g := QTreeWidgetItem.dir) hfa2 (fun a b h => h.1.symm)
    simpa using this.symm
  have hrows : ∀ it ∈ items,
      it.children.map QTreeWidgetItem.dir = (env it.dir).subDirs ∧
        ((env it.dir).expanded = false → it.isExpanded = false) := by
    intro it hit
    obtain ⟨x, _, h1, h2, h3⟩ := forall2_exists_left hfa2 it hit
    rw [h1]
    exact ⟨h2, h3⟩
  obtain ⟨t2, b, hres, htop⟩ := restoreCurrentItem_returns env
    { t with topLevel := items, current := none, next := n1 } level hlevel fuel
    (by
      intro d hd
      have hd2 : t.remembered = some d := hd
      rw [hd2] at hf
      dsimp only at hf
      omega)
    (by omega)
  have htop2 : t2.topLevel = items := htop
  unfold updateDirectoryTree
  dsimp only
  rw [hl]
  dsimp only
  rw [hres]
  dsimp only
  by_cases hcond : (!b && decide (t2.topLevel.length > 0)) = true
  · rw [if_pos hcond]
    cases htl : t2.topLevel with
    | nil => exact ⟨t2, rfl, by rw [htl, ← hdirs, ← htop2, htl], by rw [htl]; simp⟩
    | cons first rest =>
      refine ⟨setCurrentItem t2 first.ptr, rfl, ?_, ?_⟩
      · rw [setCurrentItem_topLevel, htop2, hdirs]
      · rw [setCurrentItem_topLevel, htop2]; exact hrows
  · rw [if_neg hcond]
    exact ⟨t2, rfl, by rw [htop2, hdirs], by rw [htop2]; exact hrows⟩

/-- Every parent of the sample notebook is closer to the root than its child. -/
theorem levelNotebook_lt :
    ∀ d p, (envNotebook d).parent = some p → levelNotebook p < levelNotebook d := by
  intro d p h
  rcases d with _ | _ | _ | _ | d
  · simp [envNotebook] at h
  · simp only [envNotebook, Option.some.injEq] at h
    subst h; decide
  · simp only [envNotebook, Option.some.injEq] at h
    subst h; decide
  · simp only [envNotebook, Option.some.injEq] at h
    subst h; decide
  · simp [envNotebook] at h

/-- Witness of C8, the scenario of the specification: the root contains Work and Personal,
Work contains Drafts.  The rebuild gives the rows Work (item `0`) and Personal (item `2`);
Work is not expanded and holds the row Drafts (item `1`). -/
theorem updateDirectoryTree_rows_witness :
    (∀ d c, c ∈ (envNotebook d).subDirs → rankNotebook c < rankNotebook d) ∧
    (∀ d p, (envNotebook d).parent = some p → levelNotebook p < levelNotebook d) ∧
    (∀ x ∈ (envNotebook treeEmpty.rootDir).subDirs, (envNotebook x).openOk = true) ∧
    (∃ bound, ∀ fuel, bound ≤ fuel → ∃ t1,
      updateDirectoryTree envNotebook fuel treeEmpty = some t1 ∧
      t1.topLevel.map QTreeWidgetItem.dir = (envNotebook treeEmpty.rootDir).subDirs ∧
      ∀ it ∈ t1.topLevel,
        it.children.map QTreeWidgetItem.dir = (envNotebook it.dir).subDirs ∧
          ((envNotebook it.dir).expanded = false → it.isExpanded = false)) ∧
    updateDirectoryTree envNotebook 10 treeEmpty =
      some ⟨0, 0, [.mk 0 1 false false [newItem 1 3], newItem 2 2], some 0, some 1, 3, 0⟩ :=
  ⟨rankNotebook_lt, levelNotebook_lt, fun x _ => envNotebook_open x,
    updateDirectoryTree_rows envNotebook rankNotebook levelNotebook rankNotebook_lt
      levelNotebook_lt treeEmpty (fun x _ => envNotebook_open x),
    rfl⟩

/-! ## Reconciliation: membership, reuse and sticky expansion -/

/-- Every sub-directory of `envWorkExpanded` is lower than its parent. -/
theorem rankWorkExpanded_lt :
    ∀ d c, c ∈ (envWorkExpanded d).subDirs → rankWorkExpanded c < rankWorkExpanded d := by
  intro d c h
  rcases d with _ | _ | _ | _ | _ | d
  · simp only [envWorkExpanded, List.mem_cons, List.mem_singleton, List.not_mem_nil,
      or_false] at h
    rcases h with rfl | rfl <;> decide
  · simp only [envWorkExpanded, List.mem_cons, List.mem_singleton, List.not_mem_nil,
      or_false] at h
    subst h; decide
  · simp [envWorkExpanded] at h
  · simp only [envWorkExpanded, List.mem_cons, List.mem_singleton, List.not_mem_nil,
      or_false] at h
    subst h; decide
  · simp [envWorkExpanded] at h
  · simp [envWorkExpanded] at h

/-- C3, as the code has it: on a finite directory tree, for a parent whose UI children are
distinct items of pairwise distinct directories and a ground truth of pairwise distinct
sub-directories, `updateItemDirectChildren(parent)` returns and afterwards (a) every
ground-truth sub-directory that had a UI child is represented by that same item, with
everything that was materialized below it, (b) every ground-truth sub-directory that had no UI
child is represented by a new item, which has one child per sub-directory of it, in order,
when the sub-directory opens, no grandchild when in addition it is not flagged expanded, and
no child when it does not open, and (c) every UI child carries a ground-truth sub-directory;
each ground-truth sub-directory is carried by exactly one child (the directories of the
children are a permutation of the ground truth). -/
theorem updateItemDirectChildren_membership (env : Env) (rank : Nat → Nat)
    (hrank : ∀ d c, c ∈ (env d).subDirs → rank c < rank d) (parentDir next : Nat)
    (children : List QTreeWidgetItem)
    (hdirs : (children.map QTreeWidgetItem.dir).Nodup)
    (hptrs : (children.map QTreeWidgetItem.ptr).Nodup)
    (hnext : ∀ c ∈ children, c.ptr < next)
    (htruth : (env parentDir).subDirs.Nodup) :
    ∃ bound, ∀ fuel, bound ≤ fuel → ∃ rs n1,
      updateItemDirectChildren env fuel next parentDir children = some (rs, n1) ∧
      (∀ c ∈ children, c.dir ∈ (env parentDir).subDirs → ∃ r ∈ rs, kept c r = true) ∧
      (∀ d ∈ (env parentDir).subDirs, (∀ c ∈ children, c.dir ≠ d) →
        ∃ r ∈ rs, r.dir = d ∧ next ≤ r.ptr ∧
          ((env d).openOk = true →
            r.children.map QTreeWidgetItem.dir = (env d).subDirs) ∧
          ((env d).openOk = true → (env d).expanded = false →
            ∀ g ∈ r.children, g.children = []) ∧
          ((env d).openOk = false → r.children = [])) ∧
      (∀ r ∈ rs, r.dir ∈ (env parentDir).subDirs) ∧
      (rs.map QTreeWidgetItem.dir).Perm (env parentDir).subDirs := by
  obtain ⟨bound, h⟩ := updateItemDirectChildren_spec env rank hrank parentDir next children
    hdirs hptrs hnext htruth
  refine ⟨bound, fun fuel hf => ?_⟩
  obtain ⟨rs, n1, h1, h2, h3, h4⟩ := h fuel hf
  refine ⟨rs, n1, h1, ?_, ?_, ?_, h2⟩
  · intro c hc hcd
    obtain ⟨r, hr, hru⟩ := h3 c hc hcd
    exact ⟨r, hr, hru.1⟩
  · intro d hd hno
    obtain ⟨r, hr, hnew⟩ := h4 d hd hno
    exact ⟨r, hr, hnew⟩
  · intro r hr
    exact h2.mem_iff.1 (List.mem_map_of_mem _ hr)

/-- Witness of C3: the root of `envNotebook` (ground truth Work, Personal) with the UI children
Personal and a stale item.  Personal is reused, Work gets the new item `10` with the one child
Drafts, and the stale item is gone. -/
theorem updateItemDirectChildren_membership_witness :
    (∀ d c, c ∈ (envNotebook d).subDirs → rankNotebook c < rankNotebook d) ∧
    (childrenPersonalStale.map QTreeWidgetItem.dir).Nodup ∧
    (childrenPersonalStale.map QTreeWidgetItem.ptr).Nodup ∧
    (∀ c ∈ childrenPersonalStale, c.ptr < 10) ∧
    (envNotebook 0).subDirs.Nodup ∧
    (1 ∈ (envNotebook 0).subDirs ∧ ∀ c ∈ childrenPersonalStale, c.dir ≠ 1) ∧
    (updateItemDirectChildren envNotebook 20 10 0 childrenPersonalStale).map
        (fun r => r.1.map (fun c => (c.ptr, c.dir,
          c.children.map (fun g => (g.dir, g.children.map QTreeWidgetItem.dir)))))
      = some [(5, 2, []), (10, 1, [(3, [])])] ∧
    ∃ bound, ∀ fuel, bound ≤ fuel → ∃ rs n1,
      updateItemDirectChildren envNotebook fuel 10 0 childrenPersonalStale
        = some (rs, n1) ∧
      (∀ c ∈ childrenPersonalStale, c.dir ∈ (envNotebook 0).subDirs →
        ∃ r ∈ rs, kept c r = true) ∧
      (∀ d ∈ (envNotebook 0).subDirs, (∀ c ∈ childrenPersonalStale, c.dir ≠ d) →
        ∃ r ∈ rs, r.dir = d ∧ 10 ≤ r.ptr ∧
          ((envNotebook d).openOk = true →
            r.children.map QTreeWidgetItem.dir = (envNotebook d).subDirs) ∧
          ((envNotebook d).openOk = true → (envNotebook d).expanded = false →
            ∀ g ∈ r.children, g.children = []) ∧
          ((envNotebook d).openOk = false → r.children = [])) ∧
      (∀ r ∈ rs, r.dir ∈ (envNotebook 0).subDirs) ∧
      (rs.map QTreeWidgetItem.dir).Perm (envNotebook 0).subDirs :=
  ⟨rankNotebook_lt, by decide, by decide, by decide, by decide, by decide, by decide,
    updateItemDirectChildren_membership envNotebook rankNotebook rankNotebook_lt
      0 10 childrenPersonalStale (by decide) (by decide) (by decide) (by decide)⟩

/-- C3 fails as stated: the new item is not always materialized one level deep.  In
`envWorkExpanded` the root has the UI child Personal only, and Work, which is flagged expanded
and contains Drafts with Old below it, gets the new item `10`: it has the child Drafts and the
grandchild Old.  In `envWorkLocked` Work does not open and its new item has no child. -/
theorem updateItemDirectChildren_new_item_depth :
    ([newItem 5 2].map QTreeWidgetItem.dir).Nodup ∧
    (envWorkExpanded 0).subDirs = [1, 2] ∧
    (updateItemDirectChildren envWorkExpanded 20 10 0 [newItem 5 2]).map
        (fun r => r.1.map (fun c => (c.ptr, c.dir,
          c.children.map (fun g => (g.dir, g.children.map QTreeWidgetItem.dir)),
          truncShape envWorkExpanded 1 c)))
      = some [(10, 1, [(3, [4])], false), (5, 2, [], true)] ∧
    (envWorkLocked 0).subDirs = [1, 2] ∧ (envWorkLocked 1).subDirs = [3] ∧
    (updateItemDirectChildren envWorkLocked 20 10 0 [newItem 5 2]).map
        (fun r => r.1.map (fun c => (c.ptr, c.dir,
          c.children.map (fun g => (g.dir, g.children.map QTreeWidgetItem.dir)),
          truncShape envWorkLocked 1 c)))
      = some [(10, 1, [], false), (5, 2, [], true)] :=
  ⟨by decide, rfl, rfl, rfl, rfl, rfl⟩

/-- C4: on a finite directory tree, for a parent whose UI children are distinct items of
pairwise distinct directories and a ground truth of pairwise distinct sub-directories, every
child `C` whose directory is flagged expanded, which has materialized children and whose
directory is in the ground truth is, after `updateItemDirectChildren(parent)`, still a child
and expanded in the view, and so is every item below `C` whose directory is flagged expanded
and which has children. -/
theorem updateItemDirectChildren_sticky (env : Env) (rank : Nat → Nat)
    (hrank : ∀ d c, c ∈ (env d).subDirs → rank c < rank d) (parentDir next : Nat)
    (children : List QTreeWidgetItem)
    (hdirs : (children.map QTreeWidgetItem.dir).Nodup)
    (hptrs : (children.map QTreeWidgetItem.ptr).Nodup)
    (hnext : ∀ c ∈ children, c.ptr < next)
    (htruth : (env parentDir).subDirs.Nodup) :
    ∃ bound, ∀ fuel, bound ≤ fuel → ∃ rs n1,
      updateItemDirectChildren env fuel next parentDir children = some (rs, n1) ∧
      ∀ c ∈ children, (env c.dir).expanded = true → c.children ≠ [] →
        c.dir ∈ (env parentDir).subDirs →
        ∃ r ∈ rs, r.ptr = c.ptr ∧ r.isExpanded = true ∧ sticky env c r = true := by
  obtain ⟨bound, h⟩ := updateItemDirectChildren_spec env rank hrank parentDir next children
    hdirs hptrs hnext htruth
  refine ⟨bound, fun fuel hf => ?_⟩
  obtain ⟨rs, n1, h1, _, h3, _⟩ := h fuel hf
  refine ⟨rs, n1, h1, ?_⟩
  intro c hc hflag hkids hcd
  obtain ⟨r, hr, hk, hs⟩ := h3 c hc hcd
  exact ⟨r, hr, kept_ptr hk, ((sticky_iff env c r).1 hs).2.1 hflag hkids, hs⟩

/-- Witness of C4: the root of `envWorkExpanded` with the UI children Personal, Work; Work is
flagged expanded and has the child Drafts. -/
theorem updateItemDirectChildren_sticky_witness :
    (∀ d c, c ∈ (envWorkExpanded d).subDirs → rankWorkExpanded c < rankWorkExpanded d) ∧
    (childrenPersonalWork.map QTreeWidgetItem.dir).Nodup ∧
    (childrenPersonalWork.map QTreeWidgetItem.ptr).Nodup ∧
    (∀ c ∈ childrenPersonalWork, c.ptr < 10) ∧
    (envWorkExpanded 0).subDirs.Nodup ∧
    ∃ bound, ∀ fuel, bound ≤ fuel → ∃ rs n1,
      updateItemDirectChildren envWorkExpanded fuel 10 0 childrenPersonalWork
        = some (rs, n1) ∧
      ∀ c ∈ childrenPersonalWork, (envWorkExpanded c.dir).expanded = true →
        c.children ≠ [] → c.dir ∈ (envWorkExpanded 0).subDirs →
        ∃ r ∈ rs, r.ptr = c.ptr ∧ r.isExpanded = true ∧ sticky envWorkExpanded c r = true :=
  ⟨rankWorkExpanded_lt, by decide, by decide, by decide, by decide,
    updateItemDirectChildren_sticky envWorkExpanded rankWorkExpanded rankWorkExpanded_lt
      0 10 childrenPersonalWork (by decide) (by decide) (by decide) (by decide)⟩

/-! ## Locate -/

/-- C9: `locateDirectory(d)` returns false and leaves the widget, with its current item, as
it is when `d` is null, belongs to a different notebook, or is the root directory of the
notebook.  On a finite directory tree, for a widget of distinct items and a directory `d`
below the root of the notebook through the directories `above` (each the parent of the next,
all in the notebook, all opening), when the top-level items mirror the sub-directories of the
root and so do the children of the materialized items of `above`, `locateDirectory(d)`
returns true, and the current item is then an item of the widget whose directory is `d`. -/
theorem locateDirectory_spec (env : Env) :
    (∀ (t : VDirectoryTree) (p_directory : Option Nat) (fuel : Nat), 0 < fuel →
      (p_directory = none ∨ ∃ d, p_directory = some d ∧
        ((env d).notebook ≠ t.notebook ∨ d = t.rootDir)) →
      locateDirectory env fuel t p_directory = some (t, false)) ∧
    (∀ (rank : Nat → Nat), (∀ d c, c ∈ (env d).subDirs → rank c < rank d) →
      ∀ (t : VDirectoryTree) (above : List Nat) (d : Nat),
        chainDown env t.notebook t.rootDir t.rootDir (above ++ [d]) →
        mirrorsAlong env t.rootDir t.topLevel (above ++ [d]) →
        WellFormed t →
        ∃ bound, ∀ fuel, bound ≤ fuel → ∃ t1 item,
          locateDirectory env fuel t (some d) = some (t1, true) ∧
          t1.current = some item.ptr ∧
          findInItems item.ptr t1.topLevel = some item ∧ item.dir = d) := by
  constructor
  · intro t od fuel hf h
    rcases h with rfl | ⟨d, rfl, h⟩
    · rfl
    · unfold locateDirectory
      dsimp only
      by_cases hnb : (env d).notebook ≠ t.notebook
      · rw [if_pos hnb]
      · rw [if_neg hnb]
        have hroot : d = t.rootDir := h.resolve_left hnb
        obtain ⟨f, rfl⟩ : ∃ f, fuel = f + 1 := ⟨fuel - 1, by omega⟩
        rw [expandToVDirectory, if_pos (Or.inr hroot)]
  · intro rank hrank t above d hch hmi hwf
    refine ⟨above.length + 4 * rank t.rootDir + 5, fun fuel hf => ?_⟩
    obtain ⟨t1, it, hex, hin, hd, hwf1, _, e1, _⟩ :=
      expandToVDirectory_spec env rank hrank above d [] t fuel hch hmi hwf hf
    have hnb : (env d).notebook = t.notebook :=
      (chainDown_facts env _ _ above t.rootDir d [] hch).2.2.1
    refine ⟨setCurrentItem t1 it.ptr, it, ?_, by simp, ?_, hd⟩
    · unfold locateDirectory
      dsimp only
      rw [if_neg (by simp [hnb]), hex]
    · rw [setCurrentItem_topLevel]
      exact findInItems_of_mem hwf1.1 hin

/-- The chain root, Work, Drafts of the sample notebook. -/
theorem chainDown_drafts :
    chainDown envNotebook treeWorkPersonal.notebook treeWorkPersonal.rootDir
      treeWorkPersonal.rootDir ([1] ++ [3]) := by
  simp [chainDown, envNotebook, treeWorkPersonal]

/-- The top-level items of `treeWorkPersonal` mirror the root; Work has no children yet. -/
theorem mirrorsAlong_drafts :
    mirrorsAlong envNotebook treeWorkPersonal.rootDir treeWorkPersonal.topLevel ([1] ++ [3]) := by
  simp [mirrorsAlong, envNotebook, treeWorkPersonal, newItem]

/-- The widget `treeWorkPersonal` is well formed. -/
theorem wellFormed_treeWorkPersonal : WellFormed treeWorkPersonal := by
  unfold WellFormed
  constructor <;> decide

/-- Witness of C9 on the sample notebook: Drafts is located in a widget that shows Work and
Personal and has not materialized the children of Work. -/
theorem locateDirectory_spec_witness :
    (∀ d c, c ∈ (envNotebook d).subDirs → rankNotebook c < rankNotebook d) ∧
    chainDown envNotebook treeWorkPersonal.notebook treeWorkPersonal.rootDir
      treeWorkPersonal.rootDir ([1] ++ [3]) ∧
    mirrorsAlong envNotebook treeWorkPersonal.rootDir treeWorkPersonal.topLevel ([1] ++ [3]) ∧
    WellFormed treeWorkPersonal ∧
    (∃ bound, ∀ fuel, bound ≤ fuel → ∃ t1 item,
      locateDirectory envNotebook fuel treeWorkPersonal (some 3) = some (t1, true) ∧
      t1.current = some item.ptr ∧
      findInItems item.ptr t1.topLevel = some item ∧ item.dir = 3) ∧
    locateDirectory envNotebook 20 treeWorkPersonal (some 3) =
      some (⟨0, 0, [.mk 0 1 false false [newItem 2 3], newItem 1 2], some 2, some 3, 3, 0⟩,
        true) :=
  ⟨rankNotebook_lt, chainDown_drafts, mirrorsAlong_drafts, wellFormed_treeWorkPersonal,
    (locateDirectory_spec envNotebook).2 rankNotebook rankNotebook_lt treeWorkPersonal [1] 3
      chainDown_drafts mirrorsAlong_drafts wellFormed_treeWorkPersonal,
    rfl⟩

/-! ## The clipboard: lemmas -/

/-- The value of `toInt32` is in the range of `int`. -/
theorem toInt32_range (bits : Nat) :
    -2147483648 ≤ toInt32 bits ∧ toInt32 bits ≤ 2147483647 := by
  have h : bits % 2 ^ 32 < 2 ^ 32 := Nat.mod_lt _ (by norm_num)
  unfold toInt32
  split <;> constructor <;> omega

/-- The call `toInt()` gives back a whole number in the range of `int`. -/
theorem toInt_double (n : Int) (h : -2147483648 ≤ n ∧ n ≤ 2147483647) :
    QJsonValue.toInt (some (.double (some n))) = n := by
  simp [QJsonValue.toInt, h.1, h.2]

/-- Reading the key just assigned gives the value assigned. -/
theorem get_set_self (obj : QJsonObject) (k : String) (v : QJsonValue) :
    QJsonObject.get (QJsonObject.set obj k v) k = some v := by
  simp [QJsonObject.get, QJsonObject.set, List.lookup]

/-- Dropping the entries of one key does not change what another key reads. -/
theorem lookup_filter_ne (obj : QJsonObject) (k k2 : String) (h : k2 ≠ k) :
    (obj.filter (fun e => e.1 != k)).lookup k2 = obj.lookup k2 := by
  induction obj with
  | nil => rfl
  | cons e es ih =>
    obtain ⟨a, b⟩ := e
    by_cases ha : a = k
    · subst ha
      have h1 : (k2 == a) = false := by simpa using h
      simp [List.filter, List.lookup, h1, ih]
    · have h1 : (a != k) = true := by simpa using ha
      simp only [List.filter, h1, List.lookup, ih]

/-- Assigning one key does not change what another key reads. -/
theorem get_set_of_ne (obj : QJsonObject) (k k2 : String) (v : QJsonValue) (h : k2 ≠ k) :
    QJsonObject.get (QJsonObject.set obj k v) k2 = QJsonObject.get obj k2 := by
  have h1 : (k2 == k) = false := by simpa using h
  simp only [QJsonObject.get, QJsonObject.set, List.lookup, h1, lookup_filter_ne obj k k2 h]

/-- The call `contains(key)` says whether `obj[key]` is defined. -/
theorem contains_eq_get (obj : QJsonObject) (k : String) :
    QJsonObject.contains obj k = (QJsonObject.get obj k).isSome := rfl


/-- A payload that `pasteAvailable` accepts carries the current token. -/
theorem pasteAvailable_token (cfg : ClipboardConfig) (token : Int)
    (clipboard : Option QJsonValue) (h : pasteAvailable cfg token clipboard = true) :
    QJsonValue.toInt (QJsonObject.get (clipboardToJson clipboard) cfg.c_magic) = token := by
  unfold pasteAvailable at h
  simp only [] at h
  split_ifs at h with h1 h2 h3 h4 h5
  have h6 : token
      = QJsonValue.toInt (QJsonObject.get (clipboardToJson clipboard) cfg.c_magic) := by
    simpa [checkMagic] using h5
  exact h6.symm

/-- The paste loop does nothing for paths of the destination itself and, in a cut, of its
children. -/
theorem pasteLoop_self (co : Collaborators) (fuel dest : Nat) (p_isCut : Bool) (s : World)
    (n : Nat) : ∀ paths : List String,
    (∀ path ∈ paths, ∃ dir, s.dirs.getInternalDirectory path = some dir ∧
      (dir = dest ∨ (p_isCut = true ∧ (s.dirs.env dir).parent = some dest))) →
    pasteLoop co fuel dest p_isCut s n paths = some (s, n)
  | [], _ => by rw [pasteLoop]
  | path :: rest, h => by
    obtain ⟨dir, hd, hcase⟩ := h path (List.mem_cons_self _ _)
    have h1 : pasteOne co fuel dest p_isCut s n path = some (s, n) := by
      unfold pasteOne
      rw [hd]
      dsimp only
      by_cases he : dir = dest
      · rw [if_pos he]
      · rw [if_neg he]
        rcases hcase with hcase | ⟨hc, hp⟩
        · exact absurd hcase he
        · rw [if_pos ⟨hp, hc⟩]
    rw [pasteLoop, h1]
    exact pasteLoop_self co fuel dest p_isCut s n rest
      (fun p hp => h p (List.mem_cons_of_mem _ hp))

/-- The paste loop leaves the widget alone when no copy hands back a directory. -/
theorem pasteLoop_no_dest (co : Collaborators)
    (hco : ∀ ds dest name src cut, (co.copyDirectory ds dest name src cut).2.2 = none)
    (fuel dest : Nat) (p_isCut : Bool) :
    ∀ (paths : List String) (s : World) (n : Nat),
      ∃ s1, pasteLoop co fuel dest p_isCut s n paths = some (s1, n) ∧
        s1.tree = s.tree ∧ s1.clipboard = s.clipboard ∧
        ∃ extra, s1.log = s.log ++ extra ∧
          ∀ item, Event.updateItemDirectChildren item ∉ extra
  | [], s, n => ⟨s, by rw [pasteLoop], rfl, rfl, [], by simp, by simp⟩
  | path :: rest, s, n => by
    have h1 : ∃ s1, pasteOne co fuel dest p_isCut s n path = some (s1, n) ∧
        s1.tree = s.tree ∧ s1.clipboard = s.clipboard ∧
        ∃ extra, s1.log = s.log ++ extra ∧
          ∀ item, Event.updateItemDirectChildren item ∉ extra := by
      unfold pasteOne
      cases hd : s.dirs.getInternalDirectory path with
      | none => exact ⟨_, rfl, rfl, rfl, [Event.warnNotInternal path], rfl, by simp⟩
      | some dir =>
        dsimp only
        by_cases he : dir = dest
        · rw [if_pos he]
          exact ⟨s, rfl, rfl, rfl, [], by simp, by simp⟩
        · rw [if_neg he]
          by_cases hp : (s.dirs.env dir).parent = some dest ∧ p_isCut = true
          · rw [if_pos hp]
            exact ⟨s, rfl, rfl, rfl, [], by simp, by simp⟩
          · rw [if_neg hp]
            have hnone : (pasteCopy co dest p_isCut s dir path).2 = none := hco _ _ _ _ _
            cases hr : pasteCopy co dest p_isCut s dir path with
            | mk s1 od =>
              rw [hr] at hnone
              simp only at hnone
              subst hnone
              have hs1 : s1 = (pasteCopy co dest p_isCut s dir path).1 := by rw [hr]
              refine ⟨s1, rfl, ?_, ?_, ?_⟩
              · rw [hs1]; rfl
              · rw [hs1]; rfl
              · rw [hs1]
                refine ⟨_, by simp only [pasteCopy, List.append_assoc]; rfl, ?_⟩
                intro item
                simp only [List.singleton_append, List.mem_cons, List.mem_ite_nil_left,
                  List.mem_singleton, reduceCtorEq, false_or, not_and]
                intro _ h
                cases h
    obtain ⟨s1, hs1, ht1, hc1, e1, hl1, hn1⟩ := h1
    obtain ⟨s2, hs2, ht2, hc2, e2, hl2, hn2⟩ :=
      pasteLoop_no_dest co hco fuel dest p_isCut rest s1 n
    refine ⟨s2, by rw [pasteLoop, hs1]; exact hs2, ht2.trans ht1, hc2.trans hc1, e1 ++ e2,
      by rw [hl2, hl1, List.append_assoc], ?_⟩
    intro item hmem
    rcases List.mem_append.1 hmem with h | h
    · exact hn1 item h
    · exact hn2 item h

/-! ## More fuel gives the same result -/

/-- A loop that returns with one body returns the same with a body that returns, on the
children of the loop, whatever the first one returns. -/
theorem forItems_of_imp_mem {f g : Nat → QTreeWidgetItem → Option (QTreeWidgetItem × Nat)} :
    ∀ (cs : List QTreeWidgetItem) (next : Nat) (r : List QTreeWidgetItem × Nat),
      (∀ c ∈ cs, ∀ nx r, f nx c = some r → g nx c = some r) →
      forItems f next cs = some r → forItems g next cs = some r
  | [], _, _, _, h => h
  | c :: cs, next, r, hfg, h => by
    simp only [forItems] at h ⊢
    cases hc : f next c with
    | none => simp [hc] at h
    | some q =>
      obtain ⟨c1, m1⟩ := q
      simp only [hc] at h
      rw [hfg c (List.mem_cons_self _ _) _ _ hc]
      cases hcs : forItems f m1 cs with
      | none => simp [hcs] at h
      | some q2 =>
        simp only [hcs] at h
        simp only [forItems_of_imp_mem cs m1 q2
          (fun x hx => hfg x (List.mem_cons_of_mem _ hx)) hcs]
        exact h

/-- The loop `forItems`, as `forItems_of_imp_mem` for a body that is covered everywhere. -/
theorem forItems_of_imp {f g : Nat → QTreeWidgetItem → Option (QTreeWidgetItem × Nat)}
    (hfg : ∀ nx c r, f nx c = some r → g nx c = some r)
    (cs : List QTreeWidgetItem) (next : Nat) (r : List QTreeWidgetItem × Nat)
    (h : forItems f next cs = some r) : forItems g next cs = some r :=
  forItems_of_imp_mem cs next r (fun c _ nx r hr => hfg nx c r hr) h

/-- The loop over new items, as `forItems_of_imp`. -/
theorem forDirs_of_imp {f g : Nat → QTreeWidgetItem → Option (QTreeWidgetItem × Nat)}
    (hfg : ∀ nx c r, f nx c = some r → g nx c = some r) :
    ∀ (ds : List Nat) (next : Nat) (r : List QTreeWidgetItem × Nat),
      forDirs f next ds = some r → forDirs g next ds = some r
  | [], _, _, h => h
  | d :: ds, next, r, h => by
    simp only [forDirs] at h ⊢
    cases hc : f (next + 1) (newItem next d) with
    | none => simp [hc] at h
    | some q =>
      obtain ⟨c1, m1⟩ := q
      simp only [hc] at h
      rw [hfg _ _ _ hc]
      cases hcs : forDirs f m1 ds with
      | none => simp [hcs] at h
      | some q2 =>
        simp only [hcs] at h
        simp only [forDirs_of_imp hfg ds m1 q2 hcs]
        exact h

/-- One more unit of fuel does not change what a call of the block returns. -/
theorem fuel_succ (env : Env) : ∀ fuel : Nat,
    (∀ nx it d r, buildSubTree env fuel nx it d = some r →
      buildSubTree env (fuel + 1) nx it d = some r) ∧
    (∀ nx it r, expandItem env fuel nx it = some r →
      expandItem env (fuel + 1) nx it = some r) ∧
    (∀ nx it r, handleItemExpanded env fuel nx it = some r →
      handleItemExpanded env (fuel + 1) nx it = some r) ∧
    (∀ nx it r, buildChildren env fuel nx it = some r →
      buildChildren env (fuel + 1) nx it = some r)
  | 0 => by
    refine ⟨?_, ?_, ?_, ?_⟩
    · intro nx it d r h; simp [buildSubTree] at h
    · intro nx it r h; simp [expandItem] at h
    · intro nx it r h; simp [handleItemExpanded] at h
    · intro nx it r h; simp [buildChildren] at h
  | fuel + 1 => by
    obtain ⟨ih1, ih2, ih3, ih4⟩ := fuel_succ env fuel
    refine ⟨?_, ?_, ?_, ?_⟩
    · intro nx it d r h
      rw [buildSubTree] at h ⊢
      by_cases hd : d = 0
      · rw [if_pos hd] at h ⊢; exact h
      · rw [if_neg hd] at h ⊢
        by_cases ho : (env it.dir).openOk = false
        · rw [if_pos ho] at h ⊢; exact h
        · rw [if_neg ho] at h ⊢
          dsimp only at h ⊢
          by_cases hc : it.childCount > 0
          · rw [if_pos hc] at h ⊢
            cases hb : forItems (fun nx c => buildSubTree env fuel nx c (d - 1)) nx
                it.children with
            | none => rw [hb] at h; cases h
            | some q =>
              rw [hb] at h
              rw [forItems_of_imp (g := fun nx c => buildSubTree env (fuel + 1) nx c (d - 1))
                (fun nx c r hr => ih1 nx c (d - 1) r hr) _ _ _ hb]
              dsimp only at h ⊢
              by_cases he : (env it.dir).expanded = true
              · rw [if_pos he] at h ⊢; exact ih2 _ _ _ h
              · rw [if_neg he] at h ⊢; exact h
          · rw [if_neg hc] at h ⊢
            cases hb : forDirs (fun nx c => buildSubTree env fuel nx c (d - 1)) nx
                (env it.dir).subDirs with
            | none => rw [hb] at h; cases h
            | some q =>
              rw [hb] at h
              rw [forDirs_of_imp (g := fun nx c => buildSubTree env (fuel + 1) nx c (d - 1))
                (fun nx c r hr => ih1 nx c (d - 1) r hr) _ _ _ hb]
              dsimp only at h ⊢
              by_cases he : (env it.dir).expanded = true
              · rw [if_pos he] at h ⊢; exact ih2 _ _ _ h
              · rw [if_neg he] at h ⊢; exact h
    · intro nx it r h
      rw [expandItem] at h ⊢
      by_cases he : it.isExpanded = true
      · rw [if_pos he] at h ⊢; exact h
      · rw [if_neg he] at h ⊢; exact ih3 _ _ _ h
    · intro nx it r h
      rw [handleItemExpanded] at h ⊢
      exact ih4 _ _ _ h
    · intro nx it r h
      rw [buildChildren] at h ⊢
      cases hb : forItems
          (fun nx c => if c.childCount > 0 then some (c, nx) else buildSubTree env fuel nx c 1)
          nx it.children with
      | none => rw [hb] at h; cases h
      | some q =>
        rw [hb] at h
        rw [forItems_of_imp
          (g := fun nx c =>
            if c.childCount > 0 then some (c, nx) else buildSubTree env (fuel + 1) nx c 1)
          (fun nx c r hr => by
            by_cases hc : c.childCount > 0
            · simp only [if_pos hc] at hr ⊢; exact hr
            · simp only [if_neg hc] at hr ⊢; exact ih1 _ _ _ _ hr) _ _ _ hb]
        exact h

/-- More fuel does not change what `buildSubTree` returns. -/
theorem buildSubTree_fuel_le (env : Env) {fuel fuel2 : Nat} (hle : fuel ≤ fuel2) {nx : Nat}
    {it : QTreeWidgetItem} {d : Int} {r : QTreeWidgetItem × Nat}
    (h : buildSubTree env fuel nx it d = some r) : buildSubTree env fuel2 nx it d = some r := by
  induction hle with
  | refl => exact h
  | step _ ih => exact (fuel_succ env _).1 _ _ _ _ ih

/-- More fuel does not change what `expandItem` returns. -/
theorem expandItem_fuel_le (env : Env) {fuel fuel2 : Nat} (hle : fuel ≤ fuel2) {nx : Nat}
    {it : QTreeWidgetItem} {r : QTreeWidgetItem × Nat}
    (h : expandItem env fuel nx it = some r) : expandItem env fuel2 nx it = some r := by
  induction hle with
  | refl => exact h
  | step _ ih => exact (fuel_succ env _).2.1 _ _ _ ih

/-- More fuel does not change what `expandSubTree` returns. -/
theorem expandSubTree_fuel_le (env : Env) {fuel fuel2 : Nat} (hle : fuel ≤ fuel2) :
    ∀ (it : QTreeWidgetItem) (n : Nat) (r : QTreeWidgetItem × Nat),
      expandSubTree env fuel n it = some r → expandSubTree env fuel2 n it = some r := by
  intro it
  induction it using QTreeWidgetItem.induct with
  | h p d e hd cs0 ih =>
    intro n r h
    obtain ⟨r1, n1⟩ := r
    obtain ⟨cs, m, hl, hfin⟩ := expandSubTree_some h
    have hl2 : forItems (expandSubTree env fuel2) n (QTreeWidgetItem.mk p d e hd cs0).children
        = some (cs, m) :=
      forItems_of_imp_mem _ _ _ (fun c hc nx r hr => ih c hc nx r hr) hl
    rw [expandSubTree_eq_of_loop hl2]
    rcases hfin with ⟨hflag, he⟩ | ⟨hflag, rfl, rfl⟩
    · rw [if_pos hflag]
      exact expandItem_fuel_le env hle he
    · rw [if_neg (by rw [hflag]; simp)]

/-- More fuel does not change what the second loop of `updateItemDirectChildren` returns. -/
theorem updateLoop_fuel_le (env : Env) {fuel fuel2 : Nat} (hle : fuel ≤ fuel2) :
    ∀ (dirs : List Nat) (i : Nat) (cs : List QTreeWidgetItem) (m : ItemDirMap) (next : Nat)
      (r : List QTreeWidgetItem × ItemDirMap × Nat),
      updateLoop env fuel i dirs cs m next = some r →
      updateLoop env fuel2 i dirs cs m next = some r
  | [], i, cs, m, next, r, h => by
    rw [updateLoop] at h ⊢
    exact h
  | dir :: dirs, i, cs, m, next, r, h => by
    rw [updateLoop] at h ⊢
    cases hv : ItemDirMap.value m dir with
    | some p =>
      rw [hv] at h
      dsimp only at h ⊢
      cases hf : findChild p cs with
      | some item =>
        rw [hf] at h
        dsimp only at h ⊢
        by_cases hi : i ≤ (removeChild p cs).length
        · rw [if_pos hi] at h ⊢
          cases he : expandSubTree env fuel next (collapseAll item) with
          | none => rw [he] at h; cases h
          | some q =>
            rw [he] at h
            rw [expandSubTree_fuel_le env hle _ _ _ he]
            dsimp only at h ⊢
            exact updateLoop_fuel_le env hle dirs _ _ _ _ r h
        · rw [if_neg hi] at h ⊢
          exact updateLoop_fuel_le env hle dirs _ _ _ _ r h
      | none =>
        rw [hf] at h
        dsimp only at h ⊢
        exact updateLoop_fuel_le env hle dirs _ _ _ _ r h
    | none =>
      rw [hv] at h
      dsimp only at h ⊢
      cases hb : buildSubTree env fuel (next + 1) (newItem next dir) 1 with
      | none => rw [hb] at h; cases h
      | some q =>
        rw [hb] at h
        rw [buildSubTree_fuel_le env hle hb]
        dsimp only at h ⊢
        cases he : expandSubTree env fuel q.2 q.1 with
        | none => rw [he] at h; cases h
        | some q2 =>
          rw [he] at h
          rw [expandSubTree_fuel_le env hle _ _ _ he]
          dsimp only at h ⊢
          exact updateLoop_fuel_le env hle dirs _ _ _ _ r h

/-- More fuel does not change what `updateItemDirectChildren` returns. -/
theorem updateItemDirectChildren_fuel_le (env : Env) {fuel fuel2 : Nat} (hle : fuel ≤ fuel2)
    {next parentDir : Nat} {children : List QTreeWidgetItem}
    {r : List QTreeWidgetItem × Nat}
    (h : updateItemDirectChildren env fuel next parentDir children = some r) :
    updateItemDirectChildren env fuel2 next parentDir children = some r := by
  unfold updateItemDirectChildren at h ⊢
  cases hl : updateLoop env fuel 0 (env parentDir).subDirs children
      (buildItemDirMap children []) next with
  | none => rw [hl] at h; cases h
  | some q =>
    rw [hl] at h
    rw [updateLoop_fuel_le env hle _ _ _ _ _ _ hl]
    exact h

/-- More fuel does not change what `findVDirectory` returns. -/
theorem findVDirectory_fuel_succ (env : Env) (t : VDirectoryTree) :
    ∀ (fuel : Nat) (od : Option Nat) (r : Option Nat × Bool),
      findVDirectory env t fuel od = some r → findVDirectory env t (fuel + 1) od = some r
  | 0, od, r, h => by simp [findVDirectory] at h
  | fuel + 1, none, r, h => by
    rw [findVDirectory] at h ⊢
    exact h
  | fuel + 1, some d, r, h => by
    rw [findVDirectory] at h ⊢
    by_cases h1 : (env d).notebook ≠ t.notebook
    · rw [if_pos h1] at h ⊢; exact h
    · rw [if_neg h1] at h ⊢
      by_cases h2 : d = t.rootDir
      · rw [if_pos h2] at h ⊢; exact h
      · rw [if_neg h2] at h ⊢
        cases hp : findVDirectory env t fuel (env d).parent with
        | none => rw [hp] at h; cases h
        | some q =>
          rw [hp] at h
          rw [findVDirectory_fuel_succ env t fuel _ _ hp]
          exact h

/-- More fuel does not change what `findVDirectory` returns. -/
theorem findVDirectory_fuel_le (env : Env) (t : VDirectoryTree) {fuel fuel2 : Nat}
    (hle : fuel ≤ fuel2) {od : Option Nat} {r : Option Nat × Bool}
    (h : findVDirectory env t fuel od = some r) : findVDirectory env t fuel2 od = some r := by
  induction hle with
  | refl => exact h
  | step _ ih => exact findVDirectory_fuel_succ env t _ _ _ ih

/-! ## The reconciliation returns on a finite directory tree -/

/-- An item of the list after `insertChild` is the item put in or an item of the list. -/
theorem mem_insertChild_imp {i : Nat} {item x : QTreeWidgetItem} {cs : List QTreeWidgetItem}
    (h : x ∈ insertChild i item cs) : x = item ∨ x ∈ cs := by
  unfold insertChild at h
  split at h
  · rcases List.mem_append.1 h with h1 | h1
    · exact Or.inr (List.mem_of_mem_take h1)
    · rcases List.mem_cons.1 h1 with h2 | h2
      · exact Or.inl h2
      · exact Or.inr (List.mem_of_mem_drop h2)
  · exact Or.inr h

/-- On a finite directory tree the second loop of `updateItemDirectChildren` returns, whatever
the children and the hash are, when the fuel covers the bound `hb` of the children and the
rank of the sub-directories. -/
theorem updateLoop_returns (env : Env) (rank : Nat → Nat)
    (hrank : ∀ d c, c ∈ (env d).subDirs → rank c < rank d) (fuel m : Nat)
    (hf : 4 * m + 4 ≤ fuel) :
    ∀ (dirs : List Nat) (i : Nat) (cs : List QTreeWidgetItem) (mp : ItemDirMap) (next : Nat),
      (∀ d ∈ dirs, rank d ≤ m) → (∀ c ∈ cs, hb rank c ≤ m) →
      ∃ r, updateLoop env fuel i dirs cs mp next = some r
  | [], i, cs, mp, next, _, _ => ⟨_, by rw [updateLoop]⟩
  | dir :: dirs, i, cs, mp, next, hd, hc => by
    have hd2 : ∀ d ∈ dirs, rank d ≤ m := fun d h => hd d (List.mem_cons_of_mem _ h)
    rw [updateLoop]
    cases hv : ItemDirMap.value mp dir with
    | some p =>
      dsimp only
      cases hfc : findChild p cs with
      | some item =>
        dsimp only
        have hrem : ∀ c ∈ removeChild p cs, hb rank c ≤ m :=
          fun c h => hc c ((removeChild_sublist cs p).subset h)
        by_cases hi : i ≤ (removeChild p cs).length
        · rw [if_pos hi]
          have hitem : hb rank (collapseAll item) ≤ m := by
            rw [hb_collapseAll]
            exact hc item (findChild_some hfc).1
          obtain ⟨⟨item1, n1⟩, he⟩ :=
            expandSubTree_returns env rank hrank fuel m (by omega) (collapseAll item) next hitem
          rw [he]
          dsimp only
          have h1 := (expandSubTree_spec env rank hrank fuel _ _ _ _ he).2.2.2
          refine updateLoop_returns env rank hrank fuel m hf dirs _ _ _ _ hd2 ?_
          intro c hcm
          rcases mem_insertChild_imp hcm with rfl | h2
          · omega
          · exact hrem c h2
        · rw [if_neg hi]
          exact updateLoop_returns env rank hrank fuel m hf dirs _ _ _ _ hd2 hrem
      | none =>
        dsimp only
        exact updateLoop_returns env rank hrank fuel m hf dirs _ _ _ _ hd2 hc
    | none =>
      dsimp only
      have hnew : hb rank (newItem next dir) ≤ m := by
        rw [hb_newItem]
        exact hd dir (List.mem_cons_self _ _)
      obtain ⟨⟨item1, n1⟩, hb1⟩ :=
        (returns_of_rank env rank hrank m (newItem next dir) hnew).1 fuel (next + 1) 1 hf
      rw [hb1]
      dsimp only
      have h1 : hb rank item1 ≤ m :=
        le_trans ((hb_le_of_some env rank hrank fuel).1 _ _ _ _ _ hb1) hnew
      obtain ⟨⟨item2, n2⟩, he⟩ :=
        expandSubTree_returns env rank hrank fuel m (by omega) item1 n1 h1
      rw [he]
      dsimp only
      have h2 := (expandSubTree_spec env rank hrank fuel _ _ _ _ he).2.2.2
      refine updateLoop_returns env rank hrank fuel m hf dirs _ _ _ _ hd2 ?_
      intro c hcm
      rcases List.mem_append.1 hcm with h3 | h3
      · exact hc c h3
      · rw [List.mem_singleton.1 h3]
        omega

/-- On a finite directory tree `updateItemDirectChildren` returns for every child list, and
more fuel gives the same result. -/
theorem updateItemDirectChildren_returns (env : Env) (rank : Nat → Nat)
    (hrank : ∀ d c, c ∈ (env d).subDirs → rank c < rank d) (next parentDir : Nat)
    (children : List QTreeWidgetItem) :
    ∃ fuel0 r, ∀ fuel, fuel0 ≤ fuel →
      updateItemDirectChildren env fuel next parentDir children = some r := by
  let m := hbList rank children + rank parentDir
  have hc : ∀ c ∈ children, hb rank c ≤ m := by
    intro c h
    have := (hbList_le_iff rank (hbList rank children) children).1 (le_refl _) c h
    omega
  have hd : ∀ d ∈ (env parentDir).subDirs, rank d ≤ m := by
    intro d h
    have := hrank _ _ h
    omega
  obtain ⟨⟨cs, mp, n1⟩, hl⟩ := updateLoop_returns env rank hrank (4 * m + 4) m (le_refl _)
    (env parentDir).subDirs 0 children (buildItemDirMap children []) next hd hc
  have h0 : updateItemDirectChildren env (4 * m + 4) next parentDir children
      = some (deleteLeftItems mp cs, n1) := by
    unfold updateItemDirectChildren
    rw [hl]
  exact ⟨4 * m + 4, _, fun fuel hle => updateItemDirectChildren_fuel_le env hle h0⟩

/-- On a finite directory tree `findVDirectory` returns, and more fuel gives the same
result. -/
theorem findVDirectory_stable (env : Env) (hfin : FiniteTree env) (t : VDirectoryTree)
    (od : Option Nat) :
    ∃ fuel0 r, ∀ fuel, fuel0 ≤ fuel → findVDirectory env t fuel od = some r := by
  obtain ⟨_, level, hlevel⟩ := hfin
  cases od with
  | none =>
    exact ⟨1, (none, false), fun fuel h => by
      obtain ⟨f, rfl⟩ : ∃ f, fuel = f + 1 := ⟨fuel - 1, by omega⟩
      rw [findVDirectory]⟩
  | some d =>
    obtain ⟨r, hr⟩ := findVDirectory_returns env t level hlevel (level d + 2) (some d)
      (fun x hx => by cases hx; omega) (by omega)
    exact ⟨level d + 2, r, fun fuel h => findVDirectory_fuel_le env t h hr⟩

/-- On a finite directory tree the reconciliation of an item of the widget returns, and more
fuel gives the same result. -/
theorem updateItemDirectChildrenOf_stable (env : Env) (hfin : FiniteTree env)
    (t : VDirectoryTree) (p_item : Option Nat) :
    ∃ fuel0 r, ∀ fuel, fuel0 ≤ fuel →
      updateItemDirectChildrenOf env fuel t p_item = some r := by
  obtain ⟨⟨rank, hrank⟩, _⟩ := hfin
  cases p_item with
  | none =>
    obtain ⟨f0, ⟨cs, n1⟩, h⟩ :=
      updateItemDirectChildren_returns env rank hrank t.next t.rootDir t.topLevel
    exact ⟨f0, { t with topLevel := cs, next := n1 }, fun fuel hle => by
      simp only [updateItemDirectChildrenOf, h fuel hle]⟩
  | some p =>
    cases hf : findInItems p t.topLevel with
    | none =>
      exact ⟨0, t, fun fuel _ => by simp only [updateItemDirectChildrenOf, hf]⟩
    | some item =>
      obtain ⟨f0, ⟨cs, n1⟩, h⟩ :=
        updateItemDirectChildren_returns env rank hrank t.next item.dir item.children
      exact ⟨f0, { t with
          topLevel := replaceInItems p (item.setChildren cs) t.topLevel, next := n1 },
        fun fuel hle => by simp only [updateItemDirectChildrenOf, hf, h fuel hle]⟩

/-- On a finite directory tree the look-up and reconciliation of a directory returns, with
the directories and the token as they were. -/
theorem updateShownChildren_stable (p_dir : Option Nat) (s : World)
    (hfin : FiniteTree s.dirs.env) :
    ∃ fuel0 r, (∀ fuel, fuel0 ≤ fuel → updateShownChildren fuel p_dir s = some r) ∧
      r.dirs = s.dirs ∧ r.clipboard = s.clipboard := by
  obtain ⟨f1, ⟨item, isWidget⟩, h1⟩ := findVDirectory_stable s.dirs.env hfin s.tree p_dir
  by_cases hc : (item.isSome || isWidget) = true
  · obtain ⟨f2, t1, h2⟩ := updateItemDirectChildrenOf_stable s.dirs.env hfin s.tree item
    refine ⟨max f1 f2,
      { s with tree := t1, log := s.log ++ [Event.updateItemDirectChildren item] },
      fun fuel hle => ?_, rfl, rfl⟩
    simp only [updateShownChildren, h1 fuel (le_trans (le_max_left _ _) hle),
      h2 fuel (le_trans (le_max_right _ _) hle), hc, if_true]
  · refine ⟨f1, s, fun fuel hle => ?_, rfl, rfl⟩
    simp only [updateShownChildren, h1 fuel hle, hc, if_false]
    rfl

/-- On a finite directory tree the update of the widget after a copy returns, with the
directories as they were. -/
theorem pasteUpdate_stable (p_destDir : Nat) (p_isCut : Bool) (paDir : Option Nat)
    (destDir : Nat) (s : World) (hfin : FiniteTree s.dirs.env) :
    ∃ fuel0 r, (∀ fuel, fuel0 ≤ fuel →
        pasteUpdate fuel p_destDir p_isCut paDir destDir s = some r) ∧
      r.dirs = s.dirs ∧ r.clipboard = s.clipboard := by
  obtain ⟨f1, s1, h1, hd1, hc1⟩ := updateShownChildren_stable (some p_destDir) s hfin
  cases p_isCut with
  | false =>
    refine ⟨f1, { s1 with log := s1.log ++ [Event.directoryUpdated destDir] },
      fun fuel hle => ?_, hd1, hc1⟩
    simp only [pasteUpdate, h1 fuel hle, Bool.false_eq_true, if_false]
  | true =>
    obtain ⟨f2, s2, h2, hd2, hc2⟩ :=
      updateShownChildren_stable paDir s1 (by rw [hd1]; exact hfin)
    refine ⟨max f1 f2, { s2 with log := s2.log ++ [Event.directoryUpdated destDir] },
      fun fuel hle => ?_, hd2.trans hd1, hc2.trans hc1⟩
    simp only [pasteUpdate, h1 fuel (le_trans (le_max_left _ _) hle), if_true,
      h2 fuel (le_trans (le_max_right _ _) hle)]

/-- On a finite directory tree that every copy leaves finite, the body of the paste loop
returns and leaves a finite directory tree; more fuel gives the same result. -/
theorem pasteOne_stable (co : Collaborators)
    (hco : ∀ ds dest name src cut, FiniteTree ds.env →
      FiniteTree (co.copyDirectory ds dest name src cut).1.env)
    (p_destDir : Nat) (p_isCut : Bool) (s : World) (n : Nat) (path : String)
    (hfin : FiniteTree s.dirs.env) :
    ∃ fuel0 r, (∀ fuel, fuel0 ≤ fuel →
        pasteOne co fuel p_destDir p_isCut s n path = some r) ∧
      FiniteTree r.1.dirs.env := by
  cases hg : s.dirs.getInternalDirectory path with
  | none =>
    exact ⟨0, ({ s with log := s.log ++ [Event.warnNotInternal path] }, n),
      fun fuel _ => by simp only [pasteOne, hg], hfin⟩
  | some dir =>
    by_cases h1 : dir = p_destDir
    · exact ⟨0, (s, n), fun fuel _ => by simp only [pasteOne, hg, h1, if_true], hfin⟩
    · by_cases h2 : (s.dirs.env dir).parent = some p_destDir ∧ p_isCut = true
      · exact ⟨0, (s, n), fun fuel _ => by simp only [pasteOne, hg, h1, h2, if_false,
          and_self, if_true], hfin⟩
      · have hfin1 : FiniteTree (pasteCopy co p_destDir p_isCut s dir path).1.dirs.env :=
          hco s.dirs p_destDir _ dir p_isCut hfin
        cases hr : pasteCopy co p_destDir p_isCut s dir path with
        | mk s1 od =>
          rw [hr] at hfin1
          cases od with
          | none =>
            exact ⟨0, (s1, n), fun fuel _ => by simp only [pasteOne, hg, h1, h2, if_false, hr],
              hfin1⟩
          | some destDir =>
            obtain ⟨f1, s2, hs2, hd2, _⟩ := pasteUpdate_stable p_destDir p_isCut
              (s.dirs.env dir).parent destDir s1 hfin1
            refine ⟨f1, (s2, n + 1), fun fuel hle => ?_, ?_⟩
            · simp only [pasteOne, hg, h1, h2, if_false, hr, hs2 fuel hle]
            · rw [hd2]
              exact hfin1

/-- On a finite directory tree that every copy leaves finite, the paste loop returns; more
fuel gives the same result. -/
theorem pasteLoop_stable (co : Collaborators)
    (hco : ∀ ds dest name src cut, FiniteTree ds.env →
      FiniteTree (co.copyDirectory ds dest name src cut).1.env)
    (p_destDir : Nat) (p_isCut : Bool) :
    ∀ (paths : List String) (s : World) (n : Nat), FiniteTree s.dirs.env →
      ∃ fuel0 r, ∀ fuel, fuel0 ≤ fuel →
        pasteLoop co fuel p_destDir p_isCut s n paths = some r
  | [], s, n, _ => ⟨0, (s, n), fun _ _ => by rw [pasteLoop]⟩
  | path :: rest, s, n, hfin => by
    obtain ⟨f1, ⟨s1, n1⟩, h1, hfin1⟩ :=
      pasteOne_stable co hco p_destDir p_isCut s n path hfin
    obtain ⟨f2, r, h2⟩ := pasteLoop_stable co hco p_destDir p_isCut rest s1 n1 hfin1
    refine ⟨max f1 f2, r, fun fuel hle => ?_⟩
    rw [pasteLoop, h1 fuel (le_trans (le_max_left _ _) hle)]
    exact h2 fuel (le_trans (le_max_right _ _) hle)

/-! ## The visible rows -/

/-- The loop of `getVisibleChildItems` is the loop of `getVisibleItems`. -/
theorem getVisibleChildLoop_eq : ∀ cs : List QTreeWidgetItem,
    getVisibleChildLoop cs = getVisibleItems cs
  | [] => by rw [getVisibleChildLoop, getVisibleItems]
  | c :: cs => by rw [getVisibleChildLoop, getVisibleItems, getVisibleChildLoop_eq cs]

/-- The rows below an item are the rows of its children when it is shown and expanded. -/
theorem getVisibleChildItems_eq (it : QTreeWidgetItem) :
    getVisibleChildItems it =
      if (!it.isHidden && it.isExpanded) = true then getVisibleItems it.children else [] := by
  cases it with
  | mk p d e h cs =>
    rw [getVisibleChildItems, getVisibleChildLoop_eq]
    rfl

/-- The rows of a list of items, item by item. -/
theorem getVisibleItems_cons (c : QTreeWidgetItem) (cs : List QTreeWidgetItem) :
    getVisibleItems (c :: cs) =
      (if c.isHidden = false then
          c.ptr :: (if c.isExpanded = true then getVisibleItems c.children else [])
        else []) ++ getVisibleItems cs := by
  rw [getVisibleItems, getVisibleChildItems_eq]
  cases hh : c.isHidden <;> cases he : c.isExpanded <;> simp

/-- A row of a list of items is an item of the list that is not hidden, or a row of the
children of such an item that is expanded. -/
theorem mem_getVisibleItems : ∀ (cs : List QTreeWidgetItem) (q : Nat),
    q ∈ getVisibleItems cs ↔
      ∃ c ∈ cs, c.isHidden = false ∧
        (q = c.ptr ∨ (c.isExpanded = true ∧ q ∈ getVisibleItems c.children))
  | [], q => by simp [getVisibleItems]
  | c :: cs, q => by
    rw [getVisibleItems_cons, List.mem_append, mem_getVisibleItems cs q]
    simp only [List.mem_cons, exists_eq_or_imp]
    refine or_congr ?_ Iff.rfl
    cases hh : c.isHidden <;> cases he : c.isExpanded <;> simp

/-- Induction over lists of items: a property holds for every list when it holds for a list
as soon as it holds for the children of every item of the list. -/
theorem items_induct {P : List QTreeWidgetItem → Prop}
    (h : ∀ cs, (∀ c ∈ cs, P c.children) → P cs) : ∀ cs, P cs := by
  have hitem : ∀ it : QTreeWidgetItem, P it.children := by
    intro it
    induction it using QTreeWidgetItem.induct with
    | h p d e hd cs ih => exact h cs ih
  exact fun cs => h cs (fun c _ => hitem c)

/-- The rows are among the addresses of the items, in the order of the depth-first listing. -/
theorem getVisibleItems_sublist : ∀ cs : List QTreeWidgetItem,
    (getVisibleItems cs).Sublist (allPtrs cs) := by
  apply items_induct
  intro cs
  induction cs with
  | nil => intro _; exact List.Sublist.refl _
  | cons c cs ih =>
    intro h
    rw [getVisibleItems_cons, allPtrs_cons, ptrs_nodes]
    refine List.Sublist.append ?_ (ih (fun x hx => h x (List.mem_cons_of_mem _ hx)))
    have hc := h c (List.mem_cons_self _ _)
    by_cases hh : c.isHidden = false
    · rw [if_pos hh]
      refine List.Sublist.cons₂ _ ?_
      by_cases he : c.isExpanded = true
      · rw [if_pos he]; exact hc
      · rw [if_neg he]; exact List.nil_sublist _
    · rw [if_neg hh]; exact List.nil_sublist _

/-- The rows are the shown items. -/
theorem mem_getVisibleItems_iff_isShown : ∀ (cs : List QTreeWidgetItem) (q : Nat),
    q ∈ getVisibleItems cs ↔ IsShown cs q := by
  apply items_induct
  intro cs ih q
  rw [mem_getVisibleItems]
  constructor
  · rintro ⟨c, hc, hh, h | ⟨he, h⟩⟩
    · exact ⟨[], c, ⟨hc, trivial⟩, by simp, hh, h.symm⟩
    · obtain ⟨anc, item, hp, ha, hi, hq⟩ := (ih c hc q).1 h
      refine ⟨c :: anc, item, ⟨hc, hp⟩, ?_, hi, hq⟩
      intro a ham
      rcases List.mem_cons.1 ham with rfl | ham
      · exact ⟨hh, he⟩
      · exact ha a ham
  · rintro ⟨anc, item, hp, ha, hi, hq⟩
    cases anc with
    | nil => exact ⟨item, hp.1, hi, Or.inl hq.symm⟩
    | cons a anc =>
      have h1 := ha a (List.mem_cons_self _ _)
      exact ⟨a, hp.1, h1.1, Or.inr ⟨h1.2, (ih a hp.1 q).2
        ⟨anc, item, hp.2, fun x hx => ha x (List.mem_cons_of_mem _ hx), hi, hq⟩⟩⟩

/-- Two items of a list of distinct items that have an address in common below them are the
same item. -/
theorem eq_of_common_ptr : ∀ (cs : List QTreeWidgetItem), (allPtrs cs).Nodup →
    ∀ t ∈ cs, ∀ t0 ∈ cs, ∀ q, q ∈ (nodes t).map QTreeWidgetItem.ptr →
      q ∈ (nodes t0).map QTreeWidgetItem.ptr → t = t0
  | [], _, _, ht, _, _, _, _, _ => by cases ht
  | c :: cs, hn, t, ht, t0, ht0, q, hq, hq0 => by
    rw [allPtrs_cons, List.nodup_append] at hn
    obtain ⟨_, hn2, hdis⟩ := hn
    have hsub : ∀ x ∈ cs, ∀ y, y ∈ (nodes x).map QTreeWidgetItem.ptr → y ∈ allPtrs cs :=
      fun x hx y hy => ((nodes_sublist_nodesList cs x hx).map _).subset hy
    rcases List.mem_cons.1 ht with h1 | h1
    · rcases List.mem_cons.1 ht0 with h2 | h2
      · rw [h1, h2]
      · rw [h1] at hq
        exact absurd (hsub t0 h2 q hq0) (fun h => hdis hq h)
    · rcases List.mem_cons.1 ht0 with h2 | h2
      · rw [h2] at hq0
        exact absurd (hsub t h1 q hq) (fun h => hdis hq0 h)
      · exact eq_of_common_ptr cs hn2 t h1 t0 h2 q hq hq0

/-- Among distinct items, a row with an address below an item of the list is a row of that
item. -/
theorem mem_getVisibleItems_of_below (cs : List QTreeWidgetItem) (hn : (allPtrs cs).Nodup)
    (t0 : QTreeWidgetItem) (ht0 : t0 ∈ cs) (q : Nat)
    (hq : q ∈ (nodes t0).map QTreeWidgetItem.ptr) :
    q ∈ getVisibleItems cs ↔
      t0.isHidden = false ∧
        (q = t0.ptr ∨ (t0.isExpanded = true ∧ q ∈ getVisibleItems t0.children)) := by
  rw [mem_getVisibleItems]
  constructor
  · rintro ⟨t, ht, hh, h⟩
    have hqt : q ∈ (nodes t).map QTreeWidgetItem.ptr := by
      rw [ptrs_nodes]
      rcases h with h | ⟨_, h⟩
      · rw [h]; exact List.mem_cons_self _ _
      · exact List.mem_cons_of_mem _ ((getVisibleItems_sublist _).subset h)
    have := eq_of_common_ptr cs hn t ht t0 ht0 q hqt hq
    subst this
    exact ⟨hh, h⟩
  · rintro ⟨hh, h⟩
    exact ⟨t0, ht0, hh, h⟩

/-- Among distinct items, a child is a row exactly when it is not hidden and its parent is a
row and expanded. -/
theorem child_row_iff : ∀ cs : List QTreeWidgetItem, (allPtrs cs).Nodup →
    ∀ p ∈ nodesList cs, ∀ c ∈ p.children,
      (c.ptr ∈ getVisibleItems cs ↔
        c.isHidden = false ∧ p.ptr ∈ getVisibleItems cs ∧ p.isExpanded = true) := by
  apply items_induct
  intro cs ih hn p hp c hc
  obtain ⟨t0, ht0, hpt⟩ := (mem_nodesList_iff cs p).1 hp
  have hn0 : ((nodes t0).map QTreeWidgetItem.ptr).Nodup :=
    ((nodes_sublist_nodesList cs t0 ht0).map _).nodup hn
  rw [ptrs_nodes, List.nodup_cons] at hn0
  obtain ⟨hnot, hnch⟩ := hn0
  have hcp : c ∈ nodes p := by
    rw [nodes_eq]
    exact List.mem_cons_of_mem _ (mem_nodesList_of_mem hc)
  have hct : c ∈ nodes t0 := nodes_trans t0 p c hpt hcp
  rw [mem_getVisibleItems_of_below cs hn t0 ht0 c.ptr (List.mem_map_of_mem _ hct),
    mem_getVisibleItems_of_below cs hn t0 ht0 p.ptr (List.mem_map_of_mem _ hpt)]
  rw [nodes_eq] at hpt
  rcases List.mem_cons.1 hpt with rfl | hpt
  · have hcin : c.ptr ∈ allPtrs p.children :=
      List.mem_map_of_mem _ (mem_nodesList_of_mem hc)
    have hne : c.ptr ≠ p.ptr := fun h => hnot (h ▸ hcin)
    rw [mem_getVisibleItems_of_below p.children hnch c hc c.ptr
      (List.mem_map_of_mem _ (self_mem_nodes c))]
    constructor
    · rintro ⟨hh, h | ⟨he, hch, _⟩⟩
      · exact absurd h hne
      · exact ⟨hch, ⟨hh, Or.inl rfl⟩, he⟩
    · rintro ⟨hch, ⟨hh, _⟩, he⟩
      exact ⟨hh, Or.inr ⟨he, hch, Or.inl rfl⟩⟩
  · have hcin : c ∈ nodesList t0.children := by
      rw [nodes_eq] at hct
      rcases List.mem_cons.1 hct with h | h
      · exact nodesList_trans hpt hcp
      · exact h
    have hne : c.ptr ≠ t0.ptr := fun h => hnot (h ▸ List.mem_map_of_mem _ hcin)
    have hnp : p.ptr ≠ t0.ptr := fun h => hnot (h ▸ List.mem_map_of_mem _ hpt)
    have hih := ih t0 ht0 hnch p hpt c hc
    constructor
    · rintro ⟨hh, h | ⟨he, h⟩⟩
      · exact absurd h hne
      · obtain ⟨k1, k2, k3⟩ := hih.1 h
        exact ⟨k1, ⟨hh, Or.inr ⟨he, k2⟩⟩, k3⟩
    · rintro ⟨k1, ⟨hh, h | ⟨he, k2⟩⟩, k3⟩
      · exact absurd h hnp
      · exact ⟨hh, Or.inr ⟨he, hih.2 ⟨k1, k2, k3⟩⟩⟩

/-! ## Navigation mode: lemmas -/

/-- From index `i` on and with all keys so far below the letter of `i`, the loop of
`showNavigation` adds one entry and one label per row, for the first `26 - i` rows. -/
theorem showNavigationLoop_eq (majorKey : Nat) :
    ∀ (items : List Nat) (i : Nat) (km : KeyMap) (labels : List (List Nat)),
      (∀ e ∈ km, e.1 < 97 + i) →
      showNavigationLoop majorKey i items km labels =
        ((List.enumFrom (97 + i) (items.take (26 - i))).reverse ++ km,
          labels ++ (List.enumFrom (97 + i) (items.take (26 - i))).map
            (fun e => [majorKey, e.1]))
  | [], i, km, labels, _ => by simp [showNavigationLoop]
  | item :: items, i, km, labels, hk => by
    rw [showNavigationLoop]
    by_cases hi : i < 26
    · rw [if_pos hi]
      have hset : KeyMap.set km (97 + i) item = (97 + i, item) :: km := by
        unfold KeyMap.set
        rw [List.filter_eq_self.2 (fun e he => by
          have := hk e he
          simp only [bne_iff_ne, ne_eq]
          omega)]
      dsimp only
      rw [hset, showNavigationLoop_eq majorKey items (i + 1) _ _ (by
        intro e he
        rcases List.mem_cons.1 he with rfl | he
        · simp only; omega
        · have := hk e he; omega)]
      obtain ⟨k, hk26⟩ : ∃ k, 26 - i = k + 1 := ⟨25 - i, by omega⟩
      have hk2 : 26 - (i + 1) = k := by omega
      rw [hk26, hk2, List.take_succ_cons, List.enumFrom_cons, List.reverse_cons,
        List.map_cons, List.append_assoc, List.append_assoc]
      simp only [List.singleton_append, Nat.add_assoc]
    · rw [if_neg hi]
      have h0 : 26 - i = 0 := by omega
      simp [h0]

/-- The label map after `showNavigation` on a visible widget: the first 26 rows under the
letters from `a` on, whatever the map held before. -/
theorem showNavigation_keyMap (topLevel : List QTreeWidgetItem) (nav : NavigationMode) :
    (showNavigation true topLevel nav).m_keyMap =
      (List.enumFrom 97 ((getVisibleItems topLevel).take 26)).reverse := by
  simp only [showNavigation, Bool.not_true, Bool.false_eq_true, if_false]
  rw [showNavigationLoop_eq nav.m_majorKey _ 0 [] [] (by simp)]
  simp

/-- The labels after `showNavigation` on a visible widget: the major key followed by the
letter, one per row of the first 26. -/
theorem showNavigation_labels (topLevel : List QTreeWidgetItem) (nav : NavigationMode) :
    (showNavigation true topLevel nav).m_naviLabels =
      (List.enumFrom 97 ((getVisibleItems topLevel).take 26)).map
        (fun e => [nav.m_majorKey, e.1]) := by
  simp only [showNavigation, Bool.not_true, Bool.false_eq_true, if_false]
  rw [showNavigationLoop_eq nav.m_majorKey _ 0 [] [] (by simp)]
  simp

/-- The call `showNavigation` leaves the major key and the static `secondKey` as they are. -/
theorem showNavigation_secondKey (isVisible : Bool) (topLevel : List QTreeWidgetItem)
    (nav : NavigationMode) :
    (showNavigation isVisible topLevel nav).secondKey = nav.secondKey ∧
      (showNavigation isVisible topLevel nav).m_majorKey = nav.m_majorKey := by
  unfold showNavigation
  cases isVisible <;> exact ⟨rfl, rfl⟩

/-- In a map with pairwise distinct keys a key has one value. -/
theorem value_unique : ∀ (m : KeyMap), (m.map Prod.fst).Nodup →
    ∀ k r r2, (k, r) ∈ m → (k, r2) ∈ m → r = r2
  | [], _, _, _, _, h, _ => by cases h
  | e :: m, hn, k, r, r2, h1, h2 => by
    rw [List.map_cons, List.nodup_cons] at hn
    rcases List.mem_cons.1 h1 with h1 | h1
    · rcases List.mem_cons.1 h2 with h2 | h2
      · rw [← h1] at h2
        exact (Prod.mk.inj h2).2.symm
      · exact absurd (List.mem_map_of_mem Prod.fst h2) (by rw [← h1] at hn; exact hn.1)
    · rcases List.mem_cons.1 h2 with h2 | h2
      · exact absurd (List.mem_map_of_mem Prod.fst h1) (by rw [← h2] at hn; exact hn.1)
      · exact value_unique m hn.2 k r r2 h1 h2

/-- In a map with pairwise distinct keys `find` gives the value of an entry. -/
theorem find_eq_some_iff (m : KeyMap) (hn : (m.map Prod.fst).Nodup) (k r : Nat) :
    KeyMap.find m k = some r ↔ (k, r) ∈ m := by
  constructor
  · exact value_some_mem m k r
  · intro h
    cases hf : KeyMap.find m k with
    | none => exact absurd h (value_none_not_mem m k hf r)
    | some r2 => rw [value_unique m hn k r r2 h (value_some_mem m k r2 hf)]

/-- The keys of the label map after `showNavigation` are pairwise distinct. -/
theorem showNavigation_keys_nodup (topLevel : List QTreeWidgetItem) (nav : NavigationMode) :
    ((showNavigation true topLevel nav).m_keyMap.map Prod.fst).Nodup := by
  rw [showNavigation_keyMap, List.map_reverse, List.nodup_reverse, List.enumFrom_map_fst]
  exact List.nodup_range' _ _

/-- What the label map after `showNavigation` on a visible widget finds: under the letter
of `i` the row `i` of the first 26, and nothing else. -/
theorem showNavigation_find (topLevel : List QTreeWidgetItem) (nav : NavigationMode)
    (k r : Nat) :
    KeyMap.find (showNavigation true topLevel nav).m_keyMap k = some r ↔
      97 ≤ k ∧ k - 97 < 26 ∧ (getVisibleItems topLevel)[k - 97]? = some r := by
  rw [find_eq_some_iff _ (showNavigation_keys_nodup topLevel nav), showNavigation_keyMap,
    List.mem_reverse, List.mk_mem_enumFrom_iff_le_and_getElem?_sub, List.getElem?_take]
  by_cases h : k - 97 < 26
  · simp [h]
  · simp [h]

/-- The major key in the Idle state with labels shown: the key is consumed and the second
key is awaited. -/
theorem handleKeyNavigation_idle_major (keyToChar : Int → Nat) (t : VDirectoryTree)
    (nav : NavigationMode) (key : Int) (hidle : nav.secondKey = false)
    (hkey : keyToChar key = nav.m_majorKey) (hmap : nav.m_keyMap.isEmpty = false) :
    handleKeyNavigation keyToChar t nav key =
      { tree := t, nav := { nav with secondKey := true }, ret := true, succeed := false } := by
  unfold handleKeyNavigation
  simp [hidle, hkey, hmap]

/-- A key with a character in the AwaitingSecondKey state: the key is consumed, the state is
Idle again and the row of the character, if there is one, is made current. -/
theorem handleKeyNavigation_second (keyToChar : Int → Nat) (t : VDirectoryTree)
    (nav : NavigationMode) (key : Int) (hsecond : nav.secondKey = true)
    (hchar : keyToChar key ≠ 0) :
    handleKeyNavigation keyToChar t nav key =
      { tree :=
          match KeyMap.find nav.m_keyMap (keyToChar key) with
          | some item => setCurrentItem t item
          | none => t
        nav := { nav with secondKey := false }, ret := true, succeed := true } := by
  unfold handleKeyNavigation
  simp only [hsecond, hchar, ne_eq, not_false_eq_true, and_self, if_true]
  cases KeyMap.find nav.m_keyMap (keyToChar key) <;> rfl

/-- A key other than the major key in the Idle state: nothing happens and the key is not
consumed. -/
theorem handleKeyNavigation_idle_other (keyToChar : Int → Nat) (t : VDirectoryTree)
    (nav : NavigationMode) (key : Int) (hidle : nav.secondKey = false)
    (hkey : keyToChar key ≠ nav.m_majorKey) :
    handleKeyNavigation keyToChar t nav key =
      { tree := t, nav := nav, ret := false, succeed := false } := by
  unfold handleKeyNavigation
  simp [hidle, hkey]

/-- The label map after `showNavigation` on a visible widget has one entry per row of the
first 26. -/
theorem showNavigation_keyMap_length (topLevel : List QTreeWidgetItem) (nav : NavigationMode) :
    (showNavigation true topLevel nav).m_keyMap.length
      = min (getVisibleItems topLevel).length 26 := by
  rw [showNavigation_keyMap, List.length_reverse, List.enumFrom_length, List.length_take,
    Nat.min_comm]

/-! ## Copy, cut and paste: the claims -/

/-- C11: for every non-empty selection and either value of the cut flag, right after
`copySelectedDirectories(isCut)` the call `pasteAvailable()` returns true, and the decoding of
`pasteDirectoriesFromClipboard` gives back the cut flag and the paths of the selected
directories in selection order.  The four field names are pairwise distinct and the `CopyDir`
discriminant is an `int`. -/
theorem copySelectedDirectories_roundtrip (cfg : ClipboardConfig)
    (hmt : cfg.c_magic ≠ cfg.c_type) (hmc : cfg.c_magic ≠ cfg.c_isCut)
    (hmd : cfg.c_magic ≠ cfg.c_dirs) (htc : cfg.c_type ≠ cfg.c_isCut)
    (htd : cfg.c_type ≠ cfg.c_dirs) (hcd : cfg.c_isCut ≠ cfg.c_dirs)
    (hop : -2147483648 ≤ cfg.copyDir ∧ cfg.copyDir ≤ 2147483647)
    (items : List QTreeWidgetItem) (hsel : items ≠ [])
    (p_isCut : Bool) (time rand : Nat) (s : World) :
    pasteAvailable cfg
        (copySelectedDirectories cfg items p_isCut time rand s).tree.magic
        (copySelectedDirectories cfg items p_isCut time rand s).clipboard = true ∧
      decodeClipboard cfg (copySelectedDirectories cfg items p_isCut time rand s).clipboard
        = (items.map (fun item => s.dirs.fetchPath item.dir), p_isCut) := by
  have he : items.isEmpty = false := by
    cases items with
    | nil => exact absurd rfl hsel
    | cons a l => rfl
  have hm := toInt_double _ (toInt32_range ((time % 2 ^ 32) ||| (rand % 2 ^ 32)))
  have ht := toInt_double _ hop
  constructor
  · simp only [copySelectedDirectories, he, Bool.false_eq_true, if_false, pasteAvailable,
      clipboardToJson, contains_eq_get, checkMagic, getNewMagic]
    simp only [get_set_self, get_set_of_ne _ _ _ _ hmt, get_set_of_ne _ _ _ _ hmc,
      get_set_of_ne _ _ _ _ hmd, get_set_of_ne _ _ _ _ htc, get_set_of_ne _ _ _ _ htd,
      get_set_of_ne _ _ _ _ hcd, hm, ht]
    simp [QJsonObject.set, QJsonValue.toArray, hsel]
  · simp only [copySelectedDirectories, he, Bool.false_eq_true, if_false, decodeClipboard,
      clipboardToJson]
    simp only [get_set_self, get_set_of_ne _ _ _ _ hcd]
    simp [QJsonValue.toArray, QJsonValue.toBool, QJsonValue.toString, Function.comp_def]

/-- Witness of C11: Work and Personal of the sample notebook are copied. -/
theorem copySelectedDirectories_roundtrip_witness :
    [newItem 0 1, newItem 1 2] ≠ [] ∧
    pasteAvailable cfgSample
        (copySelectedDirectories cfgSample [newItem 0 1, newItem 1 2] false 1700000001 2
          worldNotebook).tree.magic
        (copySelectedDirectories cfgSample [newItem 0 1, newItem 1 2] false 1700000001 2
          worldNotebook).clipboard = true ∧
      decodeClipboard cfgSample
        (copySelectedDirectories cfgSample [newItem 0 1, newItem 1 2] false 1700000001 2
          worldNotebook).clipboard = (["/nb/Work", "/nb/Personal"], false) :=
  ⟨by simp,
    copySelectedDirectories_roundtrip cfgSample (by decide) (by decide) (by decide) (by decide)
      (by decide) (by decide) (by decide) [newItem 0 1, newItem 1 2] (by simp) false
      1700000001 2 worldNotebook⟩

/-- C12, as the code has it: on a finite directory tree that every copy leaves finite,
`pasteDirectories` with a destination and a non-empty path list returns and leaves the token
`(int)time | qrand()` of its final `getNewMagic()`; a payload that still carries the old token
is rejected by `pasteAvailable()` whenever that value differs from the old token. -/
theorem pasteDirectories_token (cfg : ClipboardConfig) (co : Collaborators)
    (hco : ∀ ds dest name src cut, FiniteTree ds.env →
      FiniteTree (co.copyDirectory ds dest name src cut).1.env)
    (time rand : Nat) (dest : Nat) (p_dirs : List String) (hne : p_dirs ≠ [])
    (p_isCut : Bool) (s : World) (hfin : FiniteTree s.dirs.env) :
    ∃ fuel0 s1 n,
      (∀ fuel, fuel0 ≤ fuel →
        pasteDirectories co fuel time rand (some dest) p_dirs p_isCut s = some (s1, n)) ∧
      s1.tree.magic = getNewMagic time rand ∧
      (getNewMagic time rand ≠ s.tree.magic →
        ∀ payload : Option QJsonValue,
          QJsonValue.toInt (QJsonObject.get (clipboardToJson payload) cfg.c_magic)
            = s.tree.magic →
          pasteAvailable cfg s1.tree.magic payload = false) := by
  have he : p_dirs.isEmpty = false := by
    cases p_dirs with
    | nil => exact absurd rfl hne
    | cons a l => rfl
  obtain ⟨f0, ⟨s1, n⟩, h1⟩ := pasteLoop_stable co hco dest p_isCut p_dirs s 0 hfin
  refine ⟨f0,
    { (if n > 0 then { s1 with log := s1.log ++ [Event.statusPasted n] } else s1) with
      tree :=
        { (if n > 0 then { s1 with log := s1.log ++ [Event.statusPasted n] } else s1).tree with
          magic := getNewMagic time rand } },
    n, fun fuel hle => ?_, rfl, ?_⟩
  · simp only [pasteDirectories, he, Bool.false_eq_true, if_false, h1 fuel hle]
  · intro hdiff payload hold
    cases hp : pasteAvailable cfg (getNewMagic time rand) payload with
    | false => rfl
    | true =>
      have := pasteAvailable_token cfg _ payload hp
      rw [hold] at this
      exact absurd this.symm hdiff

/-- Witness of C12: Personal is pasted into Work of the sample notebook; the copy hands back a
directory, so that the widget is reconciled. -/
theorem pasteDirectories_token_witness :
    ["/nb/Personal"] ≠ [] ∧ FiniteTree worldCopied.dirs.env ∧
    ∃ fuel0 s1 n,
      (∀ fuel, fuel0 ≤ fuel →
        pasteDirectories coSamePath fuel 1700000050 7 (some 1) ["/nb/Personal"] false
          worldCopied = some (s1, n)) ∧
      s1.tree.magic = getNewMagic 1700000050 7 ∧
      (getNewMagic 1700000050 7 ≠ worldCopied.tree.magic →
        ∀ payload : Option QJsonValue,
          QJsonValue.toInt (QJsonObject.get (clipboardToJson payload) cfgSample.c_magic)
            = worldCopied.tree.magic →
          pasteAvailable cfgSample s1.tree.magic payload = false) :=
  ⟨by simp, ⟨⟨rankNotebook, rankNotebook_lt⟩, ⟨levelNotebook, levelNotebook_lt⟩⟩,
    pasteDirectories_token cfgSample coSamePath (fun _ _ _ _ _ h => h) 1700000050 7 1
      ["/nb/Personal"] (by simp) false worldCopied
      ⟨⟨rankNotebook, rankNotebook_lt⟩, ⟨levelNotebook, levelNotebook_lt⟩⟩⟩

/-- C12 fails as stated: Work is copied at time `1700000001` with `qrand()` giving `2`, and
pasted into itself in the same second with `qrand()` giving `3`.  The token after the paste
is the token before it, `1700000003`, and the payload of the copy is still accepted. -/
theorem pasteDirectories_token_unchanged :
    worldCopied.tree.magic = 1700000003 ∧
    (pasteDirectories coFailing 0 1700000001 3 (some 1) ["/nb/Work"] false worldCopied).map
        (fun r => (r.1.tree.magic,
          pasteAvailable cfgSample r.1.tree.magic worldCopied.clipboard))
      = some (1700000003, true) := by
  constructor <;> decide

/-- C13: when every source path resolves to the destination itself or, in a cut, to a
directory whose parent is the destination, `pasteDirectories` returns with zero pasted
folders and has made no call and shown no message (the log is as before); the directories,
the clipboard and the widget are unchanged, the token apart. -/
theorem pasteDirectories_self_paste (co : Collaborators) (fuel time rand : Nat) (dest : Nat)
    (paths : List String) (p_isCut : Bool) (s : World)
    (hsrc : ∀ path ∈ paths, ∃ dir, s.dirs.getInternalDirectory path = some dir ∧
      (dir = dest ∨ (p_isCut = true ∧ (s.dirs.env dir).parent = some dest))) :
    ∃ s1, pasteDirectories co fuel time rand (some dest) paths p_isCut s = some (s1, 0) ∧
      s1.log = s.log ∧ s1.dirs = s.dirs ∧ s1.clipboard = s.clipboard ∧
      s1.tree = { s.tree with magic := s1.tree.magic } := by
  unfold pasteDirectories
  dsimp only
  by_cases he : paths.isEmpty = true
  · rw [if_pos he]
    exact ⟨s, rfl, rfl, rfl, rfl, rfl⟩
  · rw [if_neg he, pasteLoop_self co fuel dest p_isCut s 0 paths hsrc]
    exact ⟨_, rfl, rfl, rfl, rfl, rfl⟩

/-- Witness of C13: Drafts is cut and pasted into Work, its parent. -/
theorem pasteDirectories_self_paste_witness :
    (∀ path ∈ ["/nb/Work/Drafts", "/nb/Work"],
      ∃ dir, worldNotebook.dirs.getInternalDirectory path = some dir ∧
        (dir = 1 ∨ (true = true ∧ (worldNotebook.dirs.env dir).parent = some 1))) ∧
    ∃ s1, pasteDirectories coSamePath 0 1700000050 7 (some 1) ["/nb/Work/Drafts", "/nb/Work"]
        true worldNotebook = some (s1, 0) ∧
      s1.log = worldNotebook.log ∧ s1.dirs = worldNotebook.dirs ∧
      s1.clipboard = worldNotebook.clipboard ∧
      s1.tree = { worldNotebook.tree with magic := s1.tree.magic } :=
  have h : ∀ path ∈ ["/nb/Work/Drafts", "/nb/Work"],
      ∃ dir, worldNotebook.dirs.getInternalDirectory path = some dir ∧
        (dir = 1 ∨ (true = true ∧ (worldNotebook.dirs.env dir).parent = some 1)) := by
    intro path hp
    simp only [List.mem_cons, List.mem_singleton, List.not_mem_nil, or_false] at hp
    rcases hp with rfl | rfl
    · exact ⟨3, by decide, Or.inr ⟨rfl, by decide⟩⟩
    · exact ⟨1, by decide, Or.inl rfl⟩
  ⟨h, pasteDirectories_self_paste coSamePath 0 1700000050 7 1 ["/nb/Work/Drafts", "/nb/Work"]
    true worldNotebook h⟩

/-! ## Navigation mode: the claims -/

/-- C14, as the code has it: from the Idle state and after `showNavigation` over `N` visible
rows, `1 ≤ N ≤ 26`, the major key is consumed and changes no selection; the key of the letter
`'a' + i` after it is consumed and makes the row `i` current, for every `i < N`; a key after
it whose character is in no label leaves the widget as it is, and it is consumed when
`keyToChar` maps it to a character; a key without character is not consumed when the major key
is a character. -/
theorem handleKeyNavigation_roundtrip (keyToChar : Int → Nat) (t : VDirectoryTree)
    (nav : NavigationMode) (hidle : nav.secondKey = false)
    (hN1 : 1 ≤ (getVisibleItems t.topLevel).length)
    (hN : (getVisibleItems t.topLevel).length ≤ 26)
    (majorKey : Int) (hmajor : keyToChar majorKey = nav.m_majorKey) :
    (afterMajorKey keyToChar t nav majorKey).ret = true ∧
    (afterMajorKey keyToChar t nav majorKey).tree = t ∧
    (∀ (i : Nat) (hi : i < (getVisibleItems t.topLevel).length) (key : Int),
      keyToChar key = 97 + i →
      (handleKeyNavigation keyToChar t (afterMajorKey keyToChar t nav majorKey).nav key).ret
        = true ∧
      (handleKeyNavigation keyToChar t (afterMajorKey keyToChar t nav majorKey).nav
        key).tree.current = some ((getVisibleItems t.topLevel).get ⟨i, hi⟩)) ∧
    (∀ key : Int,
      KeyMap.find (showNavigation true t.topLevel nav).m_keyMap (keyToChar key) = none →
      (handleKeyNavigation keyToChar t (afterMajorKey keyToChar t nav majorKey).nav key).tree
        = t ∧
      (keyToChar key ≠ 0 →
        (handleKeyNavigation keyToChar t (afterMajorKey keyToChar t nav majorKey).nav key).ret
          = true) ∧
      (keyToChar key = 0 → nav.m_majorKey ≠ 0 →
        (handleKeyNavigation keyToChar t (afterMajorKey keyToChar t nav majorKey).nav key).ret
          = false)) := by
  have hsk := showNavigation_secondKey true t.topLevel nav
  have hlen := showNavigation_keyMap_length t.topLevel nav
  have hmap : (showNavigation true t.topLevel nav).m_keyMap.isEmpty = false := by
    cases hk : (showNavigation true t.topLevel nav).m_keyMap with
    | nil => rw [hk] at hlen; simp at hlen; omega
    | cons a l => rfl
  have h1 : afterMajorKey keyToChar t nav majorKey =
      { tree := t, nav := { showNavigation true t.topLevel nav with secondKey := true },
        ret := true, succeed := false } :=
    handleKeyNavigation_idle_major keyToChar t _ majorKey (hsk.1.trans hidle)
      (hmajor.trans hsk.2.symm) hmap
  rw [h1]
  refine ⟨rfl, rfl, ?_, ?_⟩
  · intro i hi key hkey
    rw [handleKeyNavigation_second keyToChar t _ key rfl (by rw [hkey]; omega)]
    have hfind : KeyMap.find (showNavigation true t.topLevel nav).m_keyMap (keyToChar key)
        = some ((getVisibleItems t.topLevel).get ⟨i, hi⟩) := by
      rw [showNavigation_find, hkey]
      refine ⟨by omega, by omega, ?_⟩
      rw [show 97 + i - 97 = i by omega, List.getElem?_eq_getElem hi]
      rfl
    simp only [hfind, setCurrentItem_current]
    exact ⟨trivial, trivial⟩
  · intro key hnone
    by_cases hchar : keyToChar key = 0
    · have hnull : handleKeyNavigation keyToChar t
          { showNavigation true t.topLevel nav with secondKey := true } key =
          if keyToChar key = nav.m_majorKey then
            { tree := t, nav := { showNavigation true t.topLevel nav with secondKey := true },
              ret := true, succeed := false }
          else
            { tree := t, nav := { showNavigation true t.topLevel nav with secondKey := true },
              ret := false, succeed := false } := by
        unfold handleKeyNavigation
        simp only [hchar, ne_eq, not_true_eq_false, and_false, if_false, hsk.2, hmap,
          Bool.false_eq_true]
      rw [hnull]
      refine ⟨?_, fun h => absurd hchar h, fun _ hm => ?_⟩
      · split <;> rfl
      · rw [if_neg (by rw [hchar]; exact fun h => hm h.symm)]
    · rw [handleKeyNavigation_second keyToChar t _ key rfl hchar]
      simp only [hnone]
      exact ⟨trivial, fun _ => trivial, fun h => absurd h hchar⟩

/-- Witness of C14: the rows Work and Personal of the sample widget, the major key `v`; the
key `b` selects Personal, the key `c` has no label and is consumed, and the Shift key, which
has no character, is not consumed; neither changes the widget. -/
theorem handleKeyNavigation_roundtrip_witness :
    navIdle.secondKey = false ∧ 1 ≤ (getVisibleItems treeWorkPersonal.topLevel).length ∧
    (getVisibleItems treeWorkPersonal.topLevel).length ≤ 26 ∧
    keyToCharLetters 86 = navIdle.m_majorKey ∧
    (afterMajorKey keyToCharLetters treeWorkPersonal navIdle 86).ret = true ∧
    (handleKeyNavigation keyToCharLetters treeWorkPersonal
      (afterMajorKey keyToCharLetters treeWorkPersonal navIdle 86).nav 66).tree.current
        = some 1 ∧
    KeyMap.find (showNavigation true treeWorkPersonal.topLevel navIdle).m_keyMap
      (keyToCharLetters 67) = none ∧
    keyToCharLetters 67 ≠ 0 ∧
    (handleKeyNavigation keyToCharLetters treeWorkPersonal
      (afterMajorKey keyToCharLetters treeWorkPersonal navIdle 86).nav 67).ret = true ∧
    (handleKeyNavigation keyToCharLetters treeWorkPersonal
      (afterMajorKey keyToCharLetters treeWorkPersonal navIdle 86).nav 67).tree
        = treeWorkPersonal ∧
    KeyMap.find (showNavigation true treeWorkPersonal.topLevel navIdle).m_keyMap
      (keyToCharLetters 16777248) = none ∧
    keyToCharLetters 16777248 = 0 ∧ navIdle.m_majorKey ≠ 0 ∧
    (handleKeyNavigation keyToCharLetters treeWorkPersonal
      (afterMajorKey keyToCharLetters treeWorkPersonal navIdle 86).nav 16777248).ret
        = false ∧
    (handleKeyNavigation keyToCharLetters treeWorkPersonal
      (afterMajorKey keyToCharLetters treeWorkPersonal navIdle 86).nav 16777248).tree
        = treeWorkPersonal :=
  have h := handleKeyNavigation_roundtrip keyToCharLetters treeWorkPersonal navIdle rfl
    (by decide) (by decide) 86 (by decide)
  ⟨rfl, by decide, by decide, by decide, h.1, (h.2.2.1 1 (by decide) 66 (by decide)).2,
    by decide, by decide, (h.2.2.2 67 (by decide)).2.1 (by decide), (h.2.2.2 67 (by decide)).1,
    by decide, by decide, by decide,
    (h.2.2.2 16777248 (by decide)).2.2 (by decide) (by decide),
    (h.2.2.2 16777248 (by decide)).1⟩

/-- C14 fails as stated: after `showNavigation` over the rows Work and Personal and the major
key `v`, the Shift key follows.  Its character, the null character, is in no label, and the
key is not reported as handled. -/
theorem handleKeyNavigation_unmapped_key_not_handled :
    navIdle.secondKey = false ∧
    (getVisibleItems treeWorkPersonal.topLevel).length = 2 ∧
    keyToCharLetters 86 = navIdle.m_majorKey ∧
    KeyMap.find (showNavigation true treeWorkPersonal.topLevel navIdle).m_keyMap
      (keyToCharLetters 16777248) = none ∧
    (handleKeyNavigation keyToCharLetters treeWorkPersonal
      (afterMajorKey keyToCharLetters treeWorkPersonal navIdle 86).nav 16777248).ret
        = false := by
  refine ⟨?_, ?_, ?_, ?_, ?_⟩ <;> decide

/-- C15: after `showNavigation` on a visible widget with the visible rows `r_0 .. r_{N-1}`, the
label map has exactly `min N 26` entries with pairwise distinct keys, maps the letter
`'a' + i` to `r_i` for every `i < min N 26` and has no other entry; among distinct items no
entry leads to a row at index 26 or beyond; there is one label per entry, the major key
followed by the letter; and the map and labels of a previous session have no effect. -/
theorem showNavigation_labels_spec (topLevel : List QTreeWidgetItem) (nav : NavigationMode) :
    (showNavigation true topLevel nav).m_keyMap.length
      = min (getVisibleItems topLevel).length 26 ∧
    ((showNavigation true topLevel nav).m_keyMap.map Prod.fst).Nodup ∧
    (∀ (i : Nat) (hi : i < (getVisibleItems topLevel).length), i < 26 →
      KeyMap.find (showNavigation true topLevel nav).m_keyMap (97 + i)
        = some ((getVisibleItems topLevel).get ⟨i, hi⟩)) ∧
    (∀ k r, KeyMap.find (showNavigation true topLevel nav).m_keyMap k = some r →
      ∃ i, i < 26 ∧ k = 97 + i ∧ (getVisibleItems topLevel)[i]? = some r) ∧
    ((allPtrs topLevel).Nodup → ∀ j r, 26 ≤ j → (getVisibleItems topLevel)[j]? = some r →
      ∀ k, KeyMap.find (showNavigation true topLevel nav).m_keyMap k ≠ some r) ∧
    (showNavigation true topLevel nav).m_naviLabels
      = (List.range' 97 (min (getVisibleItems topLevel).length 26)).map
          (fun k => [nav.m_majorKey, k]) ∧
    showNavigation true topLevel nav
      = showNavigation true topLevel { nav with m_keyMap := [], m_naviLabels := [] } := by
  have hfound : ∀ k r, KeyMap.find (showNavigation true topLevel nav).m_keyMap k = some r →
      ∃ i, i < 26 ∧ k = 97 + i ∧ (getVisibleItems topLevel)[i]? = some r := by
    intro k r h
    obtain ⟨h1, h2, h3⟩ := (showNavigation_find topLevel nav k r).1 h
    exact ⟨k - 97, h2, by omega, h3⟩
  refine ⟨showNavigation_keyMap_length topLevel nav, showNavigation_keys_nodup topLevel nav,
    ?_, hfound, ?_, ?_, rfl⟩
  · intro i hi h26
    rw [showNavigation_find]
    refine ⟨by omega, by omega, ?_⟩
    rw [show 97 + i - 97 = i by omega, List.getElem?_eq_getElem hi]
    rfl
  · intro hn j r hj hr k hk
    obtain ⟨i, hi, _, hir⟩ := hfound k r hk
    have hnd : (getVisibleItems topLevel).Nodup := (getVisibleItems_sublist topLevel).nodup hn
    obtain ⟨hjl, _⟩ := List.getElem?_eq_some.1 hr
    exact List.nodup_iff_getElem?_ne_getElem?.1 hnd i j (by omega) hjl (hir.trans hr.symm)
  · rw [showNavigation_labels]
    have hcomp : (fun e : Nat × Nat => [nav.m_majorKey, e.1])
        = (fun k => [nav.m_majorKey, k]) ∘ Prod.fst := rfl
    rw [hcomp, ← List.map_map, List.enumFrom_map_fst, List.length_take, Nat.min_comm]

/-- Witness of C15: the sample rows, of distinct items. -/
theorem showNavigation_labels_spec_witness :
    (allPtrs treeRows).Nodup ∧
    (showNavigation true treeRows navIdle).m_keyMap.length = 3 ∧
    (∀ j r, 26 ≤ j → (getVisibleItems treeRows)[j]? = some r →
      ∀ k, KeyMap.find (showNavigation true treeRows navIdle).m_keyMap k ≠ some r) :=
  ⟨by decide, (showNavigation_labels_spec treeRows navIdle).1,
    (showNavigation_labels_spec treeRows navIdle).2.2.2.2.1 (by decide)⟩

/-- C16, as the code has it: `showNavigation` does not touch the key state, which is a static
local of `handleKeyNavigation`.  After `showNavigation` the state is the state before it; when
that was Idle, a key other than the major key is not consumed and changes nothing. -/
theorem showNavigation_keeps_key_state (keyToChar : Int → Nat) (isVisible : Bool)
    (t : VDirectoryTree) (nav : NavigationMode) :
    (showNavigation isVisible t.topLevel nav).secondKey = nav.secondKey ∧
    (nav.secondKey = false → ∀ key : Int, keyToChar key ≠ nav.m_majorKey →
      handleKeyNavigation keyToChar t (showNavigation isVisible t.topLevel nav) key =
        { tree := t, nav := showNavigation isVisible t.topLevel nav, ret := false,
          succeed := false }) := by
  have hsk := showNavigation_secondKey isVisible t.topLevel nav
  refine ⟨hsk.1, fun hidle key hkey => ?_⟩
  exact handleKeyNavigation_idle_other keyToChar t _ key (hsk.1.trans hidle)
    (by rw [hsk.2]; exact hkey)

/-- Witness of C16: the sample widget in the Idle state and the key `a`, with the major key
`v`. -/
theorem showNavigation_keeps_key_state_witness :
    navIdle.secondKey = false ∧ keyToCharLetters 65 ≠ navIdle.m_majorKey ∧
    handleKeyNavigation keyToCharLetters treeWorkPersonal
        (showNavigation true treeWorkPersonal.topLevel navIdle) 65 =
      { tree := treeWorkPersonal, nav := showNavigation true treeWorkPersonal.topLevel navIdle,
        ret := false, succeed := false } :=
  ⟨rfl, by decide,
    (showNavigation_keeps_key_state keyToCharLetters true treeWorkPersonal navIdle).2 rfl 65
      (by decide)⟩

/-- C16 fails as stated: the major key `v` is pressed in a first session, so that the second
key is awaited, and `showNavigation` runs again.  The next key `a`, which is not the major
key, is consumed and makes the row Work (item `0`) current. -/
theorem showNavigation_does_not_reset :
    (afterMajorKey keyToCharLetters treeWorkPersonal navIdle 86).nav.secondKey = true ∧
    keyToCharLetters 65 ≠ navIdle.m_majorKey ∧
    (handleKeyNavigation keyToCharLetters treeWorkPersonal
      (showNavigation true treeWorkPersonal.topLevel
        (afterMajorKey keyToCharLetters treeWorkPersonal navIdle 86).nav) 65).ret = true ∧
    treeWorkPersonal.current = none ∧
    (handleKeyNavigation keyToCharLetters treeWorkPersonal
      (showNavigation true treeWorkPersonal.topLevel
        (afterMajorKey keyToCharLetters treeWorkPersonal navIdle 86).nav) 65).tree.current
        = some 0 := by
  refine ⟨?_, ?_, ?_, ?_, ?_⟩ <;> decide

/-- C17, as the code has it: in the AwaitingSecondKey state a key that `keyToChar` maps to a
character is consumed and the state is Idle again; the widget changes only when the character
is in the label map, and then by `setCurrentItem` on its row.  A key without character is
handled as in the Idle state: with a major key that is a character it is not consumed, and
the state stays AwaitingSecondKey. -/
theorem handleKeyNavigation_awaiting (keyToChar : Int → Nat) (t : VDirectoryTree)
    (nav : NavigationMode) (hsecond : nav.secondKey = true) (key : Int) :
    (keyToChar key ≠ 0 →
      (handleKeyNavigation keyToChar t nav key).ret = true ∧
      (handleKeyNavigation keyToChar t nav key).nav.secondKey = false ∧
      (∀ item, KeyMap.find nav.m_keyMap (keyToChar key) = some item →
        (handleKeyNavigation keyToChar t nav key).tree = setCurrentItem t item) ∧
      (KeyMap.find nav.m_keyMap (keyToChar key) = none →
        (handleKeyNavigation keyToChar t nav key).tree = t)) ∧
    (keyToChar key = 0 → nav.m_majorKey ≠ 0 →
      handleKeyNavigation keyToChar t nav key =
        { tree := t, nav := nav, ret := false, succeed := false }) := by
  constructor
  · intro hchar
    rw [handleKeyNavigation_second keyToChar t nav key hsecond hchar]
    refine ⟨rfl, rfl, ?_, ?_⟩
    · intro item h
      simp only [h]
    · intro h
      simp only [h]
  · intro hnull hmajor
    unfold handleKeyNavigation
    simp only [hnull, ne_eq, not_true_eq_false, and_false, if_false]
    rw [if_neg (fun h => hmajor h.symm)]

/-- Witness of C17: the second key is awaited on the sample widget; the key `b` selects
Personal (item `1`), and the Shift key (no character) is not consumed. -/
theorem handleKeyNavigation_awaiting_witness :
    (afterMajorKey keyToCharLetters treeWorkPersonal navIdle 86).nav.secondKey = true ∧
    keyToCharLetters 66 ≠ 0 ∧
    (handleKeyNavigation keyToCharLetters treeWorkPersonal
      (afterMajorKey keyToCharLetters treeWorkPersonal navIdle 86).nav 66).ret = true ∧
    keyToCharLetters 16777248 = 0 ∧
    (afterMajorKey keyToCharLetters treeWorkPersonal navIdle 86).nav.m_majorKey ≠ 0 ∧
    handleKeyNavigation keyToCharLetters treeWorkPersonal
        (afterMajorKey keyToCharLetters treeWorkPersonal navIdle 86).nav 16777248 =
      { tree := treeWorkPersonal,
        nav := (afterMajorKey keyToCharLetters treeWorkPersonal navIdle 86).nav,
        ret := false, succeed := false } :=
  ⟨by decide, by decide,
    ((handleKeyNavigation_awaiting keyToCharLetters treeWorkPersonal
      (afterMajorKey keyToCharLetters treeWorkPersonal navIdle 86).nav (by decide) 66).1
      (by decide)).1,
    by decide, by decide,
    (handleKeyNavigation_awaiting keyToCharLetters treeWorkPersonal
      (afterMajorKey keyToCharLetters treeWorkPersonal navIdle 86).nav (by decide)
      16777248).2 (by decide) (by decide)⟩

/-- C17 fails as stated: while the second key is awaited on the sample widget, the Shift key,
which `keyToChar` maps to no character, is not consumed and the second key is still awaited
after it. -/
theorem handleKeyNavigation_null_key_not_consumed :
    (afterMajorKey keyToCharLetters treeWorkPersonal navIdle 86).nav.secondKey = true ∧
    keyToCharLetters 16777248 = 0 ∧
    (handleKeyNavigation keyToCharLetters treeWorkPersonal
      (afterMajorKey keyToCharLetters treeWorkPersonal navIdle 86).nav 16777248).ret = false ∧
    (handleKeyNavigation keyToCharLetters treeWorkPersonal
      (afterMajorKey keyToCharLetters treeWorkPersonal navIdle 86).nav
      16777248).nav.secondKey = true := by
  refine ⟨?_, ?_, ?_, ?_⟩ <;> decide

/-! ## Delete, create and the visible rows: the claims -/

/-- C18, as the code has it: `deleteSelectedDirectory` is aborted, with nothing changed, only
without a current item or without the confirmation.  Once confirmed it calls
`closeFile(dir, true)` and does not read the result: whatever the editor area answers, the
item leaves the tree and `VDirectory::deleteDirectory` is called. -/
theorem deleteSelectedDirectory_forced_close (co : Collaborators) (answerOk : Bool)
    (viewCurrent : Option Nat) (s : World) :
    ((currentItem s.tree = none ∨ answerOk = false) →
      deleteSelectedDirectory co answerOk viewCurrent s = s) ∧
    (∀ curItem, currentItem s.tree = some curItem → answerOk = true →
      (deleteSelectedDirectory co answerOk viewCurrent s).tree.topLevel
        = removeInItems curItem.ptr s.tree.topLevel ∧
      (deleteSelectedDirectory co answerOk viewCurrent s).dirs
        = (co.deleteDirectory s.dirs curItem.dir).1 ∧
      (deleteSelectedDirectory co answerOk viewCurrent s).log
        = s.log ++ [Event.closeFile curItem.dir true (co.closeFile curItem.dir true)] ++
          [Event.deleteDirectory curItem.dir] ++
          (if (co.deleteDirectory s.dirs curItem.dir).2 then [Event.statusDeleted 1]
            else [Event.warnDeleteFailed curItem.dir])) := by
  refine ⟨?_, ?_⟩
  · intro h
    unfold deleteSelectedDirectory
    rcases h with h | h
    · rw [h]
    · cases hc : currentItem s.tree with
      | none => rfl
      | some curItem => simp only [h, Bool.false_eq_true, if_false]
  · intro curItem hc hok
    subst hok
    unfold deleteSelectedDirectory
    rw [hc]
    dsimp only
    rw [if_pos rfl]
    refine ⟨?_, rfl, rfl⟩
    cases viewCurrent with
    | none => rfl
    | some q => exact setCurrentItem_topLevel _ q

/-- Witness of C18: Work is current in the sample widget, the dialog is confirmed and the
editor area answers `false`. -/
theorem deleteSelectedDirectory_forced_close_witness :
    currentItem worldWorkCurrent.tree = some (newItem 0 1) ∧
    (deleteSelectedDirectory coFailing true none worldWorkCurrent).tree.topLevel
      = removeInItems (newItem 0 1).ptr worldWorkCurrent.tree.topLevel ∧
    (deleteSelectedDirectory coFailing true none worldWorkCurrent).log
      = worldWorkCurrent.log ++
          [Event.closeFile (newItem 0 1).dir true (coFailing.closeFile (newItem 0 1).dir true)]
          ++ [Event.deleteDirectory (newItem 0 1).dir] ++
          (if (coFailing.deleteDirectory worldWorkCurrent.dirs (newItem 0 1).dir).2 then
            [Event.statusDeleted 1]
          else [Event.warnDeleteFailed (newItem 0 1).dir]) :=
  have h := (deleteSelectedDirectory_forced_close coFailing true none worldWorkCurrent).2
    (newItem 0 1) rfl rfl
  ⟨rfl, h.1, h.2.2⟩

/-- C18 fails as stated: Work is current, the dialog is confirmed and the editor area answers
`false` to `closeFile`.  The row of Work is removed all the same and `deleteDirectory` is
called. -/
theorem deleteSelectedDirectory_ignores_closeFile :
    coFailing.closeFile 1 true = false ∧
    worldWorkCurrent.tree.topLevel.map QTreeWidgetItem.ptr = [0, 1] ∧
    (deleteSelectedDirectory coFailing true none worldWorkCurrent).tree.topLevel.map
      QTreeWidgetItem.ptr = [1] ∧
    (deleteSelectedDirectory coFailing true none worldWorkCurrent).log
      = [Event.closeFile 1 true false, Event.deleteDirectory 1, Event.warnDeleteFailed 1] := by
  refine ⟨?_, ?_, ?_, ?_⟩ <;> decide

/-- C19, as the code has it, for create and paste: when `createSubDirectory` reports failure,
`newSubDirectory` and `newRootDirectory` return with the widget as it was; when every
`copyDirectory` reports failure and hands back no directory, `pasteDirectories` returns with
the widget as it was, the token apart, and has reconciled nothing. -/
theorem failure_leaves_tree (co : Collaborators)
    (hcreate : ∀ ds dir name, (co.createSubDirectory ds dir name).2 = none)
    (hcopy : ∀ ds dest name src cut, (co.copyDirectory ds dest name src cut).2 = (false, none)) :
    (∀ fuel dialog s, ∃ s1, newSubDirectory co fuel dialog s = some s1 ∧ s1.tree = s.tree) ∧
    (∀ fuel dialog s,
      ∃ s1, newRootDirectory co fuel dialog s = some s1 ∧ s1.tree = s.tree) ∧
    (∀ fuel time rand dest paths cut s, ∃ s1 n,
      pasteDirectories co fuel time rand dest paths cut s = some (s1, n) ∧
      s1.tree = { s.tree with magic := s1.tree.magic } ∧
      ∃ extra, s1.log = s.log ++ extra ∧
        ∀ item, Event.updateItemDirectChildren item ∉ extra) := by
  refine ⟨?_, ?_, ?_⟩
  · intro fuel dialog s
    unfold newSubDirectory
    cases hc : currentItem s.tree with
    | none => exact ⟨s, rfl, rfl⟩
    | some curItem =>
      cases dialog with
      | none => exact ⟨s, rfl, rfl⟩
      | some name =>
        simp only [hcreate]
        exact ⟨_, rfl, rfl⟩
  · intro fuel dialog s
    unfold newRootDirectory
    cases dialog with
    | none => exact ⟨s, rfl, rfl⟩
    | some name =>
      simp only [hcreate]
      exact ⟨_, rfl, rfl⟩
  · intro fuel time rand dest paths cut s
    unfold pasteDirectories
    cases dest with
    | none => exact ⟨s, 0, rfl, rfl, [], by simp, by simp⟩
    | some d =>
      dsimp only
      by_cases he : paths.isEmpty = true
      · rw [if_pos he]
        exact ⟨s, 0, rfl, rfl, [], by simp, by simp⟩
      · rw [if_neg he]
        obtain ⟨s1, h1, ht, _, extra, hl, hn⟩ := pasteLoop_no_dest co
          (fun ds dest name src c => by rw [hcopy]) fuel d cut paths s 0
        rw [h1]
        refine ⟨_, 0, rfl, ?_, extra, ?_, hn⟩
        · simp only [Nat.lt_irrefl, gt_iff_lt, if_false, ht]
        · simp only [Nat.lt_irrefl, gt_iff_lt, if_false, hl]

/-- Witness of C19: the collaborators that fail at everything. -/
theorem failure_leaves_tree_witness :
    (∀ ds dir name, (coFailing.createSubDirectory ds dir name).2 = none) ∧
    (∀ ds dest name src cut,
      (coFailing.copyDirectory ds dest name src cut).2 = (false, none)) ∧
    (∃ s1, newSubDirectory coFailing 0 (some "new_folder") worldWorkCurrent = some s1 ∧
      s1.tree = worldWorkCurrent.tree) ∧
    (∃ s1 n, pasteDirectories coFailing 0 1700000050 7 (some 1) ["/nb/Personal"] false
        worldNotebook = some (s1, n) ∧
      s1.tree = { worldNotebook.tree with magic := s1.tree.magic } ∧
      ∃ extra, s1.log = worldNotebook.log ++ extra ∧
        ∀ item, Event.updateItemDirectChildren item ∉ extra) :=
  have h := failure_leaves_tree coFailing (fun _ _ _ => rfl) (fun _ _ _ _ _ => rfl)
  ⟨fun _ _ _ => rfl, fun _ _ _ _ _ => rfl, h.1 0 (some "new_folder") worldWorkCurrent,
    h.2.2 0 1700000050 7 (some 1) ["/nb/Personal"] false worldNotebook⟩

/-- C19 fails as stated, for delete and for paste.  Delete: Work is current and
`deleteDirectory` reports failure and changes nothing; the row of Work is gone.  Paste:
Personal is pasted into Work and `copyDirectory` reports failure and changes nothing, but
hands back a directory; the children of Work are reconciled and Work gets a row below it. -/
theorem failure_changes_tree :
    coFailing.deleteDirectory worldWorkCurrent.dirs 1 = (worldWorkCurrent.dirs, false) ∧
    worldWorkCurrent.tree.topLevel.map QTreeWidgetItem.ptr = [0, 1] ∧
    (deleteSelectedDirectory coFailing true none worldWorkCurrent).tree.topLevel.map
      QTreeWidgetItem.ptr = [1] ∧
    coSamePath.copyDirectory worldNotebook.dirs 1 "Personal" 2 false
      = (worldNotebook.dirs, false, some 2) ∧
    worldNotebook.tree.topLevel.map QTreeWidgetItem.childCount = [0, 0] ∧
    (pasteDirectories coSamePath 20 1700000050 7 (some 1) ["/nb/Personal"] false
        worldNotebook).map
      (fun r => (r.1.tree.topLevel.map QTreeWidgetItem.childCount, r.1.log))
      = some ([1, 0],
          [Event.copyDirectory 1 "Personal" 2 false, Event.warnCopyFailed "/nb/Personal",
            Event.updateItemDirectChildren (some 0), Event.directoryUpdated 2,
            Event.statusPasted 1]) := by
  refine ⟨rfl, ?_, ?_, rfl, ?_, ?_⟩ <;> decide

/-- C20: `getVisibleItems` returns exactly the addresses of the shown items (not hidden, all
ancestors not hidden and expanded), in the order of the depth-first listing of the tree (a
row before its children, siblings in child order); among distinct items it returns each once,
and a child is in the result if and only if it is not hidden and its parent is in the result
and expanded. -/
theorem getVisibleItems_spec (topLevel : List QTreeWidgetItem) :
    (∀ q, q ∈ getVisibleItems topLevel ↔ IsShown topLevel q) ∧
    (getVisibleItems topLevel).Sublist (allPtrs topLevel) ∧
    ((allPtrs topLevel).Nodup →
      (getVisibleItems topLevel).Nodup ∧
      ∀ p ∈ nodesList topLevel, ∀ c ∈ p.children,
        (c.ptr ∈ getVisibleItems topLevel ↔
          c.isHidden = false ∧ p.ptr ∈ getVisibleItems topLevel ∧ p.isExpanded = true)) :=
  ⟨mem_getVisibleItems_iff_isShown topLevel, getVisibleItems_sublist topLevel,
    fun hn => ⟨(getVisibleItems_sublist topLevel).nodup hn, child_row_iff topLevel hn⟩⟩

/-- Witness of C20: the sample rows; the hidden row and the row below the collapsed Personal
are left out. -/
theorem getVisibleItems_spec_witness :
    (allPtrs treeRows).Nodup ∧ allPtrs treeRows = [0, 2, 3, 1, 4] ∧
    getVisibleItems treeRows = [0, 2, 1] ∧ (getVisibleItems treeRows).Nodup :=
  ⟨by decide, by decide, by decide, ((getVisibleItems_spec treeRows).2.2 (by decide)).1⟩

end VNote
